import Mathlib

/-!
# A model of the EDK2 RedfishPkg JSON library (JsonLib)

The repository exposes `RedfishPkg/Include/Library/JsonLib.h`: a
reference-counted JSON value model (objects, arrays, strings, 64-bit
integers, singleton booleans and null) with container mutation,
deep cloning, and a text codec.  The implementation behind the header is
not part of the repository, so every definition below is modelled from
the specification and from the header's API documentation.

The model has two layers:

* a heap layer: values are either addresses of reference-counted heap
  nodes or the three non-counted singletons (`true`, `false`, `null`);
  the mutation surface (`JsonObjectSetValue`, `JsonArrayAppendValue`,
  `JsonArrayRemoveValue`, `JsonIncreaseReference`, `JsonValueFree`,
  `JsonValueClone`, ...) acts on an explicit heap;
* a pure tree layer (`JTree`) with the serializer and the
  recursive-descent parser (`JsonDumpString` / `JsonLoadString`).
-/

namespace JsonLib

/-- Modelled from the spec: a JSON value handle.  Object, array, string and
integer values live on the reference-counted heap and are denoted by their
address; `true`, `false` and `null` are process-wide singletons without a
reference count. -/
inductive JVal : Type where
  | addr (a : Nat)
  | jtrue
  | jfalse
  | jnull
deriving DecidableEq, Repr

/-- Modelled from the spec: the payload of a reference-counted heap node:
an object (ordered key/value entries with unique keys), an array (ordered
sequence), a string, or a 64-bit integer. -/
inductive JNode : Type where
  | obj (entries : List (String × JVal))
  | arr (elems : List JVal)
  | str (s : String)
  | int (i : Int)
deriving DecidableEq, Repr

/-- The children of a node: the values attached inside a container. -/
def children : JNode → List JVal
  | .obj es => es.map Prod.snd
  | .arr es => es
  | .str _ => []
  | .int _ => []

/-- Modelled from the spec: the heap of live reference-counted values.
`nodes` associates an address with its reference count and payload;
`next` is the allocator's next fresh address. -/
structure Heap : Type where
  next : Nat
  nodes : List (Nat × Nat × JNode)
deriving DecidableEq, Repr

/-- Look an address up in a node list (first matching entry). -/
def findN (a : Nat) : List (Nat × Nat × JNode) → Option (Nat × JNode)
  | [] => none
  | p :: ps => if p.1 = a then some p.2 else findN a ps

/-- Replace the entry of address `a` (first occurrence) by `e`. -/
def updN (a : Nat) (e : Nat × JNode) : List (Nat × Nat × JNode) → List (Nat × Nat × JNode)
  | [] => []
  | p :: ps => if p.1 = a then (a, e) :: ps else p :: updN a e ps

/-- Remove the entry of address `a`. -/
def remN (a : Nat) : List (Nat × Nat × JNode) → List (Nat × Nat × JNode)
  | [] => []
  | p :: ps => if p.1 = a then remN a ps else p :: remN a ps

/-- Heap lookup. -/
def Heap.find (h : Heap) (a : Nat) : Option (Nat × JNode) := findN a h.nodes

/-- Update one heap cell. -/
def Heap.upd (h : Heap) (a : Nat) (e : Nat × JNode) : Heap :=
  ⟨h.next, updN a e h.nodes⟩

/-- Remove one heap cell. -/
def Heap.rem (h : Heap) (a : Nat) : Heap := ⟨h.next, remN a h.nodes⟩

/-- The number of live (non-singleton) values. -/
def liveCount (h : Heap) : Nat := h.nodes.length

/-- The reference count a value currently has (0 for singletons and for
absent addresses, which carry no count). -/
def rcOf (h : Heap) (v : JVal) : Nat :=
  match v with
  | .addr a => match h.find a with
    | some (rc, _) => rc
    | none => 0
  | _ => 0

/-- Core retain: increment the reference count of a live heap value;
singletons are untouched. -/
def retain (h : Heap) (v : JVal) : Heap :=
  match v with
  | .addr a => match h.find a with
    | some (rc, n) => h.upd a (rc + 1, n)
    | none => h
  | _ => h

/-- Core release, fuelled: decrement the reference count; on reaching
zero the node is destroyed and every attached child is released in turn
(the cascade can free at most one node per fuel unit, so any fuel larger
than the heap size is enough). Singletons are untouched. -/
def releaseFuel : Nat → Heap → JVal → Heap
  | 0, h, _ => h
  | fuel + 1, h, .addr a =>
    match h.find a with
    | none => h
    | some (rc, n) =>
      if rc ≤ 1 then (children n).foldl (releaseFuel fuel) (h.rem a)
      else h.upd a (rc - 1, n)
  | _ + 1, h, _ => h

/-- Core release with always-sufficient fuel. -/
def release (h : Heap) (v : JVal) : Heap := releaseFuel (h.nodes.length + 1) h v

/-- Modelled from the spec: `JsonIncreaseReference` (the missing
implementation of the header's retain API): increments the reference
count of a non-NULL value and returns it unchanged; a NULL handle or a
singleton is safely ignored. -/
def JsonIncreaseReference (h : Heap) (v : Option JVal) : Heap :=
  match v with
  | some w => retain h w
  | none => h

/-- Modelled from the spec: `JsonValueFree` / `JsonDecreaseReference`
(the missing implementation): decrements the reference count; on zero
the value is destroyed and all contained values are released; NULL and
singletons are no-ops. -/
def JsonValueFree (h : Heap) (v : Option JVal) : Heap :=
  match v with
  | some w => release h w
  | none => h

/-- Modelled from the spec: the three-way status contract, reporting
success or a caller error. -/
inductive EfiStatus : Type where
  | success
  | aborted
deriving DecidableEq, Repr

/-- Modelled from the spec: `JsonObjectSize` (the missing
implementation): the number of entries of a JSON object, or 0 if the
handle is NULL or not an object. -/
def JsonObjectSize (h : Heap) (v : Option JVal) : Nat :=
  match v with
  | some (.addr a) => match h.find a with
    | some (_, .obj es) => es.length
    | _ => 0
  | _ => 0

/-- Modelled from the spec: `JsonArrayCount` (the missing
implementation): the number of elements of a JSON array, or 0 if the
handle is NULL or not an array. -/
def JsonArrayCount (h : Heap) (v : Option JVal) : Nat :=
  match v with
  | some (.addr a) => match h.find a with
    | some (_, .arr es) => es.length
    | _ => 0
  | _ => 0

/-- Modelled from the spec: `JsonArrayGetValue` (the missing
implementation): bounds-checked indexed access; NULL when the handle is
not an array or the index is out of range. -/
def JsonArrayGetValue (h : Heap) (v : Option JVal) (i : Nat) : Option JVal :=
  match v with
  | some (.addr a) => match h.find a with
    | some (_, .arr es) => es[i]?
    | _ => none
  | _ => none

/-- Modelled from the spec: `JsonArrayAppendValue` (the missing
implementation): appends a value at the end of the array and increments
its reference count by 1; reports a caller error when the target is not
an array. -/
def JsonArrayAppendValue (h : Heap) (v : Option JVal) (x : JVal) : EfiStatus × Heap :=
  match v with
  | some (.addr a) => match h.find a with
    | some (rc, .arr es) => (.success, retain (h.upd a (rc, .arr (es ++ [x]))) x)
    | _ => (.aborted, h)
  | _ => (.aborted, h)

/-- Modelled from the spec: `JsonArrayRemoveValue` (the missing
implementation): removes the element at `i`, shifting the following
elements one position towards the start, and releases the removed
element (its reference count drops by 1); out of range or a non-array
target is a reported failure, not a fault. -/
def JsonArrayRemoveValue (h : Heap) (v : Option JVal) (i : Nat) : EfiStatus × Heap :=
  match v with
  | some (.addr a) => match h.find a with
    | some (rc, .arr es) =>
      match es[i]? with
      | some x => (.success, release (h.upd a (rc, .arr (es.eraseIdx i))) x)
      | none => (.aborted, h)
    | _ => (.aborted, h)
  | _ => (.aborted, h)

/-- Look a key up in an object's entry list. -/
def findE (k : String) : List (String × JVal) → Option JVal
  | [] => none
  | p :: ps => if p.1 = k then some p.2 else findE k ps

/-- Replace the value of key `k` in place (first occurrence), keeping
the relative order of all entries. -/
def replE (k : String) (v : JVal) : List (String × JVal) → List (String × JVal)
  | [] => []
  | p :: ps => if p.1 = k then (k, v) :: ps else p :: replE k v ps

/-- Modelled from the spec: `JsonObjectGetValue` (the missing
implementation): keyed lookup returning a reference to the stored value,
or NULL when the key is absent or the handle is not an object. -/
def JsonObjectGetValue (h : Heap) (v : Option JVal) (k : String) : Option JVal :=
  match v with
  | some (.addr a) => match h.find a with
    | some (_, .obj es) => findE k es
    | _ => none
  | _ => none

/-- Modelled from the spec: `JsonObjectSetValue` (the missing
implementation): retains the incoming value; if the key already exists
the new value replaces the old one in place (the relative order of the
other keys is untouched) and the old value is released; otherwise the
entry is appended.  A non-object target is a reported caller error. -/
def JsonObjectSetValue (h : Heap) (v : Option JVal) (k : String) (x : JVal) :
    EfiStatus × Heap :=
  match v with
  | some (.addr a) => match h.find a with
    | some (rc, .obj es) =>
      match findE k es with
      | some old => (.success, release (retain (h.upd a (rc, .obj (replE k x es))) x) old)
      | none => (.success, retain (h.upd a (rc, .obj (es ++ [(k, x)]))) x)
    | _ => (.aborted, h)
  | _ => (.aborted, h)

/-- Modelled from the spec: `JsonValueGetInteger` (the missing
implementation): on an integer value returns the stored integer; on a
NULL handle or any other kind it signals the caller-contract violation
(the ASSERT, the second component) and returns the 0 sentinel. -/
def JsonValueGetInteger (h : Heap) (v : Option JVal) : Int × Bool :=
  match v with
  | some (.addr a) => match h.find a with
    | some (_, .int i) => (i, false)
    | _ => (0, true)
  | _ => (0, true)

/-- Modelled from the spec: `JsonValueGetBoolean` (the missing
implementation): on a boolean singleton returns the stored boolean; on a
NULL handle or any other kind it signals the caller-contract violation
(the ASSERT, the second component) and returns the FALSE sentinel. -/
def JsonValueGetBoolean (_h : Heap) (v : Option JVal) : Bool × Bool :=
  match v with
  | some .jtrue => (true, false)
  | some .jfalse => (false, false)
  | _ => (false, true)

/-- Modelled from the spec: `JsonValueIsObject` (the missing
implementation): an O(1) tag check tolerating a NULL handle. -/
def JsonValueIsObject (h : Heap) (v : Option JVal) : Bool :=
  match v with
  | some (.addr a) => match h.find a with
    | some (_, .obj _) => true
    | _ => false
  | _ => false

/-- Modelled from the spec: `JsonValueIsArray` (the missing
implementation): an O(1) tag check tolerating a NULL handle. -/
def JsonValueIsArray (h : Heap) (v : Option JVal) : Bool :=
  match v with
  | some (.addr a) => match h.find a with
    | some (_, .arr _) => true
    | _ => false
  | _ => false

/-- Modelled from the spec: `JsonValueIsInteger` (the missing
implementation): an O(1) tag check tolerating a NULL handle. -/
def JsonValueIsInteger (h : Heap) (v : Option JVal) : Bool :=
  match v with
  | some (.addr a) => match h.find a with
    | some (_, .int _) => true
    | _ => false
  | _ => false

/-- Modelled from the spec: `JsonValueIsBoolean` (the missing
implementation): an O(1) tag check tolerating a NULL handle. -/
def JsonValueIsBoolean (v : Option JVal) : Bool :=
  match v with
  | some .jtrue => true
  | some .jfalse => true
  | _ => false

/-- The payload stored at an address, ignoring the reference count. -/
def nodeOf (h : Heap) (b : Nat) : Option JNode := (h.find b).map Prod.snd

/-- Fuelled reachability: does the value graph rooted at `v` contain the
address `x`?  Singletons have no children. -/
def reachF : Nat → Heap → JVal → Nat → Bool
  | 0, _, v, x => match v with
    | .addr b => b == x
    | _ => false
  | f + 1, h, v, x => match v with
    | .addr b => (b == x) ||
      (match nodeOf h b with
       | some n => (children n).any fun c => reachF f h c x
       | none => false)
    | _ => false

/-- The entry-list effect of one `JsonObjectSetValue` call: replace in
place when the key exists, append otherwise. -/
def setE (es : List (String × JVal)) (k : String) (v : JVal) : List (String × JVal) :=
  match findE k es with
  | some _ => replE k v es
  | none => es ++ [(k, v)]

/-- Run a sequence of `JsonObjectSetValue` calls against the object at
address `a`. -/
def runSets (h : Heap) (a : Nat) (seq : List (String × JVal)) : Heap :=
  seq.foldl (fun hh p => (JsonObjectSetValue hh (some (.addr a)) p.1 p.2).2) h

/-- The entry-list effect of a whole sequence of `JsonObjectSetValue`
calls. -/
def foldSetE (es0 : List (String × JVal)) (seq : List (String × JVal)) :
    List (String × JVal) :=
  seq.foldl (fun es p => setE es p.1 p.2) es0

/-- Modelled from the spec: the operations of the balanced-sequence
property — Retain, Release (`JsonValueFree`/`JsonDecreaseReference`),
object Set, array Append and array RemoveAt. -/
inductive Op : Type where
  | retainOp (v : Option JVal)
  | releaseOp (v : Option JVal)
  | setOp (target : Option JVal) (k : String) (v : JVal)
  | appendOp (target : Option JVal) (v : JVal)
  | removeOp (target : Option JVal) (i : Nat)

/-- Execute one operation of the sequence. -/
def step (h : Heap) : Op → Heap
  | .retainOp v => JsonIncreaseReference h v
  | .releaseOp v => JsonValueFree h v
  | .setOp t k v => (JsonObjectSetValue h t k v).2
  | .appendOp t v => (JsonArrayAppendValue h t v).2
  | .removeOp t i => (JsonArrayRemoveValue h t i).2

/-- Execute a sequence of operations. -/
def run (h : Heap) (ops : List Op) : Heap := ops.foldl step h

/-- Modelled from the spec: a sequence is overall balanced from heap `h`
when along every prefix no value's reference count drops below its
initial value (every release/detach is matched by an earlier
retain/attach of that value) and at the end every reference count is
back to its initial value. -/
def Balanced (h : Heap) (ops : List Op) : Prop :=
  (∀ p q, p ++ q = ops → ∀ x, rcOf h (.addr x) ≤ rcOf (run h p) (.addr x)) ∧
  (∀ x, rcOf (run h ops) (.addr x) = rcOf h (.addr x))

/-- One heap is a sub-heap of another when every address it populates is
populated in the other with the same payload (reference counts may
differ).  Releasing can only shrink a heap in this sense. -/
def SubNodes (h₂ h₁ : Heap) : Prop :=
  ∀ b n, nodeOf h₂ b = some n → nodeOf h₁ b = some n

/-! ### The pure tree codec: serializer and parser -/

/-- Modelled from the spec: pure JSON document trees over the supported
kinds — object, array, string, 64-bit integer, boolean and null. -/
inductive JTree : Type where
  | jobj (entries : List (String × JTree))
  | jarr (elems : List JTree)
  | jstr (s : String)
  | jint (i : Int)
  | jbool (b : Bool)
  | jnull
deriving Repr

/-- One decimal digit as a character. -/
def digitChar : Nat → Char
  | 0 => '0' | 1 => '1' | 2 => '2' | 3 => '3' | 4 => '4'
  | 5 => '5' | 6 => '6' | 7 => '7' | 8 => '8' | _ => '9'

/-- Decimal text of a natural number (most significant digit first). -/
def serializeNat (n : Nat) : List Char :=
  if n = 0 then ['0'] else (Nat.digits 10 n).reverse.map digitChar

/-- Decimal text of an integer. -/
def serializeInt (i : Int) : List Char :=
  if i < 0 then '-' :: serializeNat i.natAbs else serializeNat i.natAbs

/-- One hexadecimal digit as a character. -/
def hexChar : Nat → Char
  | 0 => '0' | 1 => '1' | 2 => '2' | 3 => '3' | 4 => '4' | 5 => '5'
  | 6 => '6' | 7 => '7' | 8 => '8' | 9 => '9' | 10 => 'a' | 11 => 'b'
  | 12 => 'c' | 13 => 'd' | 14 => 'e' | _ => 'f'

/-- JSON string escaping of one character: quotes and backslashes get a
backslash escape, control characters a \u00XX escape, anything else is
emitted literally. -/
def escapeChar (c : Char) : List Char :=
  if c = '"' then ['\\', '"']
  else if c = '\\' then ['\\', '\\']
  else if c.toNat < 32 then
    ['\\', 'u', '0', '0', hexChar (c.toNat / 16), hexChar (c.toNat % 16)]
  else [c]

/-- Escape a whole character list. -/
def escList (cs : List Char) : List Char :=
  cs.foldr (fun c acc => escapeChar c ++ acc) []

/-- Serialized form of a JSON string. -/
def serializeStr (s : String) : List Char :=
  '"' :: escList s.data ++ ['"']

/-- Modelled from the spec: the encoding flags of `JsonDumpString` that
this model covers — `EDKII_JSON_COMPACT` (drop the space after `,` and
`:`) and `EDKII_JSON_ENCODE_ANY` (allow non-container roots). -/
structure EncFlags : Type where
  compact : Bool
  encodeAny : Bool
deriving DecidableEq, Repr

/-- The element separator (jansson emits a space after the comma unless
compact output was requested). -/
def elemSep (fl : EncFlags) : List Char := if fl.compact then [','] else [',', ' ']

/-- The key/value separator. -/
def colonSep (fl : EncFlags) : List Char := if fl.compact then [':'] else [':', ' ']

mutual
/-- Modelled from the spec: the recursive serializer behind
`JsonDumpString` on pure trees. -/
def dumpV (fl : EncFlags) : JTree → List Char
  | .jnull => ['n', 'u', 'l', 'l']
  | .jbool true => ['t', 'r', 'u', 'e']
  | .jbool false => ['f', 'a', 'l', 's', 'e']
  | .jint i => serializeInt i
  | .jstr s => serializeStr s
  | .jarr es => '[' :: dumpElems fl es ++ [']']
  | .jobj es => '{' :: dumpEntries fl es ++ ['}']

/-- Serialize array elements separated by `elemSep`. -/
def dumpElems (fl : EncFlags) : List JTree → List Char
  | [] => []
  | [t] => dumpV fl t
  | t :: ts => dumpV fl t ++ elemSep fl ++ dumpElems fl ts

/-- Serialize object entries separated by `elemSep`. -/
def dumpEntries (fl : EncFlags) : List (String × JTree) → List Char
  | [] => []
  | [(k, t)] => serializeStr k ++ colonSep fl ++ dumpV fl t
  | (k, t) :: es => serializeStr k ++ colonSep fl ++ dumpV fl t ++ elemSep fl ++
      dumpEntries fl es
end

/-- Modelled from the spec: the top level of `JsonDumpString` on pure
trees: the root must be an object or array unless `EDKII_JSON_ENCODE_ANY`
is given; on failure NULL is returned. -/
def dumps (fl : EncFlags) (t : JTree) : Option String :=
  match t with
  | .jobj _ => some (String.mk (dumpV fl t))
  | .jarr _ => some (String.mk (dumpV fl t))
  | _ => if fl.encodeAny then some (String.mk (dumpV fl t)) else none

/-- Modelled from the spec: the decoding flags of `JsonLoadString` that
this model covers — `EDKII_JSON_DECODE_ANY` (allow non-container roots)
and `EDKII_JSON_DECODE_INT_AS_REAL` (decode a number with a fractional
part by truncating it to an integer instead of rejecting it). -/
structure DecFlags : Type where
  decodeAny : Bool
  decodeIntAsReal : Bool
deriving DecidableEq, Repr

/-- Modelled from the spec: the structured parse diagnostic
(`EDKII_JSON_ERROR`): a byte position and a message; the other header
fields (line and column) are derived presentation of the position. -/
structure JsonError : Type where
  position : Nat
  text : String
deriving DecidableEq, Repr

/-- Internal parse error: the length of the remaining input at the point
of failure (turned into an absolute position at the top level) plus a
message. -/
structure PErr : Type where
  remaining : Nat
  msg : String
deriving DecidableEq, Repr

/-- JSON whitespace. -/
def isWs (c : Char) : Bool := c = ' ' || c = '\t' || c = '\n' || c = '\r'

/-- Skip leading whitespace. -/
def skipWs : List Char → List Char
  | [] => []
  | c :: cs => if isWs c then skipWs cs else c :: cs

/-- Decimal digit test. -/
def isDigit (c : Char) : Bool := 48 ≤ c.toNat && c.toNat ≤ 57

/-- Value of a decimal digit character. -/
def digVal (c : Char) : Nat := c.toNat - 48

/-- Value of a hexadecimal digit character, if any. -/
def hexVal (c : Char) : Option Nat :=
  if 48 ≤ c.toNat && c.toNat ≤ 57 then some (c.toNat - 48)
  else if 97 ≤ c.toNat && c.toNat ≤ 102 then some (c.toNat - 87)
  else if 65 ≤ c.toNat && c.toNat ≤ 70 then some (c.toNat - 55)
  else none

/-- Single-character escapes accepted after a backslash. -/
def unescape : Char → Option Char
  | '"' => some '"'
  | '\\' => some '\\'
  | '/' => some '/'
  | 'b' => some (Char.ofNat 8)
  | 'f' => some (Char.ofNat 12)
  | 'n' => some '\n'
  | 'r' => some (Char.ofNat 13)
  | 't' => some '\t'
  | _ => none

/-- Parse the body of a string literal (after the opening quote) up to
the closing quote, decoding escapes; control characters must be escaped
and lone surrogate escapes are rejected. -/
def parseStrBody : Nat → List Char → Except PErr (List Char × List Char)
  | 0, cs => .error ⟨cs.length, "string nesting budget exhausted"⟩
  | _ + 1, [] => .error ⟨0, "unterminated string"⟩
  | f + 1, c :: cs =>
    if c = '"' then .ok ([], cs)
    else if c = '\\' then
      match cs with
      | [] => .error ⟨0, "unterminated escape"⟩
      | e :: cs2 =>
        if e = 'u' then
          match cs2 with
          | h1 :: h2 :: h3 :: h4 :: cs3 =>
            match hexVal h1, hexVal h2, hexVal h3, hexVal h4 with
            | some v1, some v2, some v3, some v4 =>
              let v := ((v1 * 16 + v2) * 16 + v3) * 16 + v4
              if 0xD800 ≤ v && v < 0xE000 then
                .error ⟨cs3.length, "lone surrogate escape"⟩
              else
                match parseStrBody f cs3 with
                | .ok (r, rest) => .ok (Char.ofNat v :: r, rest)
                | .error er => .error er
            | _, _, _, _ => .error ⟨cs2.length, "invalid unicode escape"⟩
          | _ => .error ⟨cs2.length, "invalid unicode escape"⟩
        else
          match unescape e with
          | some c2 =>
            match parseStrBody f cs2 with
            | .ok (r, rest) => .ok (c2 :: r, rest)
            | .error er => .error er
          | none => .error ⟨cs2.length, "invalid escape"⟩
    else if c.toNat < 32 then .error ⟨cs.length + 1, "control character in string"⟩
    else
      match parseStrBody f cs with
      | .ok (r, rest) => .ok (c :: r, rest)
      | .error er => .error er

/-- Split the longest run of decimal digits off the front. -/
def takeDigits : List Char → List Char × List Char
  | [] => ([], [])
  | c :: cs =>
    if isDigit c then
      let (ds, rest) := takeDigits cs
      (c :: ds, rest)
    else ([], c :: cs)

/-- 64-bit signed range check (`json_int_t` is INT64 here). -/
def rangeOk (i : Int) : Bool := decide (-(2 ^ 63) ≤ i) && decide (i < 2 ^ 63)

/-- Does the input start with an exponent marker? -/
def headIsExp : List Char → Bool
  | c :: _ => c = 'e' || c = 'E'
  | [] => false

/-- Strip an optional leading minus sign. -/
def numSign : List Char → Bool × List Char
  | c :: rest => if c = '-' then (true, rest) else (false, c :: rest)
  | [] => (false, [])

/-- Finish a number token after its integer digits: a fractional part is
a parse failure unless `EDKII_JSON_DECODE_INT_AS_REAL` is given, in
which case the fractional part is truncated; exponent notation is always
rejected; out-of-range integers are rejected. -/
def parseNumTail (fl : DecFlags) (ival : Int) : List Char → Except PErr (JTree × List Char)
  | [] =>
    if rangeOk ival then .ok (.jint ival, ([] : List Char))
    else .error ⟨0, "integer overflow"⟩
  | c :: rest2 =>
    if c = '.' then
      if fl.decodeIntAsReal then
        match takeDigits rest2 with
        | ([], _) => .error ⟨rest2.length, "invalid real"⟩
        | (_ :: _, rest3) =>
          if headIsExp rest3 then .error ⟨rest3.length, "exponent not supported"⟩
          else if rangeOk ival then .ok (.jint ival, rest3)
          else .error ⟨rest3.length, "integer overflow"⟩
      else .error ⟨rest2.length + 1, "real number not supported"⟩
    else if c = 'e' || c = 'E' then .error ⟨rest2.length + 1, "exponent not supported"⟩
    else if rangeOk ival then .ok (.jint ival, c :: rest2)
    else .error ⟨rest2.length + 1, "integer overflow"⟩

/-- Modelled from the spec: number token parsing (a minus sign, decimal
digits without a superfluous leading zero, then `parseNumTail`). -/
def parseNumber (fl : DecFlags) (cs : List Char) : Except PErr (JTree × List Char) :=
  match numSign cs with
  | (neg, body) =>
    match takeDigits body with
    | ([], _) => .error ⟨body.length, "invalid number"⟩
    | (d :: ds, rest) =>
      if d = '0' && ds ≠ [] then .error ⟨body.length, "leading zero"⟩
      else
        parseNumTail fl
          (if neg then -(((d :: ds).foldl (fun a c => 10 * a + digVal c) 0 : Nat) : Int)
           else (((d :: ds).foldl (fun a c => 10 * a + digVal c) 0 : Nat) : Int)) rest

/-- Look a key up in a tree-level entry list. -/
def findT (k : String) : List (String × JTree) → Option JTree
  | [] => none
  | p :: ps => if p.1 = k then some p.2 else findT k ps

/-- Replace the value of key `k` in place in a tree-level entry list. -/
def replT (k : String) (t : JTree) : List (String × JTree) → List (String × JTree)
  | [] => []
  | p :: ps => if p.1 = k then (k, t) :: ps else p :: replT k t ps

/-- Last-wins insertion used while parsing object entries (duplicate
keys replace the earlier value, jansson's default behavior). -/
def insT (es : List (String × JTree)) (k : String) (t : JTree) :
    List (String × JTree) :=
  match findT k es with
  | some _ => replT k t es
  | none => es ++ [(k, t)]

mutual
/-- Modelled from the spec: the recursive-descent value parser behind
`JsonLoadString`/`JsonLoadBuffer`. -/
def parseV (fl : DecFlags) : Nat → List Char → Except PErr (JTree × List Char)
  | 0, cs => .error ⟨cs.length, "nesting budget exhausted"⟩
  | f + 1, cs =>
    match skipWs cs with
    | [] => .error ⟨0, "unexpected end of input"⟩
    | '{' :: rest =>
      match skipWs rest with
      | '}' :: rest2 => .ok (.jobj [], rest2)
      | rest2 => parseObjItems fl f [] rest2
    | '[' :: rest =>
      match skipWs rest with
      | ']' :: rest2 => .ok (.jarr [], rest2)
      | rest2 => parseArrItems fl f [] rest2
    | '"' :: rest =>
      match parseStrBody (rest.length + 1) rest with
      | .ok (chars, rest2) => .ok (.jstr (String.mk chars), rest2)
      | .error er => .error er
    | 'n' :: 'u' :: 'l' :: 'l' :: rest => .ok (.jnull, rest)
    | 't' :: 'r' :: 'u' :: 'e' :: rest => .ok (.jbool true, rest)
    | 'f' :: 'a' :: 'l' :: 's' :: 'e' :: rest => .ok (.jbool false, rest)
    | c :: rest =>
      if c = '-' || isDigit c then parseNumber fl (c :: rest)
      else .error ⟨rest.length + 1, "unexpected character"⟩

/-- Parse the remaining elements of a non-empty array. -/
def parseArrItems (fl : DecFlags) : Nat → List JTree → List Char →
    Except PErr (JTree × List Char)
  | 0, _, cs => .error ⟨cs.length, "nesting budget exhausted"⟩
  | f + 1, acc, cs =>
    match parseV fl f cs with
    | .error er => .error er
    | .ok (t, rest) =>
      match skipWs rest with
      | ',' :: rest2 => parseArrItems fl f (acc ++ [t]) rest2
      | ']' :: rest2 => .ok (.jarr (acc ++ [t]), rest2)
      | rest2 => .error ⟨rest2.length, "expected comma or closing bracket"⟩

/-- Parse the remaining entries of a non-empty object. -/
def parseObjItems (fl : DecFlags) : Nat → List (String × JTree) → List Char →
    Except PErr (JTree × List Char)
  | 0, _, cs => .error ⟨cs.length, "nesting budget exhausted"⟩
  | f + 1, acc, cs =>
    match skipWs cs with
    | '"' :: rest =>
      match parseStrBody (rest.length + 1) rest with
      | .error er => .error er
      | .ok (kcs, rest2) =>
        match skipWs rest2 with
        | ':' :: rest3 =>
          match parseV fl f rest3 with
          | .error er => .error er
          | .ok (t, rest4) =>
            match skipWs rest4 with
            | ',' :: rest5 => parseObjItems fl f (insT acc (String.mk kcs) t) rest5
            | '}' :: rest5 => .ok (.jobj (insT acc (String.mk kcs) t), rest5)
            | rest5 => .error ⟨rest5.length, "expected comma or closing brace"⟩
        | rest3 => .error ⟨rest3.length, "expected colon"⟩
    | rest => .error ⟨rest.length, "expected string key"⟩
end

/-- Modelled from the spec: `JsonLoadString` (the missing
implementation): parse a whole document; trailing garbage is rejected
and the root must be an object or array unless `EDKII_JSON_DECODE_ANY`
is given.  Failures carry a structured diagnostic. -/
def JsonLoadString (s : String) (fl : DecFlags) : Except JsonError JTree :=
  let cs := s.data
  match parseV fl (cs.length + 1) cs with
  | .error er => .error ⟨cs.length - er.remaining, er.msg⟩
  | .ok (t, rest) =>
    match skipWs rest with
    | [] =>
      match t with
      | .jobj _ => .ok t
      | .jarr _ => .ok t
      | _ =>
        if fl.decodeAny then .ok t
        else .error ⟨0, "root must be object or array"⟩
    | rest2 => .error ⟨cs.length - rest2.length, "trailing garbage"⟩

/-- ASCII-only check (strings are built by `JsonValueInitAsciiString`,
which rejects non-ASCII input). -/
def asciiOk (s : String) : Bool := s.data.all fun c => c.toNat < 128

mutual
/-- Well-formed trees: ASCII strings and keys, unique object keys,
64-bit integers — exactly the values constructible through the library
API. -/
def wfT : JTree → Bool
  | .jobj es => decide ((es.map Prod.fst).Nodup) && wfE es
  | .jarr es => wfL es
  | .jstr s => asciiOk s
  | .jint i => rangeOk i
  | .jbool _ => true
  | .jnull => true

/-- Well-formedness of array elements. -/
def wfL : List JTree → Bool
  | [] => true
  | t :: ts => wfT t && wfL ts

/-- Well-formedness of object entries. -/
def wfE : List (String × JTree) → Bool
  | [] => true
  | (k, t) :: es => asciiOk k && wfT t && wfE es
end

mutual
/-- The parser fuel needed for a value produced by the serializer. -/
def pdepth : JTree → Nat
  | .jobj es => 1 + pdepthE es
  | .jarr es => 1 + pdepthL es
  | _ => 1

/-- Parser fuel needed for array elements. -/
def pdepthL : List JTree → Nat
  | [] => 0
  | t :: ts => 1 + pdepth t + pdepthL ts

/-- Parser fuel needed for object entries. -/
def pdepthE : List (String × JTree) → Nat
  | [] => 0
  | (_, t) :: es => 1 + pdepth t + pdepthE es
end

/-- A container root (only object and array roots are accepted by
default). -/
def isContainerT : JTree → Bool
  | .jobj _ => true
  | .jarr _ => true
  | _ => false

/-- The continuation after a number token must not extend the token. -/
def NumSafe (rest : List Char) : Prop :=
  ∀ c cs2, rest = c :: cs2 → (isDigit c = false ∧ c ≠ '.' ∧ c ≠ 'e' ∧ c ≠ 'E')

/-- A list of whitespace characters. -/
def AllWs (sp : List Char) : Prop := ∀ c ∈ sp, isWs c = true

/-! ### Heap-level serializer, clone and read-back -/

mutual
/-- Modelled from the spec: the recursive serializer behind
`JsonDumpString` walking the reference-counted value graph; the heap is
threaded through the traversal (the encoder takes the value handle and
could in principle change the heap — the purity theorem shows it does
not). -/
def dumpHV (fl : EncFlags) : Nat → Heap → JVal → Option (List Char) × Heap
  | 0, h, _ => (none, h)
  | _ + 1, h, .jtrue => (some ['t', 'r', 'u', 'e'], h)
  | _ + 1, h, .jfalse => (some ['f', 'a', 'l', 's', 'e'], h)
  | _ + 1, h, .jnull => (some ['n', 'u', 'l', 'l'], h)
  | f + 1, h, .addr a =>
    match nodeOf h a with
    | none => (none, h)
    | some (.str s) => (some (serializeStr s), h)
    | some (.int i) => (some (serializeInt i), h)
    | some (.arr es) =>
      match dumpHL fl f h es with
      | (some body, h2) => (some ('[' :: body ++ [']']), h2)
      | (none, h2) => (none, h2)
    | some (.obj es) =>
      match dumpHE fl f h es with
      | (some body, h2) => (some ('{' :: body ++ ['}']), h2)
      | (none, h2) => (none, h2)

/-- Serialize the elements of a heap array. -/
def dumpHL (fl : EncFlags) : Nat → Heap → List JVal → Option (List Char) × Heap
  | 0, h, _ => (none, h)
  | _ + 1, h, [] => (some [], h)
  | f + 1, h, [v] => dumpHV fl f h v
  | f + 1, h, v :: vs =>
    match dumpHV fl f h v with
    | (some cv, h2) =>
      match dumpHL fl f h2 vs with
      | (some cs, h3) => (some (cv ++ elemSep fl ++ cs), h3)
      | (none, h3) => (none, h3)
    | (none, h2) => (none, h2)

/-- Serialize the entries of a heap object. -/
def dumpHE (fl : EncFlags) : Nat → Heap → List (String × JVal) →
    Option (List Char) × Heap
  | 0, h, _ => (none, h)
  | _ + 1, h, [] => (some [], h)
  | f + 1, h, [(k, v)] =>
    match dumpHV fl f h v with
    | (some cv, h2) => (some (serializeStr k ++ colonSep fl ++ cv), h2)
    | (none, h2) => (none, h2)
  | f + 1, h, (k, v) :: es =>
    match dumpHV fl f h v with
    | (some cv, h2) =>
      match dumpHE fl f h2 es with
      | (some cs, h3) =>
        (some (serializeStr k ++ colonSep fl ++ cv ++ elemSep fl ++ cs), h3)
      | (none, h3) => (none, h3)
    | (none, h2) => (none, h2)
end

/-- Modelled from the spec: `JsonDumpString` (the missing
implementation) on the heap: a NULL handle gives NULL; a non-container
root is rejected unless `EDKII_JSON_ENCODE_ANY` is given; otherwise the
value graph is serialized. -/
def JsonDumpString (h : Heap) (v : Option JVal) (fl : EncFlags) :
    Option String × Heap :=
  match v with
  | none => (none, h)
  | some w =>
    let ok := match w with
      | .addr a =>
        match nodeOf h a with
        | some (.obj _) => true
        | some (.arr _) => true
        | some _ => fl.encodeAny
        | none => false
      | _ => fl.encodeAny
    if ok then
      match dumpHV fl (h.nodes.length + 1) h w with
      | (some cs, h2) => (some (String.mk cs), h2)
      | (none, h2) => (none, h2)
    else (none, h)

mutual
/-- Modelled from the spec: the recursive deep copy behind
`JsonValueClone`: singletons are shared, every reference-counted node is
copied to a fresh address with reference count 1. -/
def cloneF : Nat → Heap → JVal → Option JVal × Heap
  | 0, h, _ => (none, h)
  | _ + 1, h, .jtrue => (some .jtrue, h)
  | _ + 1, h, .jfalse => (some .jfalse, h)
  | _ + 1, h, .jnull => (some .jnull, h)
  | f + 1, h, .addr a =>
    match nodeOf h a with
    | none => (none, h)
    | some (.str s) =>
      (some (.addr h.next), ⟨h.next + 1, (h.next, 1, .str s) :: h.nodes⟩)
    | some (.int i) =>
      (some (.addr h.next), ⟨h.next + 1, (h.next, 1, .int i) :: h.nodes⟩)
    | some (.arr es) =>
      match cloneListF f h es with
      | (some es2, h2) =>
        (some (.addr h2.next), ⟨h2.next + 1, (h2.next, 1, .arr es2) :: h2.nodes⟩)
      | (none, h2) => (none, h2)
    | some (.obj es) =>
      match cloneEntriesF f h es with
      | (some es2, h2) =>
        (some (.addr h2.next), ⟨h2.next + 1, (h2.next, 1, .obj es2) :: h2.nodes⟩)
      | (none, h2) => (none, h2)

/-- Deep-copy the elements of an array. -/
def cloneListF : Nat → Heap → List JVal → Option (List JVal) × Heap
  | 0, h, _ => (none, h)
  | _ + 1, h, [] => (some [], h)
  | f + 1, h, v :: vs =>
    match cloneF f h v with
    | (some v2, h2) =>
      match cloneListF f h2 vs with
      | (some vs2, h3) => (some (v2 :: vs2), h3)
      | (none, h3) => (none, h3)
    | (none, h2) => (none, h2)

/-- Deep-copy the entries of an object. -/
def cloneEntriesF : Nat → Heap → List (String × JVal) →
    Option (List (String × JVal)) × Heap
  | 0, h, _ => (none, h)
  | _ + 1, h, [] => (some [], h)
  | f + 1, h, (k, v) :: es =>
    match cloneF f h v with
    | (some v2, h2) =>
      match cloneEntriesF f h2 es with
      | (some es2, h3) => (some ((k, v2) :: es2), h3)
      | (none, h3) => (none, h3)
    | (none, h2) => (none, h2)
end

/-- Modelled from the spec: `JsonValueClone` (the missing
implementation): NULL gives NULL; otherwise a deep copy of the value
graph whose nodes all carry reference count 1 (a path in an acyclic
graph visits each live node at most once, so the heap size bounds the
recursion depth). -/
def JsonValueClone (h : Heap) (v : Option JVal) : Option JVal × Heap :=
  match v with
  | none => (none, h)
  | some w => cloneF (h.nodes.length + 1) h w

mutual
/-- Fuelled structural read-back of a value graph as a pure tree (`none`
when the fuel runs out or an address dangles). -/
def toTreeF : Nat → Heap → JVal → Option JTree
  | 0, _, _ => none
  | _ + 1, _, .jtrue => some (.jbool true)
  | _ + 1, _, .jfalse => some (.jbool false)
  | _ + 1, _, .jnull => some .jnull
  | f + 1, h, .addr a =>
    match nodeOf h a with
    | none => none
    | some (.str s) => some (.jstr s)
    | some (.int i) => some (.jint i)
    | some (.arr es) => (toTreeLF f h es).map .jarr
    | some (.obj es) => (toTreeEF f h es).map .jobj

/-- Read back the elements of an array. -/
def toTreeLF : Nat → Heap → List JVal → Option (List JTree)
  | 0, _, _ => none
  | _ + 1, _, [] => some []
  | f + 1, h, v :: vs =>
    match toTreeF f h v, toTreeLF f h vs with
    | some t, some ts => some (t :: ts)
    | _, _ => none

/-- Read back the entries of an object. -/
def toTreeEF : Nat → Heap → List (String × JVal) →
    Option (List (String × JTree))
  | 0, _, _ => none
  | _ + 1, _, [] => some []
  | f + 1, h, (k, v) :: es =>
    match toTreeF f h v, toTreeEF f h es with
    | some t, some ts => some ((k, t) :: ts)
    | _, _ => none
end

/-- Modelled from the spec: allocator sanity — addresses at or above the
allocator cursor are unallocated. -/
def WfHeap (h : Heap) : Prop := ∀ b, h.next ≤ b → h.find b = none

/-- Modelled from the spec: every child pointer of every live node stays
below the allocator cursor (handles attached into containers are live
values of this heap). -/
def ClosedHeap (h : Heap) : Prop :=
  ∀ a n, nodeOf h a = some n → ∀ c ∈ children n, ∀ y, c = .addr y → y < h.next

/-- A value handle whose address (if any) is below `N`. -/
def ValBelow (v : JVal) (N : Nat) : Prop := ∀ b, v = .addr b → b < N

/-- The handle an operation mutates (or retains/releases). -/
def targetOf : Op → Option JVal
  | .retainOp v => v
  | .releaseOp v => v
  | .setOp t _ _ => t
  | .appendOp t _ => t
  | .removeOp t _ => t

/-- The value an operation attaches into its target, if any. -/
def attachedOf : Op → Option JVal
  | .setOp _ _ w => some w
  | .appendOp _ w => some w
  | _ => none

/-! ## Theorems -/

/-! ### Association-list and heap-cell lemmas -/

theorem findN_updN_self {a : Nat} {e : Nat × JNode} {l : List (Nat × Nat × JNode)}
    (hs : (findN a l).isSome) : findN a (updN a e l) = some e := by
  induction l with
  | nil => simp [findN] at hs
  | cons p ps ih =>
    by_cases hp : p.1 = a
    · simp [findN, updN, hp]
    · simp only [findN, updN, hp, if_false] at hs ⊢
      exact ih hs

theorem findN_updN_ne {a x : Nat} (e : Nat × JNode) (l : List (Nat × Nat × JNode))
    (hne : x ≠ a) : findN x (updN a e l) = findN x l := by
  induction l with
  | nil => rfl
  | cons p ps ih =>
    by_cases hp : p.1 = a
    · subst hp
      simp [findN, updN, Ne.symm hne, hne]
    · by_cases hx : p.1 = x <;> simp [findN, updN, hp, hx, hne, ih]

theorem updN_absent {a : Nat} {e : Nat × JNode} {l : List (Nat × Nat × JNode)}
    (h : findN a l = none) : updN a e l = l := by
  induction l with
  | nil => rfl
  | cons p ps ih =>
    by_cases hp : p.1 = a
    · simp [findN, hp] at h
    · simp only [findN, hp, if_false] at h
      simp [updN, hp, ih h]

theorem length_updN (a : Nat) (e : Nat × JNode) (l : List (Nat × Nat × JNode)) :
    (updN a e l).length = l.length := by
  induction l with
  | nil => rfl
  | cons p ps ih =>
    by_cases hp : p.1 = a <;> simp [updN, hp, ih]

theorem keys_updN (a : Nat) (e : Nat × JNode) (l : List (Nat × Nat × JNode)) :
    (updN a e l).map Prod.fst = l.map Prod.fst := by
  induction l with
  | nil => rfl
  | cons p ps ih =>
    by_cases hp : p.1 = a
    · simp [updN, hp]
    · simp [updN, hp, ih]

theorem findN_remN_self (a : Nat) (l : List (Nat × Nat × JNode)) :
    findN a (remN a l) = none := by
  induction l with
  | nil => rfl
  | cons p ps ih =>
    by_cases hp : p.1 = a <;> simp [remN, findN, hp, ih]

theorem findN_remN_ne {a x : Nat} (l : List (Nat × Nat × JNode)) (hne : x ≠ a) :
    findN x (remN a l) = findN x l := by
  induction l with
  | nil => rfl
  | cons p ps ih =>
    by_cases hp : p.1 = a
    · subst hp
      simp [remN, findN, Ne.symm hne, ih]
    · by_cases hx : p.1 = x <;> simp [remN, findN, hp, hx, hne, ih]

theorem find_upd_self {h : Heap} {a : Nat} {e : Nat × JNode}
    (hs : (h.find a).isSome) : (h.upd a e).find a = some e :=
  findN_updN_self hs

theorem find_upd_ne {h : Heap} {a x : Nat} (e : Nat × JNode) (hne : x ≠ a) :
    (h.upd a e).find x = h.find x :=
  findN_updN_ne e h.nodes hne

theorem find_rem_self (h : Heap) (a : Nat) : (h.rem a).find a = none :=
  findN_remN_self a h.nodes

theorem find_rem_ne {h : Heap} {a x : Nat} (hne : x ≠ a) :
    (h.rem a).find x = h.find x :=
  findN_remN_ne h.nodes hne

/-! ### Retain -/

theorem nodeOf_retain (h : Heap) (v : JVal) (b : Nat) :
    nodeOf (retain h v) b = nodeOf h b := by
  match v with
  | .jtrue | .jfalse | .jnull => rfl
  | .addr a =>
    match hf : h.find a with
    | none => simp [retain, hf]
    | some (rc, n) =>
      by_cases hb : b = a
      · subst hb
        have h1 : (h.upd b (rc + 1, n)).find b = some (rc + 1, n) :=
          find_upd_self (by simp [hf])
        simp [retain, hf, nodeOf, h1]
      · simp [retain, hf, nodeOf, find_upd_ne _ hb]

theorem retain_find_self {h : Heap} {b rc : Nat} {n : JNode}
    (hf : h.find b = some (rc, n)) :
    (retain h (.addr b)).find b = some (rc + 1, n) := by
  simp [retain, hf]
  exact find_upd_self (by simp [hf])

theorem retain_find_of_ne {h : Heap} {x : Nat} (v : JVal) (hne : v ≠ .addr x) :
    (retain h v).find x = h.find x := by
  match v with
  | .jtrue | .jfalse | .jnull => rfl
  | .addr a =>
    have hax : x ≠ a := fun hxa => hne (by rw [hxa])
    match hf : h.find a with
    | none => simp [retain, hf]
    | some (rc, n) => simp [retain, hf, find_upd_ne _ hax]

/-! ### Sub-heaps, reachability and the release frame -/

theorem subNodes_refl (h : Heap) : SubNodes h h := fun _ _ hb => hb

theorem subNodes_trans {h₃ h₂ h₁ : Heap} (h32 : SubNodes h₃ h₂) (h21 : SubNodes h₂ h₁) :
    SubNodes h₃ h₁ := fun b n hb => h21 b n (h32 b n hb)

theorem subNodes_rem (h : Heap) (a : Nat) : SubNodes (h.rem a) h := by
  intro b n hb
  by_cases hba : b = a
  · subst hba
    simp [nodeOf, find_rem_self] at hb
  · rwa [nodeOf, find_rem_ne hba] at hb

theorem subNodes_upd_same {h : Heap} {a rc rc2 : Nat} {n : JNode}
    (hf : h.find a = some (rc, n)) : SubNodes (h.upd a (rc2, n)) h := by
  intro b m hb
  by_cases hba : b = a
  · subst hba
    have h1 : (h.upd b (rc2, n)).find b = some (rc2, n) := find_upd_self (by simp [hf])
    rw [nodeOf, h1] at hb
    rw [nodeOf, hf]
    simp only [Option.map_some']
    simpa using hb
  · rwa [nodeOf, find_upd_ne _ hba] at hb

theorem subNodes_of_nodeOf_eq {h₂ h₁ : Heap} (heq : ∀ b, nodeOf h₂ b = nodeOf h₁ b) :
    SubNodes h₂ h₁ := fun b n hb => (heq b) ▸ hb

theorem subNodes_foldl {f : Nat} (step : ∀ (h : Heap) (v : JVal), SubNodes (releaseFuel f h v) h) :
    ∀ (cs : List JVal) (h : Heap), SubNodes (cs.foldl (releaseFuel f) h) h := by
  intro cs
  induction cs with
  | nil => intro h; exact subNodes_refl h
  | cons c cs ih =>
    intro h
    exact subNodes_trans (ih (releaseFuel f h c)) (step h c)

theorem subNodes_release : ∀ (f : Nat) (h : Heap) (v : JVal), SubNodes (releaseFuel f h v) h := by
  intro f
  induction f with
  | zero => intro h v; exact subNodes_refl h
  | succ f ih =>
    intro h v
    match v with
    | .jtrue | .jfalse | .jnull => exact subNodes_refl h
    | .addr a =>
      match hf : h.find a with
      | none => simp only [releaseFuel, hf]; exact subNodes_refl h
      | some (rc, n) =>
        by_cases hrc : rc ≤ 1
        · simp only [releaseFuel, hf, hrc, if_true]
          exact subNodes_trans (subNodes_foldl ih (children n) (h.rem a)) (subNodes_rem h a)
        · simp only [releaseFuel, hf, hrc, if_false]
          exact subNodes_upd_same hf

theorem reach_mono_sub {h₂ h₁ : Heap} (hsub : SubNodes h₂ h₁) :
    ∀ (f : Nat) (v : JVal) (x : Nat), reachF f h₂ v x = true → reachF f h₁ v x = true := by
  intro f
  induction f with
  | zero => intro v x hr; exact hr
  | succ f ih =>
    intro v x hr
    match v with
    | .jtrue | .jfalse | .jnull => simp [reachF] at hr
    | .addr b =>
      simp only [reachF, Bool.or_eq_true] at hr ⊢
      rcases hr with hbx | hnode
      · exact Or.inl hbx
      · refine Or.inr ?_
        match hn : nodeOf h₂ b with
        | none => simp [hn] at hnode
        | some n =>
          rw [hn] at hnode
          rw [hsub b n hn]
          simp only [List.any_eq_true] at hnode ⊢
          obtain ⟨c, hc, hrc⟩ := hnode
          exact ⟨c, hc, ih c x hrc⟩

theorem reach_false_of_sub {h₂ h₁ : Heap} (hsub : SubNodes h₂ h₁) {f : Nat} {v : JVal}
    {x : Nat} (hr : reachF f h₁ v x = false) : reachF f h₂ v x = false := by
  cases hr2 : reachF f h₂ v x with
  | false => rfl
  | true =>
    rw [reach_mono_sub hsub f v x hr2] at hr
    exact Bool.noConfusion hr

theorem reach_frame_agree {h₁ h : Heap} {a : Nat}
    (hagree : ∀ b, b ≠ a → nodeOf h₁ b = nodeOf h b) :
    ∀ (f : Nat) (v : JVal), (∀ g, reachF g h v a = false) → reachF f h₁ v a = false := by
  intro f
  induction f with
  | zero =>
    intro v hv
    exact hv 0
  | succ f ih =>
    intro v hv
    match v with
    | .jtrue | .jfalse | .jnull => rfl
    | .addr b =>
      have hba : (b == a) = false := by
        have := hv 0
        simpa [reachF] using this
      have hbne : b ≠ a := by simpa using hba
      simp only [reachF, hba, Bool.false_or, hagree b hbne]
      cases hn : nodeOf h b with
      | none => rfl
      | some n =>
        simp only [List.any_eq_false, Bool.not_eq_true]
        intro c hc
        refine ih c fun g => ?_
        have hg := hv (g + 1)
        simp only [reachF, hba, Bool.false_or, hn, List.any_eq_false,
          Bool.not_eq_true] at hg
        exact hg c hc

theorem foldl_release_frame {x : Nat} (f : Nat)
    (IH : ∀ (h : Heap) (v : JVal), (∀ g, reachF g h v x = false) →
      (releaseFuel f h v).find x = h.find x) :
    ∀ (cs : List JVal) (h0 h : Heap), SubNodes h h0 →
      (∀ c ∈ cs, ∀ g, reachF g h0 c x = false) →
      (cs.foldl (releaseFuel f) h).find x = h.find x := by
  intro cs
  induction cs with
  | nil => intro h0 h _ _; rfl
  | cons c cs ih =>
    intro h0 h hsub hcs
    have hc : ∀ g, reachF g h c x = false := fun g =>
      reach_false_of_sub hsub (hcs c (by simp) g)
    have h1 : (releaseFuel f h c).find x = h.find x := IH h c hc
    have hsub1 : SubNodes (releaseFuel f h c) h0 :=
      subNodes_trans (subNodes_release f h c) hsub
    have h2 := ih h0 (releaseFuel f h c) hsub1 (fun d hd g => hcs d (by simp [hd]) g)
    simp only [List.foldl_cons]
    rw [h2, h1]

theorem releaseFuel_frame {x : Nat} :
    ∀ (f : Nat) (h : Heap) (v : JVal), (∀ g, reachF g h v x = false) →
      (releaseFuel f h v).find x = h.find x := by
  intro f
  induction f with
  | zero => intro h v _; rfl
  | succ f ih =>
    intro h v hv
    match v with
    | .jtrue | .jfalse | .jnull => rfl
    | .addr b =>
      have hbx : (b == x) = false := by simpa [reachF] using hv 0
      have hbne : b ≠ x := by simpa using hbx
      have hxb : x ≠ b := Ne.symm hbne
      match hf : h.find b with
      | none => simp [releaseFuel, hf]
      | some (rc, n) =>
        by_cases hrc : rc ≤ 1
        · simp only [releaseFuel, hf, hrc, if_true]
          have hn : nodeOf h b = some n := by simp [nodeOf, hf]
          have hchild : ∀ c ∈ children n, ∀ g, reachF g h c x = false := by
            intro c hc g
            have hg := hv (g + 1)
            simp only [reachF, hbx, Bool.false_or, hn, List.any_eq_false,
              Bool.not_eq_true] at hg
            exact hg c hc
          have := foldl_release_frame f ih (children n) h (h.rem b)
            (subNodes_rem h b) hchild
          rw [this, find_rem_ne hxb]
        · simp only [releaseFuel, hf, hrc, if_false]
          exact find_upd_ne _ hxb

theorem release_frame {x : Nat} {h : Heap} {v : JVal}
    (hv : ∀ g, reachF g h v x = false) : (release h v).find x = h.find x :=
  releaseFuel_frame _ h v hv

theorem release_find_none {h : Heap} {x : Nat} (f : Nat) (v : JVal)
    (hx : h.find x = none) : (releaseFuel f h v).find x = none := by
  cases hfx : (releaseFuel f h v).find x with
  | none => rfl
  | some e =>
    have : nodeOf (releaseFuel f h v) x = some e.2 := by simp [nodeOf, hfx]
    have := subNodes_release f h v x e.2 this
    simp [nodeOf, hx] at this

theorem release_rcOf_self (h : Heap) (a : Nat) :
    rcOf (release h (.addr a)) (.addr a) = rcOf h (.addr a) - 1 := by
  match hf : h.find a with
  | none =>
    simp [release, releaseFuel, hf, rcOf]
  | some (rc, n) =>
    by_cases hrc : rc ≤ 1
    · have hnone : ((children n).foldl (releaseFuel (h.nodes.length))
          (h.rem a)).find a = none := by
        have habs : (h.rem a).find a = none := find_rem_self h a
        have : ∀ (cs : List JVal) (hh : Heap), hh.find a = none →
            (cs.foldl (releaseFuel (h.nodes.length)) hh).find a = none := by
          intro cs
          induction cs with
          | nil => intro hh hhh; exact hhh
          | cons c cs ih =>
            intro hh hhh
            exact ih _ (release_find_none _ c hhh)
        exact this (children n) (h.rem a) habs
      simp only [release, releaseFuel, hf, hrc, if_true]
      simp [rcOf, hnone, hf]
      omega
    · simp only [release, releaseFuel, hf, hrc, if_false]
      have : (h.upd a (rc - 1, n)).find a = some (rc - 1, n) :=
        find_upd_self (by simp [hf])
      simp [rcOf, this, hf]

theorem release_rcOf_absent (h : Heap) (v : JVal) (hnotaddr : ∀ b, v ≠ .addr b) :
    release h v = h := by
  match v with
  | .jtrue | .jfalse | .jnull => simp [release, releaseFuel]
  | .addr b => exact absurd rfl (hnotaddr b)

theorem get?_eq_none_of_count_le {h : Heap} {a : Nat} {rc : Nat} {es : List JVal}
    {i : Nat} (hfind : h.find a = some (rc, .arr es))
    (hge : JsonArrayCount h (some (.addr a)) ≤ i) : es[i]? = none := by
  apply List.getElem?_eq_none
  simpa [JsonArrayCount, hfind] using hge

/-- C6: `JsonArrayGetValue` with an index at or past the element count
returns NULL, and `JsonArrayRemoveValue` with such an index reports the
failure status; neither faults and neither changes the heap. -/
theorem claim_C6_bounds_safety (h : Heap) (v : Option JVal) (i : Nat)
    (hge : JsonArrayCount h v ≤ i) :
    JsonArrayGetValue h v i = none ∧ JsonArrayRemoveValue h v i = (.aborted, h) := by
  match v with
  | none => exact ⟨rfl, rfl⟩
  | some .jtrue => exact ⟨rfl, rfl⟩
  | some .jfalse => exact ⟨rfl, rfl⟩
  | some .jnull => exact ⟨rfl, rfl⟩
  | some (.addr a) =>
    match hfind : h.find a with
    | none => simp [JsonArrayGetValue, JsonArrayRemoveValue, hfind]
    | some (rc, .obj es) => simp [JsonArrayGetValue, JsonArrayRemoveValue, hfind]
    | some (rc, .str s) => simp [JsonArrayGetValue, JsonArrayRemoveValue, hfind]
    | some (rc, .int n) => simp [JsonArrayGetValue, JsonArrayRemoveValue, hfind]
    | some (rc, .arr es) =>
      have hnone : es[i]? = none := get?_eq_none_of_count_le hfind hge
      simp [JsonArrayGetValue, JsonArrayRemoveValue, hfind, hnone]

theorem claim_C6_bounds_safety_witness :
    JsonArrayCount ⟨1, [(0, 1, .arr [.jnull])]⟩ (some (.addr 0)) ≤ 5 ∧
      (JsonArrayGetValue ⟨1, [(0, 1, .arr [.jnull])]⟩ (some (.addr 0)) 5 = none ∧
        JsonArrayRemoveValue ⟨1, [(0, 1, .arr [.jnull])]⟩ (some (.addr 0)) 5 =
          (.aborted, ⟨1, [(0, 1, .arr [.jnull])]⟩)) :=
  ⟨by decide, claim_C6_bounds_safety ⟨1, [(0, 1, .arr [.jnull])]⟩ (some (.addr 0)) 5 (by decide)⟩

/-- C9: on a NULL handle or a kind mismatch, `JsonValueGetInteger`
returns the 0 sentinel and `JsonValueGetBoolean` returns the FALSE
sentinel, in each case signaling the caller-contract violation (the
ASSERT flag); on a correctly typed value each getter returns the stored
integer or boolean with no violation signal. -/
theorem claim_C9_typed_getter_sentinels (h : Heap) (v : Option JVal) :
    (JsonValueIsInteger h v = false → JsonValueGetInteger h v = (0, true)) ∧
    (JsonValueIsBoolean v = false → JsonValueGetBoolean h v = (false, true)) ∧
    (∀ a rc i, v = some (.addr a) → h.find a = some (rc, .int i) →
      JsonValueGetInteger h v = (i, false)) ∧
    JsonValueGetBoolean h (some .jtrue) = (true, false) ∧
    JsonValueGetBoolean h (some .jfalse) = (false, false) := by
  refine ⟨?_, ?_, ?_, rfl, rfl⟩
  · intro hnot
    match v with
    | none => rfl
    | some .jtrue => rfl
    | some .jfalse => rfl
    | some .jnull => rfl
    | some (.addr a) =>
      match hfind : h.find a with
      | none => simp [JsonValueGetInteger, hfind]
      | some (rc, .obj es) => simp [JsonValueGetInteger, hfind]
      | some (rc, .arr es) => simp [JsonValueGetInteger, hfind]
      | some (rc, .str s) => simp [JsonValueGetInteger, hfind]
      | some (rc, .int n) => simp [JsonValueIsInteger, hfind] at hnot
  · intro hnot
    match v with
    | none => rfl
    | some .jtrue => simp [JsonValueIsBoolean] at hnot
    | some .jfalse => simp [JsonValueIsBoolean] at hnot
    | some .jnull => rfl
    | some (.addr a) => rfl
  · intro a rc i hv hfind
    subst hv
    simp [JsonValueGetInteger, hfind]

theorem claim_C9_typed_getter_sentinels_witness :
    JsonValueGetInteger ⟨1, [(0, 1, .int 7)]⟩ (some .jnull) = (0, true) ∧
      JsonValueGetBoolean ⟨1, [(0, 1, .int 7)]⟩ none = (false, true) ∧
      JsonValueGetInteger ⟨1, [(0, 1, .int 7)]⟩ (some (.addr 0)) = (7, false) :=
  ⟨(claim_C9_typed_getter_sentinels ⟨1, [(0, 1, .int 7)]⟩ (some .jnull)).1 (by decide),
    (claim_C9_typed_getter_sentinels ⟨1, [(0, 1, .int 7)]⟩ none).2.1 (by decide),
    (claim_C9_typed_getter_sentinels ⟨1, [(0, 1, .int 7)]⟩ (some (.addr 0))).2.2.1 0 1 7
      rfl (by decide)⟩

/-- C10: on a NULL handle or a handle of the wrong kind, `JsonObjectSize`
and `JsonArrayCount` return 0 — the same answer an empty container
gives — and (by their return type) report no error status. -/
theorem claim_C10_size_queries_degrade (h : Heap) (v : Option JVal) :
    (JsonValueIsObject h v = false → JsonObjectSize h v = 0) ∧
    (JsonValueIsArray h v = false → JsonArrayCount h v = 0) ∧
    (∀ a rc, h.find a = some (rc, .obj []) → JsonObjectSize h (some (.addr a)) = 0) ∧
    (∀ a rc, h.find a = some (rc, .arr []) → JsonArrayCount h (some (.addr a)) = 0) := by
  refine ⟨?_, ?_, ?_, ?_⟩
  · intro hnot
    match v with
    | none => rfl
    | some .jtrue => rfl
    | some .jfalse => rfl
    | some .jnull => rfl
    | some (.addr a) =>
      match hfind : h.find a with
      | none => simp [JsonObjectSize, hfind]
      | some (rc, .obj es) => simp [JsonValueIsObject, hfind] at hnot
      | some (rc, .arr es) => simp [JsonObjectSize, hfind]
      | some (rc, .str s) => simp [JsonObjectSize, hfind]
      | some (rc, .int n) => simp [JsonObjectSize, hfind]
  · intro hnot
    match v with
    | none => rfl
    | some .jtrue => rfl
    | some .jfalse => rfl
    | some .jnull => rfl
    | some (.addr a) =>
      match hfind : h.find a with
      | none => simp [JsonArrayCount, hfind]
      | some (rc, .obj es) => simp [JsonArrayCount, hfind]
      | some (rc, .arr es) => simp [JsonValueIsArray, hfind] at hnot
      | some (rc, .str s) => simp [JsonArrayCount, hfind]
      | some (rc, .int n) => simp [JsonArrayCount, hfind]
  · intro a rc hfind
    simp [JsonObjectSize, hfind]
  · intro a rc hfind
    simp [JsonArrayCount, hfind]

theorem claim_C10_size_queries_degrade_witness :
    JsonObjectSize ⟨2, [(0, 1, .arr [.jnull]), (1, 1, .obj [])]⟩ (some (.addr 0)) = 0 ∧
      JsonArrayCount ⟨2, [(0, 1, .arr [.jnull]), (1, 1, .obj [])]⟩ none = 0 ∧
      JsonObjectSize ⟨2, [(0, 1, .arr [.jnull]), (1, 1, .obj [])]⟩ (some (.addr 1)) = 0 :=
  ⟨(claim_C10_size_queries_degrade ⟨2, [(0, 1, .arr [.jnull]), (1, 1, .obj [])]⟩
      (some (.addr 0))).1 (by decide),
    (claim_C10_size_queries_degrade ⟨2, [(0, 1, .arr [.jnull]), (1, 1, .obj [])]⟩ none).2.1
      (by decide),
    (claim_C10_size_queries_degrade ⟨2, [(0, 1, .arr [.jnull]), (1, 1, .obj [])]⟩
      (some (.addr 1))).2.2.1 1 1 (by decide)⟩

/-! ### Entry-list lemmas for the object container -/

theorem nodeOf_upd_ne {h : Heap} {a b : Nat} (e : Nat × JNode) (hne : b ≠ a) :
    nodeOf (h.upd a e) b = nodeOf h b := by
  simp [nodeOf, find_upd_ne e hne]

theorem findE_eq_none_iff {k : String} {es : List (String × JVal)} :
    findE k es = none ↔ k ∉ es.map Prod.fst := by
  induction es with
  | nil => simp [findE]
  | cons p ps ih =>
    by_cases hp : p.1 = k
    · simp [findE, hp]
    · simp [findE, hp, ih, Ne.symm hp]

theorem findE_isSome_iff_mem {k : String} {es : List (String × JVal)} :
    (findE k es).isSome ↔ k ∈ es.map Prod.fst := by
  induction es with
  | nil => simp [findE]
  | cons p ps ih =>
    by_cases hp : p.1 = k
    · simp [findE, hp]
    · simp [findE, hp, ih, Ne.symm hp]

theorem findE_append (k : String) (l1 l2 : List (String × JVal)) :
    findE k (l1 ++ l2) =
      match findE k l1 with
      | some v => some v
      | none => findE k l2 := by
  induction l1 with
  | nil => simp [findE]
  | cons p ps ih =>
    by_cases hp : p.1 = k <;> simp [findE, hp, ih]

theorem keys_replE (k : String) (v : JVal) (es : List (String × JVal)) :
    (replE k v es).map Prod.fst = es.map Prod.fst := by
  induction es with
  | nil => rfl
  | cons p ps ih =>
    by_cases hp : p.1 = k
    · simp [replE, hp]
    · simp [replE, hp, ih]

theorem findE_replE_self {k : String} {v old : JVal} {es : List (String × JVal)}
    (hold : findE k es = some old) : findE k (replE k v es) = some v := by
  induction es with
  | nil => simp [findE] at hold
  | cons p ps ih =>
    by_cases hp : p.1 = k
    · simp [replE, findE, hp]
    · simp only [findE, hp, if_false] at hold
      simp [replE, findE, hp, ih hold]

theorem findE_replE_ne {k q : String} (v : JVal) (es : List (String × JVal))
    (hne : q ≠ k) : findE q (replE k v es) = findE q es := by
  induction es with
  | nil => rfl
  | cons p ps ih =>
    by_cases hp : p.1 = k
    · subst hp
      simp [replE, findE, Ne.symm hne, hne, ih]
    · by_cases hq : p.1 = q <;> simp [replE, findE, hp, hq, hne, ih]

theorem values_replE {k : String} {v w : JVal} {es : List (String × JVal)}
    (hw : w ∈ (replE k v es).map Prod.snd) : w = v ∨ w ∈ es.map Prod.snd := by
  induction es with
  | nil => simp [replE] at hw
  | cons p ps ih =>
    by_cases hp : p.1 = k
    · simp only [replE, hp, if_true, List.map_cons, List.mem_cons] at hw
      rcases hw with hw | hw
      · exact Or.inl hw
      · exact Or.inr (by simp [hw])
    · simp only [replE, hp, if_false, List.map_cons, List.mem_cons] at hw
      rcases hw with hw | hw
      · exact Or.inr (by simp [hw])
      · rcases ih hw with hw | hw
        · exact Or.inl hw
        · exact Or.inr (by simp [hw])

theorem findE_setE_self (k : String) (v : JVal) (es : List (String × JVal)) :
    findE k (setE es k v) = some v := by
  unfold setE
  cases hf : findE k es with
  | none =>
    rw [findE_append]
    simp [hf, findE]
  | some old => exact findE_replE_self hf

theorem findE_setE_ne {k q : String} (v : JVal) (es : List (String × JVal))
    (hne : q ≠ k) : findE q (setE es k v) = findE q es := by
  unfold setE
  cases hf : findE k es with
  | none =>
    rw [findE_append]
    cases hq : findE q es <;> simp [hq, findE, hne, Ne.symm hne]
  | some old => exact findE_replE_ne v es hne

theorem keys_setE (k : String) (v : JVal) (es : List (String × JVal)) :
    (setE es k v).map Prod.fst =
      if (findE k es).isSome then es.map Prod.fst else es.map Prod.fst ++ [k] := by
  unfold setE
  cases hf : findE k es with
  | none => simp [hf]
  | some old => simp [hf, keys_replE]

theorem values_setE {k : String} {v w : JVal} {es : List (String × JVal)}
    (hw : w ∈ (setE es k v).map Prod.snd) : w = v ∨ w ∈ es.map Prod.snd := by
  unfold setE at hw
  cases hf : findE k es with
  | none =>
    rw [hf] at hw
    simp only [List.map_append, List.mem_append] at hw
    rcases hw with hw | hw
    · exact Or.inr hw
    · simp at hw
      exact Or.inl hw
  | some old =>
    rw [hf] at hw
    exact values_replE hw

theorem foldSetE_findE :
    ∀ (seq : List (String × JVal)) (es0 : List (String × JVal)) (k : String),
      findE k (foldSetE es0 seq) =
        match findE k seq.reverse with
        | some v => some v
        | none => findE k es0 := by
  intro seq
  induction seq with
  | nil => intro es0 k; simp [foldSetE, findE]
  | cons p rest ih =>
    intro es0 k
    have hstep : foldSetE es0 (p :: rest) = foldSetE (setE es0 p.1 p.2) rest := rfl
    rw [hstep, ih]
    have hrev : (p :: rest).reverse = rest.reverse ++ [p] := by simp
    rw [hrev, findE_append]
    cases hr : findE k rest.reverse with
    | some v => rfl
    | none =>
      by_cases hk : p.1 = k
      · subst hk
        simp [findE, findE_setE_self]
      · have : findE k [p] = none := by simp [findE, hk]
        simp only [this]
        exact findE_setE_ne p.2 es0 (Ne.symm hk)

theorem foldSetE_keys_nodup :
    ∀ (seq : List (String × JVal)) (es0 : List (String × JVal)),
      (es0.map Prod.fst).Nodup → ((foldSetE es0 seq).map Prod.fst).Nodup := by
  intro seq
  induction seq with
  | nil => intro es0 h; exact h
  | cons p rest ih =>
    intro es0 h0
    have hstep : foldSetE es0 (p :: rest) = foldSetE (setE es0 p.1 p.2) rest := rfl
    rw [hstep]
    refine ih _ ?_
    rw [keys_setE]
    cases hf : findE p.1 es0 with
    | some old => simpa using h0
    | none =>
      have hmem : p.1 ∉ es0.map Prod.fst := findE_eq_none_iff.mp hf
      simp only [Option.isSome_none, Bool.false_eq_true, if_false]
      simp [List.nodup_append, h0, hmem]

theorem foldSetE_keys_toFinset :
    ∀ (seq : List (String × JVal)) (es0 : List (String × JVal)),
      ((foldSetE es0 seq).map Prod.fst).toFinset =
        (es0.map Prod.fst).toFinset ∪ (seq.map Prod.fst).toFinset := by
  intro seq
  induction seq with
  | nil => intro es0; simp [foldSetE]
  | cons p rest ih =>
    intro es0
    have hstep : foldSetE es0 (p :: rest) = foldSetE (setE es0 p.1 p.2) rest := rfl
    rw [hstep, ih]
    rw [keys_setE]
    cases hf : findE p.1 es0 with
    | some old =>
      have hmem : p.1 ∈ es0.map Prod.fst := findE_isSome_iff_mem.mp (by simp [hf])
      simp only [Option.isSome_some, if_true]
      ext q
      by_cases hq : q = p.1 <;> simp [hq, hmem]
    | none =>
      simp only [Option.isSome_none, Bool.false_eq_true, if_false]
      ext q
      by_cases hq : q = p.1 <;> simp [hq, or_comm, or_left_comm]

theorem foldSetE_length (seq : List (String × JVal)) :
    (foldSetE [] seq).length = (seq.map Prod.fst).dedup.length := by
  have hnodup : ((foldSetE [] seq).map Prod.fst).Nodup :=
    foldSetE_keys_nodup seq [] (by simp)
  have hfin : ((foldSetE [] seq).map Prod.fst).toFinset =
      (seq.map Prod.fst).toFinset := by
    rw [foldSetE_keys_toFinset]
    simp
  have h1 : ((foldSetE [] seq).map Prod.fst).toFinset.card =
      ((foldSetE [] seq).map Prod.fst).length :=
    List.toFinset_card_of_nodup hnodup
  have h2 : ((seq.map Prod.fst).dedup).toFinset.card =
      ((seq.map Prod.fst).dedup).length :=
    List.toFinset_card_of_nodup (List.nodup_dedup _)
  have h3 : ((seq.map Prod.fst).dedup).toFinset = (seq.map Prod.fst).toFinset := by
    ext x
    simp [List.mem_toFinset, List.mem_dedup]
  calc (foldSetE [] seq).length
      = ((foldSetE [] seq).map Prod.fst).length := by simp
    _ = ((foldSetE [] seq).map Prod.fst).toFinset.card := h1.symm
    _ = ((seq.map Prod.fst).dedup).toFinset.card := by rw [hfin, h3]
    _ = ((seq.map Prod.fst).dedup).length := h2

/-! ### Heap-level object and array mutation lemmas -/

theorem findE_some_mem_values {k : String} {v : JVal} {es : List (String × JVal)}
    (h : findE k es = some v) : v ∈ es.map Prod.snd := by
  induction es with
  | nil => simp [findE] at h
  | cons p ps ih =>
    by_cases hp : p.1 = k
    · simp only [findE, hp, if_true, Option.some_inj] at h
      simp [h]
    · simp only [findE, hp, if_false] at h
      simp [ih h]

theorem noReach_addr_ne {h : Heap} {b x : Nat}
    (hv : ∀ g, reachF g h (.addr b) x = false) : b ≠ x := by
  have h0 := hv 0
  simp only [reachF] at h0
  simpa using h0

theorem noReach_release {h : Heap} {x : Nat} (w v : JVal)
    (hv : ∀ g, reachF g h v x = false) : ∀ g, reachF g (release h w) v x = false :=
  fun g => reach_false_of_sub (subNodes_release _ h w) (hv g)

theorem nodeOf_upd_retain_ne {h : Heap} {a : Nat} (e : Nat × JNode) (x : JVal) {b : Nat}
    (hb : b ≠ a) : nodeOf (retain (h.upd a e) x) b = nodeOf h b := by
  rw [nodeOf_retain, nodeOf_upd_ne e hb]

theorem reach_frame_agree2 {h₁ h : Heap} {a : Nat}
    (hagree : ∀ b, b ≠ a → nodeOf h₁ b = nodeOf h b) :
    ∀ (f : Nat) (v : JVal) (x : Nat), (∀ g, reachF g h v a = false) →
      reachF f h₁ v x = reachF f h v x := by
  intro f
  induction f with
  | zero => intro v x _; rfl
  | succ f ih =>
    intro v x hv
    match v with
    | .jtrue | .jfalse | .jnull => rfl
    | .addr b =>
      have hba : (b == a) = false := by simpa [reachF] using hv 0
      have hbne : b ≠ a := by simpa using hba
      simp only [reachF, hagree b hbne]
      cases hn : nodeOf h b with
      | none => rfl
      | some n =>
        have hch : ∀ c ∈ children n, reachF f h₁ c x = reachF f h c x := by
          intro c hc
          refine ih c x fun g => ?_
          have hg := hv (g + 1)
          simp only [reachF, hba, Bool.false_or, hn, List.any_eq_false,
            Bool.not_eq_true] at hg
          exact hg c hc
        have hany : ∀ (l : List JVal), (∀ c ∈ l, reachF f h₁ c x = reachF f h c x) →
            ((l.any fun c => reachF f h₁ c x) = (l.any fun c => reachF f h c x)) := by
          intro l hl
          induction l with
          | nil => rfl
          | cons c cs ihc =>
            simp only [List.any_cons]
            rw [hl c (by simp), ihc fun d hd => hl d (by simp [hd])]
        show (b == x || (children n).any fun c => reachF f h₁ c x) =
          (b == x || (children n).any fun c => reachF f h c x)
        rw [hany (children n) hch]

theorem runSets_find :
    ∀ (seq : List (String × JVal)) (h : Heap) (a rc : Nat) (es0 : List (String × JVal)),
      h.find a = some (rc, .obj es0) →
      (∀ w ∈ es0.map Prod.snd, ∀ g, reachF g h w a = false) →
      (∀ p ∈ seq, ∀ g, reachF g h p.2 a = false) →
      (runSets h a seq).find a = some (rc, .obj (foldSetE es0 seq)) := by
  intro seq
  induction seq with
  | nil =>
    intro h a rc es0 hfind _ _
    exact hfind
  | cons p rest ih =>
    intro h a rc es0 hfind hes hseq
    have hpx : ∀ g, reachF g h p.2 a = false := hseq p (by simp)
    have hrun : runSets h a (p :: rest) =
        runSets (JsonObjectSetValue h (some (.addr a)) p.1 p.2).2 a rest := rfl
    have hpne : p.2 ≠ .addr a := by
      intro he
      have h0 := hpx 0
      rw [he] at h0
      simp [reachF] at h0
    cases holdE : findE p.1 es0 with
    | some old =>
      have holdr : ∀ g, reachF g h old a = false :=
        hes old (findE_some_mem_values holdE)
      have hstep : (JsonObjectSetValue h (some (.addr a)) p.1 p.2).2 =
          release (retain (h.upd a (rc, .obj (replE p.1 p.2 es0))) p.2) old := by
        simp [JsonObjectSetValue, hfind, holdE]
      have hag : ∀ b, b ≠ a →
          nodeOf (retain (h.upd a (rc, .obj (replE p.1 p.2 es0))) p.2) b = nodeOf h b :=
        fun b hb => nodeOf_upd_retain_ne _ _ hb
      have tr : ∀ v, (∀ g, reachF g h v a = false) →
          ∀ g, reachF g (retain (h.upd a (rc, .obj (replE p.1 p.2 es0))) p.2) v a = false :=
        fun v hv g => reach_frame_agree hag g v hv
      have tr3 : ∀ v, (∀ g, reachF g h v a = false) →
          ∀ g, reachF g (release (retain (h.upd a (rc, .obj (replE p.1 p.2 es0))) p.2) old)
            v a = false :=
        fun v hv => noReach_release old v (tr v hv)
      have h1find : (Heap.upd h a (rc, .obj (replE p.1 p.2 es0))).find a =
          some (rc, .obj (replE p.1 p.2 es0)) := find_upd_self (by simp [hfind])
      have h2find : (retain (h.upd a (rc, .obj (replE p.1 p.2 es0))) p.2).find a =
          some (rc, .obj (replE p.1 p.2 es0)) := by
        rw [retain_find_of_ne p.2 hpne, h1find]
      have h3find :
          (release (retain (h.upd a (rc, .obj (replE p.1 p.2 es0))) p.2) old).find a =
          some (rc, .obj (replE p.1 p.2 es0)) := by
        rw [release_frame (tr old holdr), h2find]
      have hvals : ∀ w ∈ (replE p.1 p.2 es0).map Prod.snd,
          ∀ g, reachF g (release (retain (h.upd a (rc, .obj (replE p.1 p.2 es0))) p.2) old)
            w a = false := by
        intro w hw
        rcases values_replE hw with hw | hw
        · subst hw; exact tr3 _ hpx
        · exact tr3 _ (hes w hw)
      have hrest : ∀ q ∈ rest,
          ∀ g, reachF g (release (retain (h.upd a (rc, .obj (replE p.1 p.2 es0))) p.2) old)
            q.2 a = false :=
        fun q hq => tr3 _ (hseq q (by simp [hq]))
      have := ih _ a rc (replE p.1 p.2 es0) h3find hvals hrest
      rw [hrun, hstep, this]
      have hsetE : setE es0 p.1 p.2 = replE p.1 p.2 es0 := by
        unfold setE
        rw [holdE]
      have : foldSetE es0 (p :: rest) = foldSetE (replE p.1 p.2 es0) rest := by
        show foldSetE (setE es0 p.1 p.2) rest = _
        rw [hsetE]
      rw [this]
    | none =>
      have hstep : (JsonObjectSetValue h (some (.addr a)) p.1 p.2).2 =
          retain (h.upd a (rc, .obj (es0 ++ [(p.1, p.2)]))) p.2 := by
        simp [JsonObjectSetValue, hfind, holdE]
      have hag : ∀ b, b ≠ a →
          nodeOf (retain (h.upd a (rc, .obj (es0 ++ [(p.1, p.2)]))) p.2) b = nodeOf h b :=
        fun b hb => nodeOf_upd_retain_ne _ _ hb
      have tr : ∀ v, (∀ g, reachF g h v a = false) →
          ∀ g, reachF g (retain (h.upd a (rc, .obj (es0 ++ [(p.1, p.2)]))) p.2) v a = false :=
        fun v hv g => reach_frame_agree hag g v hv
      have h1find : (Heap.upd h a (rc, .obj (es0 ++ [(p.1, p.2)]))).find a =
          some (rc, .obj (es0 ++ [(p.1, p.2)])) := find_upd_self (by simp [hfind])
      have h2find : (retain (h.upd a (rc, .obj (es0 ++ [(p.1, p.2)]))) p.2).find a =
          some (rc, .obj (es0 ++ [(p.1, p.2)])) := by
        rw [retain_find_of_ne p.2 hpne, h1find]
      have hvals : ∀ w ∈ (es0 ++ [(p.1, p.2)]).map Prod.snd,
          ∀ g, reachF g (retain (h.upd a (rc, .obj (es0 ++ [(p.1, p.2)]))) p.2) w a = false := by
        intro w hw
        simp only [List.map_append, List.mem_append, List.map_cons, List.map_nil,
          List.mem_singleton] at hw
        rcases hw with hw | hw
        · exact tr _ (hes w hw)
        · subst hw
          exact tr _ hpx
      have hrest : ∀ q ∈ rest,
          ∀ g, reachF g (retain (h.upd a (rc, .obj (es0 ++ [(p.1, p.2)]))) p.2) q.2 a = false :=
        fun q hq => tr _ (hseq q (by simp [hq]))
      have := ih _ a rc (es0 ++ [(p.1, p.2)]) h2find hvals hrest
      rw [hrun, hstep, this]
      have hsetE : setE es0 p.1 p.2 = es0 ++ [(p.1, p.2)] := by
        unfold setE
        rw [holdE]
      have : foldSetE es0 (p :: rest) = foldSetE (es0 ++ [(p.1, p.2)]) rest := by
        show foldSetE (setE es0 p.1 p.2) rest = _
        rw [hsetE]
      rw [this]

/-- C4 as frozen fails on the code: the size of an object after a
sequence of `JsonObjectSetValue` calls equals the number of distinct
keys ever set only when the object starts out empty.  A one-entry object
and the empty call sequence refute the universally quantified claim. -/
theorem claim_C4_counterexample :
    ¬ (JsonObjectSize (runSets ⟨2, [(0, 1, .obj [("z", .jnull)])]⟩ 0 []) (some (.addr 0)) =
      (([] : List (String × JVal)).map Prod.fst).dedup.length) := by
  decide

/-- C4 (amended: starting from an empty object): after any sequence of
`JsonObjectSetValue` calls (whose values do not contain the object
itself), the object's size equals the number of distinct keys ever set
and lookup of any key returns the most recently set value; moreover
setting an existing key succeeds, replaces the value in place without
disturbing the relative order of the other keys, retains the new value
(+1) and releases the prior value (-1). -/
theorem claim_C4_key_uniqueness (h : Heap) (a rc : Nat) :
    (∀ seq : List (String × JVal),
      h.find a = some (rc, .obj []) →
      (∀ p ∈ seq, ∀ g, reachF g h p.2 a = false) →
      JsonObjectSize (runSets h a seq) (some (.addr a)) =
          (seq.map Prod.fst).dedup.length ∧
        ∀ k, JsonObjectGetValue (runSets h a seq) (some (.addr a)) k =
          findE k seq.reverse) ∧
    (∀ (es : List (String × JVal)) (k : String) (x old : JVal),
      h.find a = some (rc, .obj es) → findE k es = some old →
      (∀ g, reachF g h x a = false) → (∀ g, reachF g h old a = false) →
      (JsonObjectSetValue h (some (.addr a)) k x).1 = .success ∧
      (JsonObjectSetValue h (some (.addr a)) k x).2.find a =
          some (rc, .obj (replE k x es)) ∧
      (replE k x es).map Prod.fst = es.map Prod.fst ∧
      ∀ bx rcx nx, x = .addr bx → h.find bx = some (rcx, nx) →
        (∀ g, reachF g h old bx = false) →
        rcOf (JsonObjectSetValue h (some (.addr a)) k x).2 x = rcx + 1 ∧
        rcOf (JsonObjectSetValue h (some (.addr a)) k x).2 old = rcOf h old - 1) := by
  constructor
  · intro seq hfind hseq
    have hrf := runSets_find seq h a rc [] hfind (by simp) hseq
    constructor
    · simp only [JsonObjectSize, hrf]
      exact foldSetE_length seq
    · intro k
      simp only [JsonObjectGetValue, hrf]
      rw [foldSetE_findE]
      cases hE : findE k seq.reverse with
      | none => simp [findE]
      | some v => rfl
  · intro es k x old hfind hold hxr holdr
    have hpne : x ≠ .addr a := by
      intro he
      have h0 := hxr 0
      rw [he] at h0
      simp [reachF] at h0
    have hstep : JsonObjectSetValue h (some (.addr a)) k x =
        (.success, release (retain (h.upd a (rc, .obj (replE k x es))) x) old) := by
      simp [JsonObjectSetValue, hfind, hold]
    have hag : ∀ b, b ≠ a →
        nodeOf (retain (h.upd a (rc, .obj (replE k x es))) x) b = nodeOf h b :=
      fun b hb => nodeOf_upd_retain_ne _ _ hb
    have h1find : (Heap.upd h a (rc, .obj (replE k x es))).find a =
        some (rc, .obj (replE k x es)) := find_upd_self (by simp [hfind])
    have h2find : (retain (h.upd a (rc, .obj (replE k x es))) x).find a =
        some (rc, .obj (replE k x es)) := by
      rw [retain_find_of_ne x hpne, h1find]
    have trold : ∀ g,
        reachF g (retain (h.upd a (rc, .obj (replE k x es))) x) old a = false :=
      fun g => reach_frame_agree hag g old holdr
    have h3find :
        (release (retain (h.upd a (rc, .obj (replE k x es))) x) old).find a =
        some (rc, .obj (replE k x es)) := by
      rw [release_frame trold, h2find]
    refine ⟨by rw [hstep], by rw [hstep]; exact h3find, keys_replE k x es, ?_⟩
    intro bx rcx nx hxeq hbfind holdbx
    subst hxeq
    have hbxa : bx ≠ a := noReach_addr_ne hxr
    have h1bx : (Heap.upd h a (rc, .obj (replE k (.addr bx) es))).find bx =
        some (rcx, nx) := by
      rw [find_upd_ne _ hbxa]
      exact hbfind
    have h2bx : (retain (h.upd a (rc, .obj (replE k (.addr bx) es))) (.addr bx)).find bx =
        some (rcx + 1, nx) := retain_find_self h1bx
    have troldbx : ∀ g,
        reachF g (retain (h.upd a (rc, .obj (replE k (.addr bx) es))) (.addr bx))
          old bx = false := by
      intro g
      rw [reach_frame_agree2 hag g old bx holdr]
      exact holdbx g
    constructor
    · rw [hstep]
      simp only [rcOf]
      rw [release_frame troldbx, h2bx]
    · match old, holdr, holdbx with
      | .jtrue, _, _ => rw [hstep]; rfl
      | .jfalse, _, _ => rw [hstep]; rfl
      | .jnull, _, _ => rw [hstep]; rfl
      | .addr bo, holdr, holdbx =>
        have hbobx : bo ≠ bx := noReach_addr_ne holdbx
        have hboa : bo ≠ a := noReach_addr_ne holdr
        have hvalne : (JVal.addr bx) ≠ (JVal.addr bo) := by
          simpa using Ne.symm hbobx
        have h2bo :
            (retain (h.upd a (rc, .obj (replE k (.addr bx) es))) (.addr bx)).find bo =
            h.find bo := by
          rw [retain_find_of_ne _ hvalne, find_upd_ne _ hboa]
        rw [hstep]
        show rcOf (release (retain (h.upd a (rc, .obj (replE k (.addr bx) es)))
          (.addr bx)) (.addr bo)) (.addr bo) = _
        rw [release_rcOf_self]
        simp only [rcOf, h2bo]

theorem claim_C4_key_uniqueness_witness :
    (JsonObjectSize
        (runSets ⟨1, [(0, 1, .obj [])]⟩ 0 [("a", .jnull), ("a", .jtrue)])
        (some (.addr 0)) = 1 ∧
      JsonObjectGetValue
        (runSets ⟨1, [(0, 1, .obj [])]⟩ 0 [("a", .jnull), ("a", .jtrue)])
        (some (.addr 0)) "a" = some .jtrue) ∧
    (rcOf (JsonObjectSetValue ⟨3, [(0, 1, .obj [("k", .addr 1)]), (1, 1, .int 5),
        (2, 1, .int 6)]⟩ (some (.addr 0)) "k" (.addr 2)).2 (.addr 2) = 2 ∧
      rcOf (JsonObjectSetValue ⟨3, [(0, 1, .obj [("k", .addr 1)]), (1, 1, .int 5),
        (2, 1, .int 6)]⟩ (some (.addr 0)) "k" (.addr 2)).2 (.addr 1) = 0) := by
  have hseq : ∀ p ∈ [("a", JVal.jnull), ("a", JVal.jtrue)],
      ∀ g, reachF g (⟨1, [(0, 1, .obj [])]⟩ : Heap) p.2 0 = false := by
    intro p hp g
    rcases List.mem_cons.mp hp with h1 | h1
    · subst h1; cases g <;> rfl
    · rcases List.mem_cons.mp h1 with h2 | h2
      · subst h2; cases g <;> rfl
      · simp at h2
  have hpart1 := (claim_C4_key_uniqueness ⟨1, [(0, 1, .obj [])]⟩ 0 1).1
    [("a", .jnull), ("a", .jtrue)] (by decide) hseq
  have hnr1 : ∀ g, reachF g (⟨3, [(0, 1, .obj [("k", .addr 1)]), (1, 1, .int 5),
      (2, 1, .int 6)]⟩ : Heap) (.addr 2) 0 = false := by
    intro g; cases g <;> rfl
  have hnr2 : ∀ g, reachF g (⟨3, [(0, 1, .obj [("k", .addr 1)]), (1, 1, .int 5),
      (2, 1, .int 6)]⟩ : Heap) (.addr 1) 0 = false := by
    intro g; cases g <;> rfl
  have hnr3 : ∀ g, reachF g (⟨3, [(0, 1, .obj [("k", .addr 1)]), (1, 1, .int 5),
      (2, 1, .int 6)]⟩ : Heap) (.addr 1) 2 = false := by
    intro g; cases g <;> rfl
  have hpart2 := ((claim_C4_key_uniqueness ⟨3, [(0, 1, .obj [("k", .addr 1)]),
      (1, 1, .int 5), (2, 1, .int 6)]⟩ 0 1).2
    [("k", .addr 1)] "k" (.addr 2) (.addr 1) (by decide) (by decide) hnr1 hnr2).2.2.2
    2 1 (.int 6) rfl (by decide) hnr3
  exact ⟨⟨hpart1.1, hpart1.2 "a"⟩, hpart2⟩

/-- C5: removing a valid index from an array succeeds, shifts the
elements after the index one position towards the start (the survivors
keep their relative order), and decrements the removed element's
reference count by exactly 1. -/
theorem claim_C5_array_removal (h : Heap) (a rc i : Nat) (es : List JVal) (x : JVal)
    (hfind : h.find a = some (rc, .arr es))
    (hx : es[i]? = some x)
    (hframe : ∀ g, reachF g h x a = false) :
    (JsonArrayRemoveValue h (some (.addr a)) i).1 = .success ∧
    (JsonArrayRemoveValue h (some (.addr a)) i).2.find a =
      some (rc, .arr (es.take i ++ es.drop (i + 1))) ∧
    rcOf (JsonArrayRemoveValue h (some (.addr a)) i).2 x = rcOf h x - 1 := by
  have hstep : JsonArrayRemoveValue h (some (.addr a)) i =
      (.success, release (h.upd a (rc, .arr (es.eraseIdx i))) x) := by
    simp [JsonArrayRemoveValue, hfind, hx]
  have hxa : x ≠ .addr a := by
    intro he
    have h0 := hframe 0
    rw [he] at h0
    simp [reachF] at h0
  have hag : ∀ b, b ≠ a →
      nodeOf (h.upd a (rc, .arr (es.eraseIdx i))) b = nodeOf h b :=
    fun b hb => nodeOf_upd_ne _ hb
  have h1find : (Heap.upd h a (rc, .arr (es.eraseIdx i))).find a =
      some (rc, .arr (es.eraseIdx i)) := find_upd_self (by simp [hfind])
  have trx : ∀ g, reachF g (h.upd a (rc, .arr (es.eraseIdx i))) x a = false :=
    fun g => reach_frame_agree hag g x hframe
  refine ⟨by rw [hstep], ?_, ?_⟩
  · rw [hstep]
    show (release (h.upd a (rc, .arr (es.eraseIdx i))) x).find a = _
    rw [release_frame trx, h1find, List.eraseIdx_eq_take_drop_succ]
  · rw [hstep]
    match x, hframe, hxa with
    | .jtrue, _, _ => rfl
    | .jfalse, _, _ => rfl
    | .jnull, _, _ => rfl
    | .addr bx, hframe, hxa =>
      have hbxa : bx ≠ a := noReach_addr_ne hframe
      have hup : (Heap.upd h a (rc, .arr (es.eraseIdx i))).find bx = h.find bx :=
        find_upd_ne _ hbxa
      show rcOf (release (h.upd a (rc, .arr (es.eraseIdx i))) (.addr bx)) (.addr bx) = _
      rw [release_rcOf_self]
      simp only [rcOf, hup]

theorem claim_C5_array_removal_witness :
    (JsonArrayRemoveValue ⟨4, [(0, 1, .arr [.addr 1, .addr 2, .addr 3]),
        (1, 1, .int 10), (2, 1, .int 20), (3, 1, .int 30)]⟩ (some (.addr 0)) 1).1 =
      .success ∧
    (JsonArrayRemoveValue ⟨4, [(0, 1, .arr [.addr 1, .addr 2, .addr 3]),
        (1, 1, .int 10), (2, 1, .int 20), (3, 1, .int 30)]⟩ (some (.addr 0)) 1).2.find 0 =
      some (1, .arr ([.addr 1, .addr 2, .addr 3].take 1 ++
        [.addr 1, .addr 2, .addr 3].drop 2)) ∧
    rcOf (JsonArrayRemoveValue ⟨4, [(0, 1, .arr [.addr 1, .addr 2, .addr 3]),
        (1, 1, .int 10), (2, 1, .int 20), (3, 1, .int 30)]⟩ (some (.addr 0)) 1).2
      (.addr 2) =
      rcOf (⟨4, [(0, 1, .arr [.addr 1, .addr 2, .addr 3]), (1, 1, .int 10),
        (2, 1, .int 20), (3, 1, .int 30)]⟩ : Heap) (.addr 2) - 1 :=
  claim_C5_array_removal _ 0 1 1 [.addr 1, .addr 2, .addr 3] (.addr 2) (by decide)
    (by decide) (by intro g; cases g <;> rfl)

/-! ### Refcount conservation (C1) -/

theorem find_upd_none {h : Heap} {x a : Nat} (e : Nat × JNode) (hx : h.find x = none) :
    (h.upd a e).find x = none := by
  by_cases hxa : x = a
  · subst hxa
    have : updN x e h.nodes = h.nodes := updN_absent hx
    show findN x (updN x e h.nodes) = none
    rw [this]
    exact hx
  · rw [find_upd_ne e hxa]
    exact hx

theorem retain_find_none {h : Heap} {x : Nat} (v : JVal) (hx : h.find x = none) :
    (retain h v).find x = none := by
  match v with
  | .jtrue | .jfalse | .jnull => exact hx
  | .addr b =>
    match hf : h.find b with
    | none => simpa [retain, hf] using hx
    | some (rc, n) =>
      simp only [retain, hf]
      exact find_upd_none _ hx

theorem length_upd (h : Heap) (a : Nat) (e : Nat × JNode) :
    (h.upd a e).nodes.length = h.nodes.length := length_updN a e h.nodes

theorem length_retain (h : Heap) (v : JVal) :
    (retain h v).nodes.length = h.nodes.length := by
  match v with
  | .jtrue | .jfalse | .jnull => rfl
  | .addr b =>
    match hf : h.find b with
    | none => simp [retain, hf]
    | some (rc, n) => simp [retain, hf, length_upd]

theorem find_isSome_upd (h : Heap) (a : Nat) (e : Nat × JNode) (x : Nat) :
    ((h.upd a e).find x).isSome = (h.find x).isSome := by
  by_cases hxa : x = a
  · subst hxa
    cases hf : h.find x with
    | none => simp [find_upd_none e hf]
    | some f => simp [find_upd_self (show (h.find x).isSome by simp [hf])]
  · rw [find_upd_ne e hxa]

theorem find_isSome_retain (h : Heap) (v : JVal) (x : Nat) :
    ((retain h v).find x).isSome = (h.find x).isSome := by
  match v with
  | .jtrue | .jfalse | .jnull => rfl
  | .addr b =>
    match hf : h.find b with
    | none => simp [retain, hf]
    | some (rc, n) => simp [retain, hf, find_isSome_upd]

theorem release_singleton (h : Heap) (v : JVal) (hv : ∀ b, v ≠ .addr b) :
    release h v = h := release_rcOf_absent h v hv

theorem release_decrement {h : Heap} {b rc : Nat} {n : JNode}
    (hf : h.find b = some (rc, n)) (hrc : 2 ≤ rc) :
    release h (.addr b) = h.upd b (rc - 1, n) := by
  have : ¬ rc ≤ 1 := by omega
  simp [release, releaseFuel, hf, this]

theorem foldl_release_absent (f : Nat) (cs : List JVal) (h : Heap) (x : Nat)
    (hx : h.find x = none) : (cs.foldl (releaseFuel f) h).find x = none := by
  induction cs generalizing h with
  | nil => exact hx
  | cons c cs ih => exact ih _ (release_find_none f c hx)

theorem release_free_absent {h : Heap} {b rc : Nat} {n : JNode}
    (hf : h.find b = some (rc, n)) (hrc : rc ≤ 1) :
    (release h (.addr b)).find b = none := by
  simp only [release, releaseFuel, hf, hrc, if_true]
  exact foldl_release_absent _ _ _ _ (find_rem_self h b)

theorem release_length_of_pres (h : Heap) (w : JVal)
    (hpres : ∀ x, h.find x ≠ none → (release h w).find x ≠ none) :
    (release h w).nodes.length = h.nodes.length := by
  match w with
  | .jtrue | .jfalse | .jnull =>
    rw [release_singleton h _ (by intro b; simp)]
  | .addr b =>
    match hf : h.find b with
    | none => simp [release, releaseFuel, hf]
    | some (rc, n) =>
      by_cases hrc : rc ≤ 1
      · exact absurd (release_free_absent hf hrc)
          (hpres b (by simp [hf]))
      · rw [release_decrement hf (by omega)]
        exact length_upd h b _

theorem step_absent (h : Heap) (op : Op) {x : Nat} (hx : h.find x = none) :
    (step h op).find x = none := by
  match op with
  | .retainOp v =>
    match v with
    | none => exact hx
    | some w => exact retain_find_none w hx
  | .releaseOp v =>
    match v with
    | none => exact hx
    | some w => exact release_find_none _ w hx
  | .appendOp t v =>
    match t with
    | none | some .jtrue | some .jfalse | some .jnull => exact hx
    | some (.addr a) =>
      match hf : h.find a with
      | none => simpa [step, JsonArrayAppendValue, hf] using hx
      | some (rc, .obj es) => simpa [step, JsonArrayAppendValue, hf] using hx
      | some (rc, .str s) => simpa [step, JsonArrayAppendValue, hf] using hx
      | some (rc, .int n) => simpa [step, JsonArrayAppendValue, hf] using hx
      | some (rc, .arr es) =>
        simp only [step, JsonArrayAppendValue, hf]
        exact retain_find_none _ (find_upd_none _ hx)
  | .setOp t k v =>
    match t with
    | none | some .jtrue | some .jfalse | some .jnull => exact hx
    | some (.addr a) =>
      match hf : h.find a with
      | none => simpa [step, JsonObjectSetValue, hf] using hx
      | some (rc, .arr es) => simpa [step, JsonObjectSetValue, hf] using hx
      | some (rc, .str s) => simpa [step, JsonObjectSetValue, hf] using hx
      | some (rc, .int n) => simpa [step, JsonObjectSetValue, hf] using hx
      | some (rc, .obj es) =>
        cases hold : findE k es with
        | some old =>
          simp only [step, JsonObjectSetValue, hf, hold]
          exact release_find_none _ old (retain_find_none _ (find_upd_none _ hx))
        | none =>
          simp only [step, JsonObjectSetValue, hf, hold]
          exact retain_find_none _ (find_upd_none _ hx)
  | .removeOp t i =>
    match t with
    | none | some .jtrue | some .jfalse | some .jnull => exact hx
    | some (.addr a) =>
      match hf : h.find a with
      | none => simpa [step, JsonArrayRemoveValue, hf] using hx
      | some (rc, .obj es) => simpa [step, JsonArrayRemoveValue, hf] using hx
      | some (rc, .str s) => simpa [step, JsonArrayRemoveValue, hf] using hx
      | some (rc, .int n) => simpa [step, JsonArrayRemoveValue, hf] using hx
      | some (rc, .arr es) =>
        cases hel : es[i]? with
        | some y =>
          simp only [step, JsonArrayRemoveValue, hf, hel]
          exact release_find_none _ y (find_upd_none _ hx)
        | none => simpa [step, JsonArrayRemoveValue, hf, hel] using hx

theorem step_preserve (h : Heap) (op : Op)
    (hpres : ∀ x, h.find x ≠ none → (step h op).find x ≠ none) :
    (step h op).nodes.length = h.nodes.length := by
  match op with
  | .retainOp v =>
    match v with
    | none => rfl
    | some w => exact length_retain h w
  | .releaseOp v =>
    match v with
    | none => rfl
    | some w => exact release_length_of_pres h w hpres
  | .appendOp t v =>
    match t with
    | none | some .jtrue | some .jfalse | some .jnull => rfl
    | some (.addr a) =>
      match hf : h.find a with
      | none => simp [step, JsonArrayAppendValue, hf]
      | some (rc, .obj es) => simp [step, JsonArrayAppendValue, hf]
      | some (rc, .str s) => simp [step, JsonArrayAppendValue, hf]
      | some (rc, .int n) => simp [step, JsonArrayAppendValue, hf]
      | some (rc, .arr es) =>
        simp [step, JsonArrayAppendValue, hf, length_retain, length_upd]
  | .setOp t k v =>
    match t with
    | none | some .jtrue | some .jfalse | some .jnull => rfl
    | some (.addr a) =>
      match hf : h.find a with
      | none => simp [step, JsonObjectSetValue, hf]
      | some (rc, .arr es) => simp [step, JsonObjectSetValue, hf]
      | some (rc, .str s) => simp [step, JsonObjectSetValue, hf]
      | some (rc, .int n) => simp [step, JsonObjectSetValue, hf]
      | some (rc, .obj es) =>
        cases hold : findE k es with
        | none =>
          simp [step, JsonObjectSetValue, hf, hold, length_retain, length_upd]
        | some old =>
          have hstep : step h (.setOp (some (.addr a)) k v) =
              release (retain (h.upd a (rc, .obj (replE k v es))) v) old := by
            simp [step, JsonObjectSetValue, hf, hold]
          rw [hstep]
          have hpres2 : ∀ y, (retain (h.upd a (rc, .obj (replE k v es))) v).find y ≠ none →
              (release (retain (h.upd a (rc, .obj (replE k v es))) v) old).find y ≠ none := by
            intro y hy
            have hyh : h.find y ≠ none := by
              intro hnone
              apply hy
              exact retain_find_none _ (find_upd_none _ hnone)
            have := hpres y hyh
            rwa [hstep] at this
          rw [release_length_of_pres _ old hpres2, length_retain, length_upd]
  | .removeOp t i =>
    match t with
    | none | some .jtrue | some .jfalse | some .jnull => rfl
    | some (.addr a) =>
      match hf : h.find a with
      | none => simp [step, JsonArrayRemoveValue, hf]
      | some (rc, .obj es) => simp [step, JsonArrayRemoveValue, hf]
      | some (rc, .str s) => simp [step, JsonArrayRemoveValue, hf]
      | some (rc, .int n) => simp [step, JsonArrayRemoveValue, hf]
      | some (rc, .arr es) =>
        cases hel : es[i]? with
        | none => simp [step, JsonArrayRemoveValue, hf, hel]
        | some y =>
          have hstep : step h (.removeOp (some (.addr a)) i) =
              release (h.upd a (rc, .arr (es.eraseIdx i))) y := by
            simp [step, JsonArrayRemoveValue, hf, hel]
          rw [hstep]
          have hpres2 : ∀ z, (Heap.upd h a (rc, .arr (es.eraseIdx i))).find z ≠ none →
              (release (h.upd a (rc, .arr (es.eraseIdx i))) y).find z ≠ none := by
            intro z hz
            have hzh : h.find z ≠ none := by
              intro hnone
              apply hz
              exact find_upd_none _ hnone
            have := hpres z hzh
            rwa [hstep] at this
          rw [release_length_of_pres _ y hpres2, length_upd]

theorem run_length_of_pres :
    ∀ (ops : List Op) (h : Heap),
      (∀ p q, p ++ q = ops → ∀ x, h.find x ≠ none → (run h p).find x ≠ none) →
      (run h ops).nodes.length = h.nodes.length := by
  intro ops
  induction ops with
  | nil => intro h _; rfl
  | cons op rest ih =>
    intro h hyp
    have hstepPres : ∀ x, h.find x ≠ none → (step h op).find x ≠ none := by
      intro x hx
      have := hyp [op] rest rfl x hx
      simpa [run] using this
    have hrest : ∀ p q, p ++ q = rest →
        ∀ x, (step h op).find x ≠ none → (run (step h op) p).find x ≠ none := by
      intro p q hpq x hx
      have hxh : h.find x ≠ none := by
        intro hnone
        exact hx (step_absent h op hnone)
      have := hyp (op :: p) q (by rw [← hpq]; rfl) x hxh
      simpa [run] using this
    have h1 : (run (step h op) rest).nodes.length = (step h op).nodes.length :=
      ih (step h op) hrest
    have h2 : (step h op).nodes.length = h.nodes.length :=
      step_preserve h op hstepPres
    show (run (step h op) rest).nodes.length = h.nodes.length
    rw [h1, h2]

theorem appendValue_rcOf (h : Heap) (a rc : Nat) (es : List JVal) (bx rcx : Nat)
    (nx : JNode) (hfind : h.find a = some (rc, .arr es))
    (hbfind : h.find bx = some (rcx, nx)) :
    (JsonArrayAppendValue h (some (.addr a)) (.addr bx)).1 = .success ∧
    rcOf (JsonArrayAppendValue h (some (.addr a)) (.addr bx)).2 (.addr bx) = rcx + 1 := by
  have hstep : JsonArrayAppendValue h (some (.addr a)) (.addr bx) =
      (.success, retain (h.upd a (rc, .arr (es ++ [.addr bx]))) (.addr bx)) := by
    simp [JsonArrayAppendValue, hfind]
  refine ⟨by rw [hstep], ?_⟩
  rw [hstep]
  by_cases hbxa : bx = a
  · subst hbxa
    have hup : (Heap.upd h bx (rc, .arr (es ++ [.addr bx]))).find bx =
        some (rc, .arr (es ++ [.addr bx])) := find_upd_self (by simp [hfind])
    have hrceq : rcx = rc := by
      rw [hfind] at hbfind
      injection hbfind with h1
      exact (congrArg Prod.fst h1.symm)
    have := retain_find_self hup
    simp only [rcOf, this, hrceq]
  · have hup : (Heap.upd h a (rc, .arr (es ++ [.addr bx]))).find bx =
        some (rcx, nx) := by
      rw [find_upd_ne _ hbxa]
      exact hbfind
    have := retain_find_self hup
    simp only [rcOf, this]

theorem removeValue_rcOf (h : Heap) (a rc i : Nat) (es : List JVal) (x : JVal)
    (hfind : h.find a = some (rc, .arr es)) (hx : es[i]? = some x) :
    rcOf (JsonArrayRemoveValue h (some (.addr a)) i).2 x = rcOf h x - 1 := by
  have hstep : JsonArrayRemoveValue h (some (.addr a)) i =
      (.success, release (h.upd a (rc, .arr (es.eraseIdx i))) x) := by
    simp [JsonArrayRemoveValue, hfind, hx]
  rw [hstep]
  match x with
  | .jtrue => rfl
  | .jfalse => rfl
  | .jnull => rfl
  | .addr bx =>
    show rcOf (release (h.upd a (rc, .arr (es.eraseIdx i))) (.addr bx)) (.addr bx) = _
    rw [release_rcOf_self]
    by_cases hbxa : bx = a
    · subst hbxa
      have hup : (Heap.upd h bx (rc, .arr (es.eraseIdx i))).find bx =
          some (rc, .arr (es.eraseIdx i)) := find_upd_self (by simp [hfind])
      simp only [rcOf, hup, hfind]
    · have hup : (Heap.upd h a (rc, .arr (es.eraseIdx i))).find bx = h.find bx :=
        find_upd_ne _ hbxa
      simp only [rcOf, hup]

/-- C1: for every balanced sequence of Retain / Set / Append / RemoveAt /
Release operations on a well-formed heap (live counts at least 1), the
number of live non-singleton values at the end equals the number at the
start; attaching a value to an array increments its count by exactly 1,
and detaching it decrements by exactly 1. -/
theorem claim_C1_refcount_conservation (h : Heap) (ops : List Op)
    (hpos : ∀ x rc n, h.find x = some (rc, n) → 1 ≤ rc)
    (hbal : Balanced h ops) :
    liveCount (run h ops) = liveCount h ∧
    (∀ a rc es bx rcx nx, h.find a = some (rc, .arr es) →
      h.find bx = some (rcx, nx) →
      (JsonArrayAppendValue h (some (.addr a)) (.addr bx)).1 = .success ∧
      rcOf (JsonArrayAppendValue h (some (.addr a)) (.addr bx)).2 (.addr bx) = rcx + 1) ∧
    (∀ a rc es i x, h.find a = some (rc, .arr es) → es[i]? = some x →
      rcOf (JsonArrayRemoveValue h (some (.addr a)) i).2 x = rcOf h x - 1) := by
  refine ⟨?_, ?_, ?_⟩
  · have hpres : ∀ p q, p ++ q = ops → ∀ x, h.find x ≠ none →
        (run h p).find x ≠ none := by
      intro p q hpq x hx
      match hf : h.find x with
      | none => exact absurd hf hx
      | some (rc, n) =>
        have h1 : 1 ≤ rc := hpos x rc n hf
        have h2 : rcOf h (.addr x) ≤ rcOf (run h p) (.addr x) := hbal.1 p q hpq x
        have h3 : 1 ≤ rcOf (run h p) (.addr x) := by
          refine le_trans ?_ h2
          simp [rcOf, hf, h1]
        intro habs
        rw [show rcOf (run h p) (.addr x) = 0 by simp [rcOf, habs]] at h3
        omega
    exact run_length_of_pres ops h hpres
  · intro a rc es bx rcx nx hfind hbfind
    exact appendValue_rcOf h a rc es bx rcx nx hfind hbfind
  · intro a rc es i x hfind hx
    exact removeValue_rcOf h a rc i es x hfind hx

theorem claim_C1_refcount_conservation_witness :
    liveCount (run ⟨1, [(0, 2, .int 5)]⟩
      [.retainOp (some (.addr 0)), .releaseOp (some (.addr 0))]) =
      liveCount ⟨1, [(0, 2, .int 5)]⟩ ∧
    rcOf (JsonArrayAppendValue ⟨2, [(0, 1, .arr []), (1, 1, .int 7)]⟩
      (some (.addr 0)) (.addr 1)).2 (.addr 1) = 2 ∧
    rcOf (JsonArrayRemoveValue ⟨2, [(0, 1, .arr [.addr 1]), (1, 1, .int 7)]⟩
      (some (.addr 0)) 0).2 (.addr 1) =
      rcOf (⟨2, [(0, 1, .arr [.addr 1]), (1, 1, .int 7)]⟩ : Heap) (.addr 1) - 1 := by
  have hbal : Balanced ⟨1, [(0, 2, .int 5)]⟩
      [.retainOp (some (.addr 0)), .releaseOp (some (.addr 0))] := by
    constructor
    · intro p q hpq x
      match p, q, hpq with
      | [], _, _ => exact le_refl _
      | [_], _, hpq =>
        injection hpq with h1 h2
        subst h1
        by_cases hx0 : x = 0
        · subst hx0; decide
        · have hz : rcOf (⟨1, [(0, 2, .int 5)]⟩ : Heap) (.addr x) = 0 := by
            simp only [rcOf, Heap.find, findN]
            have : ¬ ((0 : Nat) = x) := fun hc => hx0 hc.symm
            simp [this]
          rw [hz]
          exact Nat.zero_le _
      | _ :: _ :: p', q, hpq =>
        injection hpq with h1 h2
        injection h2 with h3 h4
        have hp' : p' = [] := (List.append_eq_nil.mp h4).1
        subst h1; subst h3; subst hp'
        by_cases hx0 : x = 0
        · subst hx0; decide
        · have hz : rcOf (⟨1, [(0, 2, .int 5)]⟩ : Heap) (.addr x) = 0 := by
            simp only [rcOf, Heap.find, findN]
            have : ¬ ((0 : Nat) = x) := fun hc => hx0 hc.symm
            simp [this]
          rw [hz]
          exact Nat.zero_le _
    · intro x
      rfl
  have h1 := (claim_C1_refcount_conservation ⟨1, [(0, 2, .int 5)]⟩
    [.retainOp (some (.addr 0)), .releaseOp (some (.addr 0))]
    (by intro x rc n hf; by_cases hx0 : x = 0
        · subst hx0
          simp only [Heap.find, findN] at hf
          simp at hf
          omega
        · simp only [Heap.find, findN] at hf
          have : ¬ ((0 : Nat) = x) := fun hc => hx0 hc.symm
          simp [this] at hf) hbal).1
  have hbal2 : Balanced ⟨2, [(0, 1, .arr []), (1, 1, .int 7)]⟩ [] := by
    constructor
    · intro p q hpq x
      have hp : p = [] := (List.append_eq_nil.mp hpq).1
      subst hp
      exact le_refl _
    · intro x; rfl
  have hpos2 : ∀ x rc n, (⟨2, [(0, 1, .arr []), (1, 1, .int 7)]⟩ : Heap).find x =
      some (rc, n) → 1 ≤ rc := by
    intro x rc n hf
    simp only [Heap.find, findN] at hf
    by_cases hx0 : (0 : Nat) = x
    · simp [hx0] at hf
      omega
    · simp only [hx0, if_false] at hf
      by_cases hx1 : (1 : Nat) = x
      · simp [hx1] at hf
        omega
      · simp [hx1] at hf
  have h2 := ((claim_C1_refcount_conservation ⟨2, [(0, 1, .arr []), (1, 1, .int 7)]⟩
    [] hpos2 hbal2).2.1 0 1 [] 1 1 (.int 7) (by decide) (by decide)).2
  have hbal3 : Balanced ⟨2, [(0, 1, .arr [.addr 1]), (1, 1, .int 7)]⟩ [] := by
    constructor
    · intro p q hpq x
      have hp : p = [] := (List.append_eq_nil.mp hpq).1
      subst hp
      exact le_refl _
    · intro x; rfl
  have hpos3 : ∀ x rc n, (⟨2, [(0, 1, .arr [.addr 1]), (1, 1, .int 7)]⟩ : Heap).find x =
      some (rc, n) → 1 ≤ rc := by
    intro x rc n hf
    simp only [Heap.find, findN] at hf
    by_cases hx0 : (0 : Nat) = x
    · simp [hx0] at hf
      omega
    · simp only [hx0, if_false] at hf
      by_cases hx1 : (1 : Nat) = x
      · simp [hx1] at hf
        omega
      · simp [hx1] at hf
  have h3 := (claim_C1_refcount_conservation ⟨2, [(0, 1, .arr [.addr 1]), (1, 1, .int 7)]⟩
    [] hpos3 hbal3).2.2 0 1 [.addr 1] 0 (.addr 1) (by decide) (by decide)
  exact ⟨h1, h2, h3⟩

/-! ### Number serialization lemmas -/

theorem digitChar_prop {P : Char → Prop} (h0 : P '0') (h1 : P '1') (h2 : P '2')
    (h3 : P '3') (h4 : P '4') (h5 : P '5') (h6 : P '6') (h7 : P '7') (h8 : P '8')
    (h9 : P '9') (d : Nat) : P (digitChar d) := by
  unfold digitChar
  split <;> assumption

theorem isDigit_digitChar (d : Nat) : isDigit (digitChar d) = true := by
  refine @digitChar_prop (fun c => isDigit c = true) ?_ ?_ ?_ ?_ ?_ ?_ ?_ ?_ ?_ ?_ d <;>
    decide

theorem not_ws_digitChar (d : Nat) : isWs (digitChar d) = false := by
  refine @digitChar_prop (fun c => isWs c = false) ?_ ?_ ?_ ?_ ?_ ?_ ?_ ?_ ?_ ?_ d <;>
    decide

theorem digitChar_ne {c : Char}
    (hc : c ≠ '0' ∧ c ≠ '1' ∧ c ≠ '2' ∧ c ≠ '3' ∧ c ≠ '4' ∧ c ≠ '5' ∧ c ≠ '6' ∧
      c ≠ '7' ∧ c ≠ '8' ∧ c ≠ '9') (d : Nat) : digitChar d ≠ c := by
  refine @digitChar_prop (fun e => e ≠ c) ?_ ?_ ?_ ?_ ?_ ?_ ?_ ?_ ?_ ?_ d
  · exact Ne.symm hc.1
  · exact Ne.symm hc.2.1
  · exact Ne.symm hc.2.2.1
  · exact Ne.symm hc.2.2.2.1
  · exact Ne.symm hc.2.2.2.2.1
  · exact Ne.symm hc.2.2.2.2.2.1
  · exact Ne.symm hc.2.2.2.2.2.2.1
  · exact Ne.symm hc.2.2.2.2.2.2.2.1
  · exact Ne.symm hc.2.2.2.2.2.2.2.2.1
  · exact Ne.symm hc.2.2.2.2.2.2.2.2.2

theorem digVal_digitChar {d : Nat} (hd : d < 10) : digVal (digitChar d) = d := by
  interval_cases d <;> decide

theorem serializeNat_all_digits (n : Nat) : ∀ c ∈ serializeNat n, isDigit c = true := by
  intro c hc
  unfold serializeNat at hc
  by_cases hn : n = 0
  · simp [hn] at hc
    subst hc
    decide
  · simp only [hn, if_false, List.mem_map, List.mem_reverse] at hc
    obtain ⟨d, _, rfl⟩ := hc
    exact isDigit_digitChar d

theorem serializeNat_ne_nil (n : Nat) : serializeNat n ≠ [] := by
  unfold serializeNat
  by_cases hn : n = 0
  · simp [hn]
  · simp only [hn, if_false]
    simp [Nat.digits_ne_nil_iff_ne_zero, hn]

theorem foldl_digits_eq (l : List Nat) (hl : ∀ d ∈ l, d < 10) (acc : Nat) :
    (l.reverse.map digitChar).foldl (fun a c => 10 * a + digVal c) acc =
      acc * 10 ^ l.length + Nat.ofDigits 10 l := by
  induction l generalizing acc with
  | nil => simp
  | cons d l ih =>
    have hd : d < 10 := hl d (by simp)
    have hrest : ∀ e ∈ l, e < 10 := fun e he => hl e (by simp [he])
    simp only [List.reverse_cons, List.map_append, List.map_cons, List.map_nil,
      List.foldl_append, List.foldl_cons, List.foldl_nil]
    rw [ih hrest acc]
    rw [digVal_digitChar hd]
    simp only [List.length_cons, Nat.ofDigits_cons]
    ring

theorem foldl_serializeNat (n : Nat) :
    (serializeNat n).foldl (fun a c => 10 * a + digVal c) 0 = n := by
  unfold serializeNat
  by_cases hn : n = 0
  · simp [hn, digVal]
  · simp only [hn, if_false]
    have hlt : ∀ d ∈ Nat.digits 10 n, d < 10 := fun d hd =>
      Nat.digits_lt_base (by norm_num) hd
    rw [foldl_digits_eq _ hlt 0]
    simp [Nat.ofDigits_digits]

theorem takeDigits_append {ds rest : List Char} (hds : ∀ c ∈ ds, isDigit c = true)
    (hrest : ∀ c cs2, rest = c :: cs2 → isDigit c = false) :
    takeDigits (ds ++ rest) = (ds, rest) := by
  induction ds with
  | nil =>
    simp only [List.nil_append]
    match rest, hrest with
    | [], _ => rfl
    | c :: cs2, hrest =>
      simp [takeDigits, hrest c cs2 rfl]
  | cons c cs ih =>
    have hc : isDigit c = true := hds c (by simp)
    simp only [List.cons_append, takeDigits, hc, if_true]
    simp only [List.append_eq]
    rw [ih fun d hd => hds d (by simp [hd])]

theorem serializeNat_no_leading_zero {n : Nat} {d : Char} {ds : List Char}
    (heq : serializeNat n = d :: ds) (hd : d = '0') : ds = [] := by
  unfold serializeNat at heq
  by_cases hn : n = 0
  · simp [hn] at heq
    exact heq.2
  · exfalso
    simp only [hn, if_false] at heq
    have hne : Nat.digits 10 n ≠ [] := by
      simp [Nat.digits_ne_nil_iff_ne_zero, hn]
    have hlast := Nat.getLast_digit_ne_zero 10 hn
    obtain ⟨l0, hl0, hlast0⟩ : ∃ l0, Nat.digits 10 n = l0 ++ [(Nat.digits 10 n).getLast hne] ∧
        (Nat.digits 10 n).getLast hne ≠ 0 := by
      exact ⟨(Nat.digits 10 n).dropLast, (List.dropLast_append_getLast hne).symm, hlast⟩
    rw [hl0] at heq
    simp only [List.reverse_append, List.reverse_cons, List.reverse_nil,
      List.nil_append, List.map_cons, List.cons_append, List.singleton_append,
      List.cons.injEq] at heq
    have hdig : (Nat.digits 10 n).getLast hne < 10 := by
      apply Nat.digits_lt_base (by norm_num)
      exact List.getLast_mem hne
    have hzero : (Nat.digits 10 n).getLast hne = 0 := by
      have h1 : digitChar ((Nat.digits 10 n).getLast hne) = '0' := by
        rw [heq.1, hd]
      by_contra hnz
      interval_cases h : (Nat.digits 10 n).getLast hne <;> simp_all <;> exact absurd h1 (by decide)
    exact hlast0 hzero

theorem serializeNat_digit_head {n : Nat} {d : Char} {ds : List Char}
    (heq : serializeNat n = d :: ds) : isDigit d = true :=
  serializeNat_all_digits n d (by rw [heq]; simp)

theorem parseNumTail_safe (fl : DecFlags) (i : Int) (rest : List Char)
    (hrange : rangeOk i = true) (hrest : NumSafe rest) :
    parseNumTail fl i rest = .ok (.jint i, rest) := by
  match rest, hrest with
  | [], _ => simp [parseNumTail, hrange]
  | c :: rest2, hrest =>
    obtain ⟨hcd, hcdot, hce, hcE⟩ := hrest c rest2 rfl
    simp [parseNumTail, hcdot, hce, hcE, hrange]

theorem parseNumber_dump (fl : DecFlags) (i : Int) (rest : List Char)
    (hrange : rangeOk i = true) (hrest : NumSafe rest) :
    parseNumber fl (serializeInt i ++ rest) = .ok (.jint i, rest) := by
  obtain ⟨d, ds, hsn⟩ : ∃ d ds, serializeNat i.natAbs = d :: ds := by
    match hq : serializeNat i.natAbs with
    | [] => exact absurd hq (serializeNat_ne_nil _)
    | d :: ds => exact ⟨d, ds, rfl⟩
  have hdig : isDigit d = true := serializeNat_digit_head hsn
  have htake : takeDigits (serializeNat i.natAbs ++ rest) = (serializeNat i.natAbs, rest) :=
    takeDigits_append (serializeNat_all_digits i.natAbs)
      (fun c cs2 hc => ((hrest c cs2 hc)).1)
  have htake2 : takeDigits (serializeNat i.natAbs ++ rest) = (d :: ds, rest) := by
    rw [htake, hsn]
  have hlz : (decide (d = '0') && decide (ds ≠ [])) = false := by
    by_cases hd0 : d = '0'
    · have : ds = [] := serializeNat_no_leading_zero hsn hd0
      simp [this]
    · simp [hd0]
  have hfold : (d :: ds).foldl (fun a c => 10 * a + digVal c) 0 = i.natAbs := by
    rw [← hsn]
    exact foldl_serializeNat i.natAbs
  by_cases hi : i < 0
  · have hser : serializeInt i = '-' :: serializeNat i.natAbs := by
      simp [serializeInt, hi]
    have hival : -((i.natAbs : Nat) : Int) = i := by omega
    have hnum : numSign (serializeInt i ++ rest) =
        (true, serializeNat i.natAbs ++ rest) := by
      rw [hser]
      simp [numSign]
    simp only [parseNumber, hnum, htake2, hlz, Bool.false_eq_true, if_false, hfold,
      if_true, hival]
    exact parseNumTail_safe fl i rest hrange hrest
  · have hser : serializeInt i = serializeNat i.natAbs := by
      simp [serializeInt, hi]
    have hival : ((i.natAbs : Nat) : Int) = i := by omega
    have hdne : ¬ (d = '-') := by
      intro hd
      rw [hd] at hdig
      exact absurd hdig (by decide)
    have hnum : numSign (serializeInt i ++ rest) =
        (false, serializeNat i.natAbs ++ rest) := by
      rw [hser, hsn]
      simp [numSign, hdne]
    simp only [parseNumber, hnum, htake2, hlz, Bool.false_eq_true, if_false, hfold,
      hival]
    exact parseNumTail_safe fl i rest hrange hrest

/-! ### String escaping lemmas -/

theorem hexChar_prop {P : Char → Prop} (h0 : P '0') (h1 : P '1') (h2 : P '2')
    (h3 : P '3') (h4 : P '4') (h5 : P '5') (h6 : P '6') (h7 : P '7') (h8 : P '8')
    (h9 : P '9') (ha : P 'a') (hb : P 'b') (hc : P 'c') (hd : P 'd') (he : P 'e')
    (hf : P 'f') (d : Nat) : P (hexChar d) := by
  unfold hexChar
  split <;> assumption

theorem hexVal_hexChar {d : Nat} (hd : d < 16) : hexVal (hexChar d) = some d := by
  interval_cases d <;> decide

theorem escapeChar_ne_nil (c : Char) : escapeChar c ≠ [] := by
  unfold escapeChar
  split
  · simp
  · split
    · simp
    · split <;> simp

theorem length_le_escList (cs : List Char) : cs.length ≤ (escList cs).length := by
  induction cs with
  | nil => simp [escList]
  | cons c cs ih =>
    show (c :: cs).length ≤ (escapeChar c ++ escList cs).length
    simp only [List.length_cons, List.length_append]
    have h1 : 1 ≤ (escapeChar c).length := by
      match hq : escapeChar c with
      | [] => exact absurd hq (escapeChar_ne_nil c)
      | e :: es => simp
    omega

theorem escList_cons (c : Char) (cs : List Char) :
    escList (c :: cs) = escapeChar c ++ escList cs := rfl

theorem parseStrBody_escList :
    ∀ (f : Nat) (cs rest : List Char), cs.length < f →
      (∀ c ∈ cs, c.toNat < 128) →
      parseStrBody f (escList cs ++ '"' :: rest) = .ok (cs, rest) := by
  intro f
  induction f with
  | zero => intro cs rest h _; omega
  | succ f ih =>
    intro cs rest hlen hascii
    match cs with
    | [] =>
      show parseStrBody (f + 1) ('"' :: rest) = .ok ([], rest)
      simp [parseStrBody]
    | c :: cs =>
      have hascii2 : ∀ e ∈ cs, e.toNat < 128 := fun e he => hascii e (by simp [he])
      have hlen2 : cs.length < f := by
        simp only [List.length_cons] at hlen
        omega
      have ihc := ih cs rest hlen2 hascii2
      rw [escList_cons, List.append_assoc]
      by_cases hq : c = '"'
      · subst hq
        show parseStrBody (f + 1) ('\\' :: '"' :: (escList cs ++ '"' :: rest)) = _
        simp [parseStrBody, unescape, ihc]
      · by_cases hb : c = '\\'
        · subst hb
          show parseStrBody (f + 1) ('\\' :: '\\' :: (escList cs ++ '"' :: rest)) = _
          simp [parseStrBody, unescape, ihc]
        · by_cases hctl : c.toNat < 32
          · have hesc : escapeChar c =
                ['\\', 'u', '0', '0', hexChar (c.toNat / 16), hexChar (c.toNat % 16)] := by
              simp [escapeChar, hq, hb, hctl]
            rw [hesc]
            show parseStrBody (f + 1) ('\\' :: 'u' :: '0' :: '0' ::
              hexChar (c.toNat / 16) :: hexChar (c.toNat % 16) ::
              (escList cs ++ '"' :: rest)) = _
            have hv1 : hexVal (hexChar (c.toNat / 16)) = some (c.toNat / 16) :=
              hexVal_hexChar (by omega)
            have hv2 : hexVal (hexChar (c.toNat % 16)) = some (c.toNat % 16) :=
              hexVal_hexChar (by omega)
            have hval : ((0 * 16 + 0) * 16 + c.toNat / 16) * 16 + c.toNat % 16 =
                c.toNat := by omega
            have hsur : ¬ (0xD800 ≤ c.toNat ∧ c.toNat < 0xE000) := by omega
            have hchar : Char.ofNat c.toNat = c := Char.ofNat_toNat c
            have hz : hexVal '0' = some 0 := by decide
            have hval2 : c.toNat / 16 * 16 + c.toNat % 16 = c.toNat := by omega
            have hnotsur : ¬ (55296 ≤ ((0 * 16 + 0) * 16 + c.toNat / 16) * 16 +
                c.toNat % 16) := by omega
            have hnotsur2 : ¬ (55296 ≤ c.toNat / 16 * 16 + c.toNat % 16) := by omega
            have hnotsur3 : ¬ (55296 ≤ c.toNat) := by omega
            simp [parseStrBody, hz, hv1, hv2, ihc, hval, hval2, hchar, hnotsur,
              hnotsur2, hnotsur3]
          · have hesc : escapeChar c = [c] := by
              simp [escapeChar, hq, hb, hctl]
            rw [hesc]
            show parseStrBody (f + 1) (c :: (escList cs ++ '"' :: rest)) = _
            simp only [parseStrBody, if_neg hq, if_neg hb, if_neg hctl, ihc]

/-! ### Whitespace and token-head lemmas -/

theorem skipWs_append_ws {sp : List Char} (hsp : AllWs sp) (x : List Char) :
    skipWs (sp ++ x) = skipWs x := by
  induction sp with
  | nil => rfl
  | cons c cs ih =>
    have hc : isWs c = true := hsp c (by simp)
    have hcs : AllWs cs := fun d hd => hsp d (by simp [hd])
    simp [skipWs, hc, ih hcs]

theorem skipWs_cons_nonws {c : Char} (hc : isWs c = false) (x : List Char) :
    skipWs (c :: x) = c :: x := by
  simp [skipWs, hc]

theorem isWs_of_digit {c : Char} (hc : isDigit c = true) : isWs c = false := by
  have h1 : c ≠ ' ' := fun h => by rw [h] at hc; exact absurd hc (by decide)
  have h2 : c ≠ '\t' := fun h => by rw [h] at hc; exact absurd hc (by decide)
  have h3 : c ≠ '\n' := fun h => by rw [h] at hc; exact absurd hc (by decide)
  have h4 : c ≠ '\x0d' := fun h => by rw [h] at hc; exact absurd hc (by decide)
  simp [isWs, h1, h2, h3, h4]

theorem dumpV_cons (fl : EncFlags) (t : JTree) :
    ∃ c cs2, dumpV fl t = c :: cs2 ∧ isWs c = false ∧ c ≠ ']' ∧ c ≠ '}' := by
  match t with
  | .jobj es => exact ⟨'{', _, rfl, by decide, by decide, by decide⟩
  | .jarr es => exact ⟨'[', _, rfl, by decide, by decide, by decide⟩
  | .jstr s => exact ⟨'"', _, rfl, by decide, by decide, by decide⟩
  | .jnull => exact ⟨'n', _, rfl, by decide, by decide, by decide⟩
  | .jbool true => exact ⟨'t', _, rfl, by decide, by decide, by decide⟩
  | .jbool false => exact ⟨'f', _, rfl, by decide, by decide, by decide⟩
  | .jint i =>
    show ∃ c cs2, serializeInt i = c :: cs2 ∧ _
    by_cases hi : i < 0
    · exact ⟨'-', serializeNat i.natAbs, by simp [serializeInt, hi], by decide,
        by decide, by decide⟩
    · obtain ⟨d, ds, hsn⟩ : ∃ d ds, serializeNat i.natAbs = d :: ds := by
        match hq : serializeNat i.natAbs with
        | [] => exact absurd hq (serializeNat_ne_nil _)
        | d :: ds => exact ⟨d, ds, rfl⟩
      have hdig : isDigit d = true := serializeNat_digit_head hsn
      refine ⟨d, ds, by simp [serializeInt, hi, hsn], isWs_of_digit hdig, ?_, ?_⟩
      · intro h
        rw [h] at hdig
        exact absurd hdig (by decide)
      · intro h
        rw [h] at hdig
        exact absurd hdig (by decide)

theorem dumpElems_cons_split (fl : EncFlags) (t : JTree) (ts : List JTree) :
    ∃ tail, dumpElems fl (t :: ts) = dumpV fl t ++ tail := by
  match ts with
  | [] => exact ⟨[], by simp [dumpElems]⟩
  | t2 :: ts2 =>
    exact ⟨elemSep fl ++ dumpElems fl (t2 :: ts2), by simp [dumpElems]⟩

theorem dumpEntries_cons_split (fl : EncFlags) (k : String) (t : JTree)
    (es : List (String × JTree)) :
    ∃ tail, dumpEntries fl ((k, t) :: es) = serializeStr k ++ tail := by
  match es with
  | [] => exact ⟨colonSep fl ++ dumpV fl t, by simp [dumpEntries]⟩
  | e2 :: es2 =>
    exact ⟨colonSep fl ++ (dumpV fl t ++ (elemSep fl ++ dumpEntries fl (e2 :: es2))),
      by simp [dumpEntries]⟩

theorem parseV_digit (dfl : DecFlags) (f : Nat) (sp : List Char) (c : Char)
    (tail2 : List Char) (hsp : AllWs sp) (hc : c = '-' ∨ isDigit c = true) :
    parseV dfl (f + 1) (sp ++ c :: tail2) = parseNumber dfl (c :: tail2) := by
  have hnws : isWs c = false := by
    rcases hc with hc | hc
    · rw [hc]; decide
    · exact isWs_of_digit hc
  have hne : ∀ x : Char, isDigit x = false → x ≠ '-' → c ≠ x := by
    intro x hx hxm hcx
    rcases hc with hc | hc
    · rw [hcx] at hc; exact hxm hc
    · rw [hcx] at hc; rw [hc] at hx; exact absurd hx (by simp)
  show (match skipWs (sp ++ c :: tail2) with
    | [] => Except.error ⟨0, "unexpected end of input"⟩
    | '{' :: rest =>
      match skipWs rest with
      | '}' :: rest2 => Except.ok (.jobj [], rest2)
      | rest2 => parseObjItems dfl f [] rest2
    | '[' :: rest =>
      match skipWs rest with
      | ']' :: rest2 => Except.ok (.jarr [], rest2)
      | rest2 => parseArrItems dfl f [] rest2
    | '"' :: rest =>
      match parseStrBody (rest.length + 1) rest with
      | .ok (chars, rest2) => Except.ok (.jstr (String.mk chars), rest2)
      | .error er => Except.error er
    | 'n' :: 'u' :: 'l' :: 'l' :: rest => Except.ok (.jnull, rest)
    | 't' :: 'r' :: 'u' :: 'e' :: rest => Except.ok (.jbool true, rest)
    | 'f' :: 'a' :: 'l' :: 's' :: 'e' :: rest => Except.ok (.jbool false, rest)
    | c2 :: rest =>
      if c2 = '-' || isDigit c2 then parseNumber dfl (c2 :: rest)
      else Except.error ⟨rest.length + 1, "unexpected character"⟩) =
    parseNumber dfl (c :: tail2)
  rw [skipWs_append_ws hsp, skipWs_cons_nonws hnws]
  split
  · simp_all
  · rename_i heq
    exact absurd (List.head_eq_of_cons_eq heq.symm) (Ne.symm (hne '{' (by decide) (by decide)))
  · rename_i heq
    exact absurd (List.head_eq_of_cons_eq heq.symm) (Ne.symm (hne '[' (by decide) (by decide)))
  · rename_i heq
    exact absurd (List.head_eq_of_cons_eq heq.symm) (Ne.symm (hne '"' (by decide) (by decide)))
  · rename_i heq
    exact absurd (List.head_eq_of_cons_eq heq.symm) (Ne.symm (hne 'n' (by decide) (by decide)))
  · rename_i heq
    exact absurd (List.head_eq_of_cons_eq heq.symm) (Ne.symm (hne 't' (by decide) (by decide)))
  · rename_i heq
    exact absurd (List.head_eq_of_cons_eq heq.symm) (Ne.symm (hne 'f' (by decide) (by decide)))
  · rename_i hexc1 hexc2 heq
    injection heq with h1 h2
    rw [← h1, ← h2]
    have hcond : (decide (c = '-') || isDigit c) = true := by
      rcases hc with hc | hc
      · simp [hc]
      · simp [hc]
    rw [if_pos hcond]

theorem serializeInt_head (i : Int) :
    ∃ c tail, serializeInt i = c :: tail ∧ (c = '-' ∨ isDigit c = true) := by
  by_cases hi : i < 0
  · exact ⟨'-', serializeNat i.natAbs, by simp [serializeInt, hi], Or.inl rfl⟩
  · obtain ⟨d, ds, hsn⟩ : ∃ d ds, serializeNat i.natAbs = d :: ds := by
      match hq : serializeNat i.natAbs with
      | [] => exact absurd hq (serializeNat_ne_nil _)
      | d :: ds => exact ⟨d, ds, rfl⟩
    exact ⟨d, ds, by simp [serializeInt, hi, hsn],
      Or.inr (serializeNat_digit_head hsn)⟩

theorem numSafe_comma (xs : List Char) : NumSafe (',' :: xs) := by
  intro c cs2 heq
  injection heq with h1 _
  rw [← h1]
  refine ⟨by decide, by decide, by decide, by decide⟩

theorem numSafe_rbracket (xs : List Char) : NumSafe (']' :: xs) := by
  intro c cs2 heq
  injection heq with h1 _
  rw [← h1]
  refine ⟨by decide, by decide, by decide, by decide⟩

theorem numSafe_rbrace (xs : List Char) : NumSafe ('}' :: xs) := by
  intro c cs2 heq
  injection heq with h1 _
  rw [← h1]
  refine ⟨by decide, by decide, by decide, by decide⟩

theorem elemSep_eq (fl : EncFlags) :
    elemSep fl = ',' :: (if fl.compact then [] else [' ']) := by
  cases hc : fl.compact <;> simp [elemSep, hc]

theorem colonSep_eq (fl : EncFlags) :
    colonSep fl = ':' :: (if fl.compact then [] else [' ']) := by
  cases hc : fl.compact <;> simp [colonSep, hc]

theorem allWs_sepSpace (fl : EncFlags) :
    AllWs (if fl.compact then [] else [' ']) := by
  cases hc : fl.compact
  · intro c hcc
    simp at hcc
    rw [hcc]
    rfl
  · intro c hcc
    simp at hcc

theorem allWs_nil : AllWs ([] : List Char) := by
  intro c hc
  simp at hc

theorem findT_eq_none_iff {k : String} {es : List (String × JTree)} :
    findT k es = none ↔ k ∉ es.map Prod.fst := by
  induction es with
  | nil => simp [findT]
  | cons p ps ih =>
    by_cases hp : p.1 = k
    · simp [findT, hp]
    · simp [findT, hp, ih, Ne.symm hp]

theorem insT_fresh {k : String} {es : List (String × JTree)} (t : JTree)
    (hk : k ∉ es.map Prod.fst) : insT es k t = es ++ [(k, t)] := by
  unfold insT
  rw [findT_eq_none_iff.mpr hk]

theorem pdepth_pos (t : JTree) : 1 ≤ pdepth t := by
  match t with
  | .jobj es => simp [pdepth]
  | .jarr es => simp [pdepth]
  | .jstr s => simp [pdepth]
  | .jint i => simp [pdepth]
  | .jbool b => simp [pdepth]
  | .jnull => simp [pdepth]

theorem pdepthL_pos {es : List JTree} (hne : es ≠ []) : 1 ≤ pdepthL es := by
  match es, hne with
  | t :: ts, _ =>
    simp only [pdepthL]
    omega

theorem pdepthE_pos {es : List (String × JTree)} (hne : es ≠ []) : 1 ≤ pdepthE es := by
  match es, hne with
  | (k, t) :: ts, _ =>
    simp only [pdepthE]
    omega

theorem key_notin_of_nodup {α : Type} [DecidableEq α] {acc mid : List α} {k : α}
    (h : (acc ++ k :: mid).Nodup) : k ∉ acc := by
  intro hk
  rcases List.nodup_append.mp h with ⟨_, _, hdisj⟩
  exact hdisj hk (by simp)

theorem parse_dump_all : ∀ f : Nat,
    (∀ (fl : EncFlags) (dfl : DecFlags) (t : JTree) (sp rest : List Char),
      AllWs sp → wfT t = true → NumSafe rest → pdepth t ≤ f →
      parseV dfl f (sp ++ dumpV fl t ++ rest) = .ok (t, rest)) ∧
    (∀ (fl : EncFlags) (dfl : DecFlags) (es acc : List JTree) (sp rest : List Char),
      AllWs sp → wfL es = true → es ≠ [] → pdepthL es ≤ f →
      parseArrItems dfl f acc (sp ++ dumpElems fl es ++ ']' :: rest) =
        .ok (.jarr (acc ++ es), rest)) ∧
    (∀ (fl : EncFlags) (dfl : DecFlags) (es acc : List (String × JTree))
      (sp rest : List Char),
      AllWs sp → wfE es = true → ((acc ++ es).map Prod.fst).Nodup → es ≠ [] →
      pdepthE es ≤ f →
      parseObjItems dfl f acc (sp ++ dumpEntries fl es ++ '}' :: rest) =
        .ok (.jobj (acc ++ es), rest)) := by
  intro f
  induction f with
  | zero =>
    refine ⟨?_, ?_, ?_⟩
    · intro fl dfl t sp rest _ _ _ hd
      have := pdepth_pos t
      omega
    · intro fl dfl es acc sp rest _ _ hne hd
      have := pdepthL_pos hne
      omega
    · intro fl dfl es acc sp rest _ _ _ hne hd
      have := pdepthE_pos hne
      omega
  | succ f ih =>
    obtain ⟨ihV, ihA, ihO⟩ := ih
    refine ⟨?_, ?_, ?_⟩
    · -- values
      intro fl dfl t sp rest hsp hwf hns hd
      match t with
      | .jnull =>
        rw [show sp ++ dumpV fl .jnull ++ rest = sp ++ ('n' :: 'u' :: 'l' :: 'l' :: rest)
          by simp [dumpV]]
        unfold parseV
        rw [skipWs_append_ws hsp, skipWs_cons_nonws (by decide)]
        rfl
      | .jbool true =>
        rw [show sp ++ dumpV fl (.jbool true) ++ rest =
          sp ++ ('t' :: 'r' :: 'u' :: 'e' :: rest) by simp [dumpV]]
        unfold parseV
        rw [skipWs_append_ws hsp, skipWs_cons_nonws (by decide)]
        rfl
      | .jbool false =>
        rw [show sp ++ dumpV fl (.jbool false) ++ rest =
          sp ++ ('f' :: 'a' :: 'l' :: 's' :: 'e' :: rest) by simp [dumpV]]
        unfold parseV
        rw [skipWs_append_ws hsp, skipWs_cons_nonws (by decide)]
        rfl
      | .jint i =>
        obtain ⟨c, tail, hser, hc⟩ := serializeInt_head i
        rw [show sp ++ dumpV fl (.jint i) ++ rest = sp ++ c :: (tail ++ rest)
          by simp [dumpV, hser]]
        rw [parseV_digit dfl f sp c (tail ++ rest) hsp hc]
        rw [show c :: (tail ++ rest) = serializeInt i ++ rest by simp [hser]]
        exact parseNumber_dump dfl i rest (by simpa [wfT] using hwf) hns
      | .jstr s =>
        have hascii : ∀ c ∈ s.data, c.toNat < 128 := by
          simp only [wfT, asciiOk, List.all_eq_true] at hwf
          intro c hcc
          simpa using hwf c hcc
        rw [show sp ++ dumpV fl (.jstr s) ++ rest =
          sp ++ ('"' :: (escList s.data ++ '"' :: rest)) by simp [dumpV, serializeStr]]
        unfold parseV
        rw [skipWs_append_ws hsp, skipWs_cons_nonws (by decide)]
        show (match parseStrBody ((escList s.data ++ '"' :: rest).length + 1)
            (escList s.data ++ '"' :: rest) with
          | .ok (chars, rest2) => Except.ok (JTree.jstr (String.mk chars), rest2)
          | .error er => Except.error er) = Except.ok (.jstr s, rest)
        rw [parseStrBody_escList _ s.data rest
          (by
            have := length_le_escList s.data
            simp only [List.length_append, List.length_cons]
            omega)
          hascii]
      | .jarr [] =>
        rw [show sp ++ dumpV fl (.jarr []) ++ rest = sp ++ ('[' :: ']' :: rest)
          by simp [dumpV, dumpElems]]
        unfold parseV
        rw [skipWs_append_ws hsp, skipWs_cons_nonws (by decide)]
        show (match skipWs (']' :: rest) with
          | ']' :: rest2 => Except.ok (JTree.jarr [], rest2)
          | rest2 => parseArrItems dfl f [] rest2) = Except.ok (.jarr [], rest)
        rw [skipWs_cons_nonws (by decide)]
        rfl
      | .jarr (e :: es) =>
        have hwfl : wfL (e :: es) = true := by simpa [wfT] using hwf
        have hd2 : pdepthL (e :: es) ≤ f := by
          simp only [pdepth] at hd
          omega
        obtain ⟨tl, htl⟩ := dumpElems_cons_split fl e es
        obtain ⟨c, cs2, hdc, hnws, hne1, hne2⟩ := dumpV_cons fl e
        rw [show sp ++ dumpV fl (.jarr (e :: es)) ++ rest =
          sp ++ ('[' :: (dumpElems fl (e :: es) ++ ']' :: rest)) by simp [dumpV]]
        unfold parseV
        rw [skipWs_append_ws hsp, skipWs_cons_nonws (by decide)]
        show (match skipWs (dumpElems fl (e :: es) ++ ']' :: rest) with
          | ']' :: rest2 => Except.ok (JTree.jarr [], rest2)
          | rest2 => parseArrItems dfl f [] rest2) = Except.ok (.jarr (e :: es), rest)
        have hskip2 : skipWs (dumpElems fl (e :: es) ++ ']' :: rest) =
            dumpElems fl (e :: es) ++ ']' :: rest := by
          rw [htl, hdc]
          simp only [List.cons_append]
          exact skipWs_cons_nonws hnws _
        rw [hskip2]
        have hshape : dumpElems fl (e :: es) ++ ']' :: rest =
            c :: (cs2 ++ tl ++ ']' :: rest) := by
          rw [htl, hdc]
          simp
        split
        · rename_i rest2 heq
          rw [hshape] at heq
          exact absurd (List.head_eq_of_cons_eq heq.symm) (Ne.symm hne1)
        · have := ihA fl dfl (e :: es) [] [] rest allWs_nil hwfl (by simp) hd2
          simpa using this
      | .jobj [] =>
        rw [show sp ++ dumpV fl (.jobj []) ++ rest = sp ++ ('{' :: '}' :: rest)
          by simp [dumpV, dumpEntries]]
        unfold parseV
        rw [skipWs_append_ws hsp, skipWs_cons_nonws (by decide)]
        show (match skipWs ('}' :: rest) with
          | '}' :: rest2 => Except.ok (JTree.jobj [], rest2)
          | rest2 => parseObjItems dfl f [] rest2) = Except.ok (.jobj [], rest)
        rw [skipWs_cons_nonws (by decide)]
        rfl
      | .jobj ((k, v) :: es) =>
        have hwfe : wfE ((k, v) :: es) = true := by
          simp only [wfT, Bool.and_eq_true] at hwf
          exact hwf.2
        have hnodup : (((k, v) :: es).map Prod.fst).Nodup := by
          simp only [wfT, Bool.and_eq_true] at hwf
          exact of_decide_eq_true hwf.1
        have hd2 : pdepthE ((k, v) :: es) ≤ f := by
          simp only [pdepth] at hd
          omega
        obtain ⟨tl, htl⟩ := dumpEntries_cons_split fl k v es
        rw [show sp ++ dumpV fl (.jobj ((k, v) :: es)) ++ rest =
          sp ++ ('{' :: (dumpEntries fl ((k, v) :: es) ++ '}' :: rest)) by simp [dumpV]]
        unfold parseV
        rw [skipWs_append_ws hsp, skipWs_cons_nonws (by decide)]
        show (match skipWs (dumpEntries fl ((k, v) :: es) ++ '}' :: rest) with
          | '}' :: rest2 => Except.ok (JTree.jobj [], rest2)
          | rest2 => parseObjItems dfl f [] rest2) =
          Except.ok (.jobj ((k, v) :: es), rest)
        have hshape : dumpEntries fl ((k, v) :: es) ++ '}' :: rest =
            '"' :: (escList k.data ++ '"' :: (tl ++ '}' :: rest)) := by
          rw [htl]
          simp [serializeStr]
        have hskip2 : skipWs (dumpEntries fl ((k, v) :: es) ++ '}' :: rest) =
            dumpEntries fl ((k, v) :: es) ++ '}' :: rest := by
          rw [hshape]
          exact skipWs_cons_nonws (by decide) _
        rw [hskip2]
        split
        · rename_i rest2 heq
          rw [hshape] at heq
          exact absurd (List.head_eq_of_cons_eq heq.symm) (by decide)
        · have := ihO fl dfl ((k, v) :: es) [] [] rest allWs_nil hwfe
            (by simpa using hnodup) (by simp) hd2
          simpa using this
    · -- array items
      intro fl dfl es acc sp rest hsp hwf hne hd
      match es, hne with
      | [t], _ =>
        have hwft : wfT t = true := by
          simp only [wfL, Bool.and_eq_true] at hwf
          exact hwf.1
        have hdt : pdepth t ≤ f := by
          simp only [pdepthL] at hd
          omega
        have hV := ihV fl dfl t sp (']' :: rest) hsp hwft (numSafe_rbracket rest) hdt
        have hV2 : parseV dfl f (sp ++ dumpElems fl [t] ++ ']' :: rest) =
            .ok (t, ']' :: rest) := by
          rw [show sp ++ dumpElems fl [t] ++ ']' :: rest =
            sp ++ dumpV fl t ++ ']' :: rest by simp [dumpElems]]
          exact hV
        unfold parseArrItems
        rw [hV2]
        show (match skipWs (']' :: rest) with
          | ',' :: rest2 => parseArrItems dfl f (acc ++ [t]) rest2
          | ']' :: rest2 => Except.ok (JTree.jarr (acc ++ [t]), rest2)
          | rest2 => Except.error ⟨rest2.length, "expected comma or closing bracket"⟩) =
          Except.ok (.jarr (acc ++ [t]), rest)
        rw [skipWs_cons_nonws (by decide)]
        rfl
      | t :: t2 :: ts, _ =>
        have hwft : wfT t = true := by
          simp only [wfL, Bool.and_eq_true] at hwf
          exact hwf.1
        have hwfts : wfL (t2 :: ts) = true := by
          simp only [wfL, Bool.and_eq_true] at hwf ⊢
          exact hwf.2
        have hdt : pdepth t ≤ f := by
          simp only [pdepthL] at hd
          omega
        have hdts : pdepthL (t2 :: ts) ≤ f := by
          simp only [pdepthL] at hd ⊢
          omega
        have hrest2 : NumSafe (',' :: ((if fl.compact then [] else [' ']) ++
            (dumpElems fl (t2 :: ts) ++ ']' :: rest))) := numSafe_comma _
        have hV := ihV fl dfl t sp
          (',' :: ((if fl.compact then [] else [' ']) ++
            (dumpElems fl (t2 :: ts) ++ ']' :: rest))) hsp hwft hrest2 hdt
        have hV2 : parseV dfl f (sp ++ dumpElems fl (t :: t2 :: ts) ++ ']' :: rest) =
            .ok (t, ',' :: ((if fl.compact then [] else [' ']) ++
              (dumpElems fl (t2 :: ts) ++ ']' :: rest))) := by
          rw [show sp ++ dumpElems fl (t :: t2 :: ts) ++ ']' :: rest =
            sp ++ dumpV fl t ++ ',' :: ((if fl.compact then [] else [' ']) ++
              (dumpElems fl (t2 :: ts) ++ ']' :: rest)) by
            simp [dumpElems, elemSep_eq]]
          exact hV
        unfold parseArrItems
        rw [hV2]
        show (match skipWs (',' :: ((if fl.compact then [] else [' ']) ++
            (dumpElems fl (t2 :: ts) ++ ']' :: rest))) with
          | ',' :: rest2 => parseArrItems dfl f (acc ++ [t]) rest2
          | ']' :: rest2 => Except.ok (JTree.jarr (acc ++ [t]), rest2)
          | rest2 => Except.error ⟨rest2.length, "expected comma or closing bracket"⟩) =
          Except.ok (.jarr (acc ++ (t :: t2 :: ts)), rest)
        rw [skipWs_cons_nonws (by decide)]
        have hrec := ihA fl dfl (t2 :: ts) (acc ++ [t])
          (if fl.compact then [] else [' ']) rest (allWs_sepSpace fl) hwfts (by simp) hdts
        show parseArrItems dfl f (acc ++ [t])
            ((if fl.compact then [] else [' ']) ++
              (dumpElems fl (t2 :: ts) ++ ']' :: rest)) =
          Except.ok (.jarr (acc ++ (t :: t2 :: ts)), rest)
        rw [show (if fl.compact then [] else [' ']) ++
            (dumpElems fl (t2 :: ts) ++ ']' :: rest) =
          (if fl.compact then [] else [' ']) ++ dumpElems fl (t2 :: ts) ++ ']' :: rest
          by simp]
        rw [hrec]
        simp
    · -- object entries
      intro fl dfl es acc sp rest hsp hwf hnodup hne hd
      match es, hne with
      | (k, v) :: ts, _ =>
        have hwfk : asciiOk k = true := by
          simp only [wfE, Bool.and_eq_true] at hwf
          exact hwf.1.1
        have hwfv : wfT v = true := by
          simp only [wfE, Bool.and_eq_true] at hwf
          exact hwf.1.2
        have hwfts : wfE ts = true := by
          simp only [wfE, Bool.and_eq_true] at hwf
          exact hwf.2
        have hdv : pdepth v ≤ f := by
          simp only [pdepthE] at hd
          omega
        have hdts : pdepthE ts ≤ f := by
          simp only [pdepthE] at hd
          omega
        have hascii : ∀ c ∈ k.data, c.toNat < 128 := by
          simp only [asciiOk, List.all_eq_true] at hwfk
          intro c hcc
          simpa using hwfk c hcc
        have hknotin : k ∉ acc.map Prod.fst := by
          have hcat : (acc.map Prod.fst ++ k :: ts.map Prod.fst).Nodup := by
            simpa using hnodup
          exact key_notin_of_nodup hcat
        have hinsT : insT acc k v = acc ++ [(k, v)] := insT_fresh v hknotin
        have hmkk : String.mk k.data = k := rfl
        match ts, hwfts, hdts with
        | [], _, _ =>
          have hshape : sp ++ dumpEntries fl [(k, v)] ++ '}' :: rest =
              sp ++ ('"' :: (escList k.data ++ '"' ::
                (':' :: ((if fl.compact then [] else [' ']) ++
                  (dumpV fl v ++ '}' :: rest))))) := by
            rw [show dumpEntries fl [(k, v)] =
              serializeStr k ++ colonSep fl ++ dumpV fl v from by simp [dumpEntries]]
            simp [serializeStr, colonSep_eq]
          rw [hshape]
          unfold parseObjItems
          rw [skipWs_append_ws hsp, skipWs_cons_nonws (by decide)]
          show (match parseStrBody
              ((escList k.data ++ '"' :: (':' :: ((if fl.compact then [] else [' ']) ++
                (dumpV fl v ++ '}' :: rest)))).length + 1)
              (escList k.data ++ '"' :: (':' :: ((if fl.compact then [] else [' ']) ++
                (dumpV fl v ++ '}' :: rest)))) with
            | .error er => Except.error er
            | .ok (kcs, rest2) =>
              match skipWs rest2 with
              | ':' :: rest3 =>
                match parseV dfl f rest3 with
                | .error er => Except.error er
                | .ok (t, rest4) =>
                  match skipWs rest4 with
                  | ',' :: rest5 => parseObjItems dfl f (insT acc (String.mk kcs) t) rest5
                  | '}' :: rest5 => Except.ok (.jobj (insT acc (String.mk kcs) t), rest5)
                  | rest5 =>
                    Except.error ⟨rest5.length, "expected comma or closing brace"⟩
              | rest3 => Except.error ⟨rest3.length, "expected colon"⟩) =
            Except.ok (.jobj (acc ++ [(k, v)]), rest)
          rw [parseStrBody_escList _ k.data _
            (by
              have := length_le_escList k.data
              simp only [List.length_append, List.length_cons]
              omega)
            hascii]
          show (match skipWs (':' :: ((if fl.compact then [] else [' ']) ++
              (dumpV fl v ++ '}' :: rest))) with
            | ':' :: rest3 =>
              match parseV dfl f rest3 with
              | .error er => Except.error er
              | .ok (t, rest4) =>
                match skipWs rest4 with
                | ',' :: rest5 => parseObjItems dfl f (insT acc (String.mk k.data) t) rest5
                | '}' :: rest5 => Except.ok (.jobj (insT acc (String.mk k.data) t), rest5)
                | rest5 => Except.error ⟨rest5.length, "expected comma or closing brace"⟩
            | rest3 => Except.error ⟨rest3.length, "expected colon"⟩) =
            Except.ok (.jobj (acc ++ [(k, v)]), rest)
          rw [skipWs_cons_nonws (by decide)]
          have hV := ihV fl dfl v (if fl.compact then [] else [' ']) ('}' :: rest)
            (allWs_sepSpace fl) hwfv (numSafe_rbrace rest) hdv
          have hV2 : parseV dfl f ((if fl.compact then [] else [' ']) ++
              (dumpV fl v ++ '}' :: rest)) = .ok (v, '}' :: rest) := by
            rw [show (if fl.compact then [] else [' ']) ++ (dumpV fl v ++ '}' :: rest) =
              (if fl.compact then [] else [' ']) ++ dumpV fl v ++ '}' :: rest by simp]
            exact hV
          show (match parseV dfl f ((if fl.compact then [] else [' ']) ++
              (dumpV fl v ++ '}' :: rest)) with
            | .error er => Except.error er
            | .ok (t, rest4) =>
              match skipWs rest4 with
              | ',' :: rest5 => parseObjItems dfl f (insT acc (String.mk k.data) t) rest5
              | '}' :: rest5 => Except.ok (.jobj (insT acc (String.mk k.data) t), rest5)
              | rest5 => Except.error ⟨rest5.length, "expected comma or closing brace"⟩) =
            Except.ok (.jobj (acc ++ [(k, v)]), rest)
          rw [hV2]
          show (match skipWs ('}' :: rest) with
            | ',' :: rest5 => parseObjItems dfl f (insT acc (String.mk k.data) v) rest5
            | '}' :: rest5 => Except.ok (.jobj (insT acc (String.mk k.data) v), rest5)
            | rest5 => Except.error ⟨rest5.length, "expected comma or closing brace"⟩) =
            Except.ok (.jobj (acc ++ [(k, v)]), rest)
          rw [skipWs_cons_nonws (by decide), hmkk, hinsT]
          rfl
        | t2 :: ts2, hwfts, hdts =>
          have hshape : sp ++ dumpEntries fl ((k, v) :: t2 :: ts2) ++ '}' :: rest =
              sp ++ ('"' :: (escList k.data ++ '"' ::
                (':' :: ((if fl.compact then [] else [' ']) ++
                  (dumpV fl v ++ ',' :: ((if fl.compact then [] else [' ']) ++
                    (dumpEntries fl (t2 :: ts2) ++ '}' :: rest))))))) := by
            rw [show dumpEntries fl ((k, v) :: t2 :: ts2) =
              serializeStr k ++ colonSep fl ++ dumpV fl v ++ elemSep fl ++
                dumpEntries fl (t2 :: ts2) from rfl]
            simp [serializeStr, colonSep_eq, elemSep_eq]
          rw [hshape]
          unfold parseObjItems
          rw [skipWs_append_ws hsp, skipWs_cons_nonws (by decide)]
          show (match parseStrBody
              ((escList k.data ++ '"' :: (':' :: ((if fl.compact then [] else [' ']) ++
                (dumpV fl v ++ ',' :: ((if fl.compact then [] else [' ']) ++
                  (dumpEntries fl (t2 :: ts2) ++ '}' :: rest)))))).length + 1)
              (escList k.data ++ '"' :: (':' :: ((if fl.compact then [] else [' ']) ++
                (dumpV fl v ++ ',' :: ((if fl.compact then [] else [' ']) ++
                  (dumpEntries fl (t2 :: ts2) ++ '}' :: rest)))))) with
            | .error er => Except.error er
            | .ok (kcs, rest2) =>
              match skipWs rest2 with
              | ':' :: rest3 =>
                match parseV dfl f rest3 with
                | .error er => Except.error er
                | .ok (t, rest4) =>
                  match skipWs rest4 with
                  | ',' :: rest5 => parseObjItems dfl f (insT acc (String.mk kcs) t) rest5
                  | '}' :: rest5 => Except.ok (.jobj (insT acc (String.mk kcs) t), rest5)
                  | rest5 =>
                    Except.error ⟨rest5.length, "expected comma or closing brace"⟩
              | rest3 => Except.error ⟨rest3.length, "expected colon"⟩) =
            Except.ok (.jobj (acc ++ (k, v) :: t2 :: ts2), rest)
          rw [parseStrBody_escList _ k.data _
            (by
              have := length_le_escList k.data
              simp only [List.length_append, List.length_cons]
              omega)
            hascii]
          show (match skipWs (':' :: ((if fl.compact then [] else [' ']) ++
              (dumpV fl v ++ ',' :: ((if fl.compact then [] else [' ']) ++
                (dumpEntries fl (t2 :: ts2) ++ '}' :: rest))))) with
            | ':' :: rest3 =>
              match parseV dfl f rest3 with
              | .error er => Except.error er
              | .ok (t, rest4) =>
                match skipWs rest4 with
                | ',' :: rest5 => parseObjItems dfl f (insT acc (String.mk k.data) t) rest5
                | '}' :: rest5 => Except.ok (.jobj (insT acc (String.mk k.data) t), rest5)
                | rest5 => Except.error ⟨rest5.length, "expected comma or closing brace"⟩
            | rest3 => Except.error ⟨rest3.length, "expected colon"⟩) =
            Except.ok (.jobj (acc ++ (k, v) :: t2 :: ts2), rest)
          rw [skipWs_cons_nonws (by decide)]
          have hV := ihV fl dfl v (if fl.compact then [] else [' '])
            (',' :: ((if fl.compact then [] else [' ']) ++
              (dumpEntries fl (t2 :: ts2) ++ '}' :: rest)))
            (allWs_sepSpace fl) hwfv (numSafe_comma _) hdv
          have hV2 : parseV dfl f ((if fl.compact then [] else [' ']) ++
              (dumpV fl v ++ ',' :: ((if fl.compact then [] else [' ']) ++
                (dumpEntries fl (t2 :: ts2) ++ '}' :: rest)))) =
              .ok (v, ',' :: ((if fl.compact then [] else [' ']) ++
                (dumpEntries fl (t2 :: ts2) ++ '}' :: rest))) := by
            rw [show (if fl.compact then [] else [' ']) ++
              (dumpV fl v ++ ',' :: ((if fl.compact then [] else [' ']) ++
                (dumpEntries fl (t2 :: ts2) ++ '}' :: rest))) =
              (if fl.compact then [] else [' ']) ++ dumpV fl v ++
                ',' :: ((if fl.compact then [] else [' ']) ++
                  (dumpEntries fl (t2 :: ts2) ++ '}' :: rest)) by simp]
            exact hV
          show (match parseV dfl f ((if fl.compact then [] else [' ']) ++
              (dumpV fl v ++ ',' :: ((if fl.compact then [] else [' ']) ++
                (dumpEntries fl (t2 :: ts2) ++ '}' :: rest)))) with
            | .error er => Except.error er
            | .ok (t, rest4) =>
              match skipWs rest4 with
              | ',' :: rest5 => parseObjItems dfl f (insT acc (String.mk k.data) t) rest5
              | '}' :: rest5 => Except.ok (.jobj (insT acc (String.mk k.data) t), rest5)
              | rest5 => Except.error ⟨rest5.length, "expected comma or closing brace"⟩) =
            Except.ok (.jobj (acc ++ (k, v) :: t2 :: ts2), rest)
          rw [hV2]
          show (match skipWs (',' :: ((if fl.compact then [] else [' ']) ++
              (dumpEntries fl (t2 :: ts2) ++ '}' :: rest))) with
            | ',' :: rest5 => parseObjItems dfl f (insT acc (String.mk k.data) v) rest5
            | '}' :: rest5 => Except.ok (.jobj (insT acc (String.mk k.data) v), rest5)
            | rest5 => Except.error ⟨rest5.length, "expected comma or closing brace"⟩) =
            Except.ok (.jobj (acc ++ (k, v) :: t2 :: ts2), rest)
          rw [skipWs_cons_nonws (by decide), hmkk, hinsT]
          have hnodup2 : (((acc ++ [(k, v)]) ++ t2 :: ts2).map Prod.fst).Nodup := by
            simpa using hnodup
          have hrec := ihO fl dfl (t2 :: ts2) (acc ++ [(k, v)])
            (if fl.compact then [] else [' ']) rest (allWs_sepSpace fl) hwfts
            hnodup2 (by simp) hdts
          show parseObjItems dfl f (acc ++ [(k, v)])
              ((if fl.compact then [] else [' ']) ++
                (dumpEntries fl (t2 :: ts2) ++ '}' :: rest)) =
            Except.ok (.jobj (acc ++ (k, v) :: t2 :: ts2), rest)
          rw [show (if fl.compact then [] else [' ']) ++
              (dumpEntries fl (t2 :: ts2) ++ '}' :: rest) =
            (if fl.compact then [] else [' ']) ++ dumpEntries fl (t2 :: ts2) ++
              '}' :: rest by simp]
          rw [hrec]
          simp

theorem numSafe_nil : NumSafe ([] : List Char) := by
  intro c cs2 h
  cases h

theorem dumpV_len_pos (fl : EncFlags) (t : JTree) : 1 ≤ (dumpV fl t).length := by
  obtain ⟨c, cs, h, _, _, _⟩ := dumpV_cons fl t
  rw [h]
  simp

theorem elemSep_len_pos (fl : EncFlags) : 1 ≤ (elemSep fl).length := by
  rw [elemSep_eq]
  simp

theorem pdepth_le_aux (fl : EncFlags) : ∀ n : Nat,
    (∀ t : JTree, pdepth t ≤ n → pdepth t ≤ (dumpV fl t).length) ∧
    (∀ es : List JTree, pdepthL es ≤ n →
      pdepthL es ≤ (dumpElems fl es).length + 1) ∧
    (∀ es : List (String × JTree), pdepthE es ≤ n →
      pdepthE es ≤ (dumpEntries fl es).length + 1) := by
  intro n
  induction n with
  | zero =>
    refine ⟨fun t ht => ?_, fun es hes => ?_, fun es hes => ?_⟩
    · exact absurd ht (by have := pdepth_pos t; omega)
    · match es with
      | [] => simp [pdepthL]
      | t :: ts => exact absurd hes (by have := pdepthL_pos (List.cons_ne_nil t ts); omega)
    · match es with
      | [] => simp [pdepthE]
      | p :: ts => exact absurd hes (by have := pdepthE_pos (List.cons_ne_nil p ts); omega)
  | succ n ih =>
    obtain ⟨ihV, ihL, ihE⟩ := ih
    refine ⟨fun t ht => ?_, fun es hes => ?_, fun es hes => ?_⟩
    · match t with
      | .jnull => simp [pdepth, dumpV]
      | .jbool b => cases b <;> simp [pdepth, dumpV]
      | .jint i =>
        have := dumpV_len_pos fl (.jint i)
        simpa [pdepth] using this
      | .jstr s =>
        have := dumpV_len_pos fl (.jstr s)
        simpa [pdepth] using this
      | .jarr es =>
        have h1 : pdepthL es ≤ n := by
          simp only [pdepth] at ht
          omega
        have h2 := ihL es h1
        simp only [pdepth, dumpV, List.length_cons, List.length_append]
        omega
      | .jobj es =>
        have h1 : pdepthE es ≤ n := by
          simp only [pdepth] at ht
          omega
        have h2 := ihE es h1
        simp only [pdepth, dumpV, List.length_cons, List.length_append]
        omega
    · match es with
      | [] => simp [pdepthL]
      | [t] =>
        have h1 : pdepth t ≤ n := by
          simp only [pdepthL] at hes
          omega
        have h2 := ihV t h1
        simp only [pdepthL, dumpElems]
        omega
      | t :: t2 :: ts =>
        have h1 : pdepth t ≤ n := by
          simp only [pdepthL] at hes
          omega
        have h1b : pdepthL (t2 :: ts) ≤ n := by
          simp only [pdepthL] at hes ⊢
          omega
        have h2 := ihV t h1
        have h3 := ihL (t2 :: ts) h1b
        have h4 := elemSep_len_pos fl
        simp only [pdepthL, List.length_append] at h3 ⊢
        simp only [dumpElems, List.length_append]
        omega
    · match es with
      | [] => simp [pdepthE]
      | [(k, v)] =>
        have h1 : pdepth v ≤ n := by
          simp only [pdepthE] at hes
          omega
        have h2 := ihV v h1
        simp only [pdepthE, dumpEntries, List.length_append]
        omega
      | (k, v) :: (k2, v2) :: ts =>
        have h1 : pdepth v ≤ n := by
          simp only [pdepthE] at hes
          omega
        have h1b : pdepthE ((k2, v2) :: ts) ≤ n := by
          simp only [pdepthE] at hes ⊢
          omega
        have h2 := ihV v h1
        have h3 := ihE ((k2, v2) :: ts) h1b
        have h4 := elemSep_len_pos fl
        simp only [pdepthE, List.length_append] at h3 ⊢
        simp only [dumpEntries, List.length_append]
        omega

/-- Parser fuel needed for a tree is bounded by the length of its
serialization. -/
theorem pdepth_le (fl : EncFlags) (t : JTree) : pdepth t ≤ (dumpV fl t).length :=
  (pdepth_le_aux fl (pdepth t)).1 t le_rfl

/-- A successful root parse whose remainder is empty and whose result is a
container is accepted by `JsonLoadString`. -/
theorem loadString_of_parse (dfl : DecFlags) (t : JTree) (l : List Char)
    (hP : parseV dfl (l.length + 1) l = .ok (t, []))
    (hc : isContainerT t = true) :
    JsonLoadString (String.mk l) dfl = .ok t := by
  unfold JsonLoadString
  simp only [hP]
  match t, hc with
  | .jobj es, _ => rfl
  | .jarr es, _ => rfl

/-- **C2** (counterexample): the claim quantifies over every value built
from the supported kinds, but with the default (empty) flag set
`JsonDumpString` rejects a non-container root: serializing the bare
integer 5 yields NULL (`none`), so the round-trip cannot start; and
symmetrically `JsonLoadString` rejects the text "5" under default
decoding flags. -/
theorem claim_C2_counterexample :
    dumps ⟨false, false⟩ (.jint 5) = none ∧
    JsonLoadString (String.mk ['5']) ⟨false, false⟩ =
      .error ⟨0, "root must be object or array"⟩ :=
  ⟨rfl, rfl⟩

/-- **C2** (amended): for every well-formed tree whose root is a
container (object or array), serialization succeeds under every encoding
flag set, and parsing the produced text back under any modelled decoding
flag set succeeds and returns a structurally equal tree. -/
theorem claim_C2_roundtrip (fl : EncFlags) (dfl : DecFlags) (t : JTree)
    (hwf : wfT t = true) (hc : isContainerT t = true) :
    dumps fl t = some (String.mk (dumpV fl t)) ∧
    JsonLoadString (String.mk (dumpV fl t)) dfl = .ok t := by
  constructor
  · match t, hc with
    | .jobj es, _ => rfl
    | .jarr es, _ => rfl
  · refine loadString_of_parse dfl t (dumpV fl t) ?_ hc
    have h := (parse_dump_all ((dumpV fl t).length + 1)).1 fl dfl t [] []
      allWs_nil hwf numSafe_nil (by have := pdepth_le fl t; omega)
    simpa using h

/-- Closed witness for the amended C2 round-trip. -/
theorem claim_C2_roundtrip_witness :
    (wfT (.jarr [.jint 3, .jbool true]) = true ∧
      isContainerT (.jarr [.jint 3, .jbool true]) = true) ∧
    (dumps ⟨false, false⟩ (.jarr [.jint 3, .jbool true]) =
        some (String.mk (dumpV ⟨false, false⟩ (.jarr [.jint 3, .jbool true]))) ∧
      JsonLoadString
        (String.mk (dumpV ⟨false, false⟩ (.jarr [.jint 3, .jbool true])))
        ⟨false, false⟩ = .ok (.jarr [.jint 3, .jbool true])) :=
  ⟨⟨rfl, rfl⟩, claim_C2_roundtrip ⟨false, false⟩ ⟨false, false⟩ _ rfl rfl⟩

theorem parseNumber_serializeInt_tail (fl : DecFlags) (i : Int) (rest : List Char)
    (hrest : ∀ c cs2, rest = c :: cs2 → isDigit c = false) :
    parseNumber fl (serializeInt i ++ rest) = parseNumTail fl i rest := by
  obtain ⟨d, ds, hsn⟩ : ∃ d ds, serializeNat i.natAbs = d :: ds := by
    match hq : serializeNat i.natAbs with
    | [] => exact absurd hq (serializeNat_ne_nil _)
    | d :: ds => exact ⟨d, ds, rfl⟩
  have hdig : isDigit d = true := serializeNat_digit_head hsn
  have htake : takeDigits (serializeNat i.natAbs ++ rest) = (serializeNat i.natAbs, rest) :=
    takeDigits_append (serializeNat_all_digits i.natAbs) hrest
  have htake2 : takeDigits (serializeNat i.natAbs ++ rest) = (d :: ds, rest) := by
    rw [htake, hsn]
  have hlz : (decide (d = '0') && decide (ds ≠ [])) = false := by
    by_cases hd0 : d = '0'
    · have : ds = [] := serializeNat_no_leading_zero hsn hd0
      simp [this]
    · simp [hd0]
  have hfold : (d :: ds).foldl (fun a c => 10 * a + digVal c) 0 = i.natAbs := by
    rw [← hsn]
    exact foldl_serializeNat i.natAbs
  by_cases hi : i < 0
  · have hser : serializeInt i = '-' :: serializeNat i.natAbs := by
      simp [serializeInt, hi]
    have hival : -((i.natAbs : Nat) : Int) = i := by omega
    have hnum : numSign (serializeInt i ++ rest) =
        (true, serializeNat i.natAbs ++ rest) := by
      rw [hser]
      simp [numSign]
    simp only [parseNumber, hnum, htake2, hlz, Bool.false_eq_true, if_false, hfold,
      if_true, hival]
  · have hser : serializeInt i = serializeNat i.natAbs := by
      simp [serializeInt, hi]
    have hival : ((i.natAbs : Nat) : Int) = i := by omega
    have hdne : ¬ (d = '-') := by
      intro hd
      rw [hd] at hdig
      exact absurd hdig (by decide)
    have hnum : numSign (serializeInt i ++ rest) =
        (false, serializeNat i.natAbs ++ rest) := by
      rw [hser, hsn]
      simp [numSign, hdne]
    simp only [parseNumber, hnum, htake2, hlz, Bool.false_eq_true, if_false, hfold,
      hival]

theorem parseV_lbracket (dfl : DecFlags) (f : Nat) (c : Char) (tl : List Char)
    (hws : isWs c = false) (hne : c ≠ ']') :
    parseV dfl (f + 1) ('[' :: c :: tl) = parseArrItems dfl f [] (c :: tl) := by
  unfold parseV
  rw [skipWs_cons_nonws (by decide)]
  show (match skipWs (c :: tl) with
    | ']' :: rest2 => Except.ok (JTree.jarr [], rest2)
    | rest2 => parseArrItems dfl f [] rest2) = parseArrItems dfl f [] (c :: tl)
  rw [skipWs_cons_nonws hws]
  split
  · rename_i rest2 heq
    exact absurd (List.head_eq_of_cons_eq heq.symm) (Ne.symm hne)
  · rfl

theorem loadString_err (dfl : DecFlags) (l : List Char) (r : Nat) (m : String)
    (hP : parseV dfl (l.length + 1) l = .error ⟨r, m⟩) :
    JsonLoadString (String.mk l) dfl = .error ⟨l.length - r, m⟩ := by
  unfold JsonLoadString
  simp only [hP]

theorem parseV_bracket_num_err (dfl : DecFlags) (i : Int) (rest : List Char)
    (hrest : ∀ c cs2, rest = c :: cs2 → isDigit c = false) (r : Nat) (m : String)
    (hnt : parseNumTail dfl i rest = .error ⟨r, m⟩) :
    parseV dfl (('[' :: (serializeInt i ++ rest)).length + 1)
      ('[' :: (serializeInt i ++ rest)) = .error ⟨r, m⟩ := by
  obtain ⟨c0, tail0, hser, hc0⟩ := serializeInt_head i
  have hws0 : isWs c0 = false := by
    rcases hc0 with h | h
    · rw [h]; decide
    · exact isWs_of_digit h
  have hne0 : c0 ≠ ']' := by
    rcases hc0 with h | h
    · rw [h]; decide
    · intro hx
      rw [hx] at h
      exact absurd h (by decide)
  have hmid : serializeInt i ++ rest = c0 :: (tail0 ++ rest) := by simp [hser]
  have hpn : parseNumber dfl (c0 :: (tail0 ++ rest)) = .error ⟨r, m⟩ := by
    rw [show c0 :: (tail0 ++ rest) = serializeInt i ++ rest from by simp [hser]]
    rw [parseNumber_serializeInt_tail dfl i rest hrest]
    exact hnt
  have hpv : ∀ g, parseV dfl (g + 1) (c0 :: (tail0 ++ rest)) = .error ⟨r, m⟩ := by
    intro g
    have hpd := parseV_digit dfl g [] c0 (tail0 ++ rest) allWs_nil hc0
    simp only [List.nil_append] at hpd
    rw [hpd, hpn]
  show parseV dfl (((serializeInt i ++ rest).length + 1) + 1)
      ('[' :: (serializeInt i ++ rest)) = .error ⟨r, m⟩
  rw [hmid]
  rw [parseV_lbracket dfl ((c0 :: (tail0 ++ rest)).length + 1) c0 (tail0 ++ rest)
    hws0 hne0]
  unfold parseArrItems
  rw [List.length_cons]
  rw [hpv ((tail0 ++ rest).length)]

theorem parseV_bracket_num_ok (dfl : DecFlags) (i : Int) (rest : List Char)
    (hrest : ∀ c cs2, rest = c :: cs2 → isDigit c = false) (t : JTree)
    (rest2 : List Char) (hnt : parseNumTail dfl i rest = .ok (t, ']' :: rest2)) :
    parseV dfl (('[' :: (serializeInt i ++ rest)).length + 1)
      ('[' :: (serializeInt i ++ rest)) = .ok (.jarr [t], rest2) := by
  obtain ⟨c0, tail0, hser, hc0⟩ := serializeInt_head i
  have hws0 : isWs c0 = false := by
    rcases hc0 with h | h
    · rw [h]; decide
    · exact isWs_of_digit h
  have hne0 : c0 ≠ ']' := by
    rcases hc0 with h | h
    · rw [h]; decide
    · intro hx
      rw [hx] at h
      exact absurd h (by decide)
  have hmid : serializeInt i ++ rest = c0 :: (tail0 ++ rest) := by simp [hser]
  have hpn : parseNumber dfl (c0 :: (tail0 ++ rest)) = .ok (t, ']' :: rest2) := by
    rw [show c0 :: (tail0 ++ rest) = serializeInt i ++ rest from by simp [hser]]
    rw [parseNumber_serializeInt_tail dfl i rest hrest]
    exact hnt
  have hpv : ∀ g, parseV dfl (g + 1) (c0 :: (tail0 ++ rest)) = .ok (t, ']' :: rest2) := by
    intro g
    have hpd := parseV_digit dfl g [] c0 (tail0 ++ rest) allWs_nil hc0
    simp only [List.nil_append] at hpd
    rw [hpd, hpn]
  show parseV dfl (((serializeInt i ++ rest).length + 1) + 1)
      ('[' :: (serializeInt i ++ rest)) = .ok (.jarr [t], rest2)
  rw [hmid]
  rw [parseV_lbracket dfl ((c0 :: (tail0 ++ rest)).length + 1) c0 (tail0 ++ rest)
    hws0 hne0]
  unfold parseArrItems
  rw [List.length_cons]
  rw [hpv ((tail0 ++ rest).length)]
  rfl

/-- **C8**: an input containing a fractional literal is rejected by
`JsonLoadString` without `EDKII_JSON_DECODE_INT_AS_REAL` with a
structured diagnostic pointing at the fractional dot; with the flag the
fractional part is truncated and the parse succeeds with the integer
part; exponent notation is rejected regardless of flags, also with a
structured diagnostic. -/
theorem claim_C8_real_rejection (dfl : DecFlags) (i : Int) (frac : List Char)
    (hrange : rangeOk i = true) (hfrac : ∀ c ∈ frac, isDigit c = true)
    (hne : frac ≠ []) :
    (dfl.decodeIntAsReal = false →
      JsonLoadString (String.mk ('[' :: (serializeInt i ++ '.' :: (frac ++ [']']))))
        dfl = .error ⟨(serializeInt i).length + 1, "real number not supported"⟩) ∧
    (dfl.decodeIntAsReal = true →
      JsonLoadString (String.mk ('[' :: (serializeInt i ++ '.' :: (frac ++ [']']))))
        dfl = .ok (.jarr [.jint i])) ∧
    JsonLoadString (String.mk ('[' :: (serializeInt i ++ 'e' :: (frac ++ [']']))))
      dfl = .error ⟨(serializeInt i).length + 1, "exponent not supported"⟩ := by
  have hrdot : ∀ c cs2, ('.' :: (frac ++ [']'])) = c :: cs2 → isDigit c = false := by
    intro c cs2 h
    injection h with h1 _
    rw [← h1]
    decide
  have hrexp : ∀ c cs2, ('e' :: (frac ++ [']'])) = c :: cs2 → isDigit c = false := by
    intro c cs2 h
    injection h with h1 _
    rw [← h1]
    decide
  refine ⟨?_, ?_, ?_⟩
  · intro hflag
    have hnt : parseNumTail dfl i ('.' :: (frac ++ [']'])) =
        .error ⟨(frac ++ [']']).length + 1, "real number not supported"⟩ := by
      simp [parseNumTail, hflag]
    have hP := parseV_bracket_num_err dfl i ('.' :: (frac ++ [']'])) hrdot
      ((frac ++ [']']).length + 1) "real number not supported" hnt
    have h2 := loadString_err dfl ('[' :: (serializeInt i ++ '.' :: (frac ++ [']'])))
      ((frac ++ [']']).length + 1) "real number not supported" hP
    rw [h2]
    have hpos : ('[' :: (serializeInt i ++ '.' :: (frac ++ [']']))).length -
        ((frac ++ [']']).length + 1) = (serializeInt i).length + 1 := by
      simp only [List.length_cons, List.length_append]
      omega
    rw [hpos]
  · intro hflag
    have hhe : headIsExp [']'] = false := by decide
    have hnt : parseNumTail dfl i ('.' :: (frac ++ [']'])) = .ok (.jint i, [']']) := by
      match frac, hne with
      | d :: ds, _ =>
        have htd : takeDigits ((d :: ds) ++ [']']) = (d :: ds, [']']) :=
          takeDigits_append (fun c hc => hfrac c hc)
            (by
              intro c cs2 h
              injection h with h1 _
              rw [← h1]
              decide)
        have htd2 : takeDigits (d :: (ds ++ [']'])) = (d :: ds, [']']) := by
          simpa using htd
        simp [parseNumTail, hflag, htd2, hhe, hrange]
    have hP := parseV_bracket_num_ok dfl i ('.' :: (frac ++ [']'])) hrdot
      (.jint i) [] hnt
    exact loadString_of_parse dfl (.jarr [.jint i])
      ('[' :: (serializeInt i ++ '.' :: (frac ++ [']']))) hP rfl
  · have hnt : parseNumTail dfl i ('e' :: (frac ++ [']'])) =
        .error ⟨(frac ++ [']']).length + 1, "exponent not supported"⟩ := by
      simp [parseNumTail]
    have hP := parseV_bracket_num_err dfl i ('e' :: (frac ++ [']'])) hrexp
      ((frac ++ [']']).length + 1) "exponent not supported" hnt
    have h2 := loadString_err dfl ('[' :: (serializeInt i ++ 'e' :: (frac ++ [']'])))
      ((frac ++ [']']).length + 1) "exponent not supported" hP
    rw [h2]
    have hpos : ('[' :: (serializeInt i ++ 'e' :: (frac ++ [']']))).length -
        ((frac ++ [']']).length + 1) = (serializeInt i).length + 1 := by
      simp only [List.length_cons, List.length_append]
      omega
    rw [hpos]

/-- Closed witness for C8 at the input "[7.25]" (and "[7e25]"). -/
theorem claim_C8_real_rejection_witness :
    (rangeOk 7 = true ∧ (∀ c ∈ ['2', '5'], isDigit c = true) ∧
      (['2', '5'] : List Char) ≠ []) ∧
    JsonLoadString (String.mk ('[' :: (serializeInt 7 ++ '.' :: (['2', '5'] ++ [']']))))
      ⟨false, false⟩ =
      .error ⟨(serializeInt 7).length + 1, "real number not supported"⟩ ∧
    JsonLoadString (String.mk ('[' :: (serializeInt 7 ++ '.' :: (['2', '5'] ++ [']']))))
      ⟨false, true⟩ = .ok (.jarr [.jint 7]) ∧
    JsonLoadString (String.mk ('[' :: (serializeInt 7 ++ 'e' :: (['2', '5'] ++ [']']))))
      ⟨false, false⟩ =
      .error ⟨(serializeInt 7).length + 1, "exponent not supported"⟩ :=
  ⟨⟨by decide, by decide, by decide⟩,
   (claim_C8_real_rejection ⟨false, false⟩ 7 ['2', '5'] (by decide) (by decide)
     (by decide)).1 rfl,
   (claim_C8_real_rejection ⟨false, true⟩ 7 ['2', '5'] (by decide) (by decide)
     (by decide)).2.1 rfl,
   (claim_C8_real_rejection ⟨false, false⟩ 7 ['2', '5'] (by decide) (by decide)
     (by decide)).2.2⟩

theorem dumpH_preserves (fl : EncFlags) : ∀ f : Nat,
    (∀ h v, (dumpHV fl f h v).2 = h) ∧
    (∀ h es, (dumpHL fl f h es).2 = h) ∧
    (∀ h es, (dumpHE fl f h es).2 = h) := by
  intro f
  induction f with
  | zero => exact ⟨fun h v => rfl, fun h es => rfl, fun h es => rfl⟩
  | succ f ih =>
    obtain ⟨ihV, ihL, ihE⟩ := ih
    refine ⟨fun h v => ?_, fun h es => ?_, fun h es => ?_⟩
    · match v with
      | .jtrue => rfl
      | .jfalse => rfl
      | .jnull => rfl
      | .addr a =>
        cases hn : nodeOf h a with
        | none => simp [dumpHV, hn]
        | some n =>
          match n with
          | .str s => simp [dumpHV, hn]
          | .int i => simp [dumpHV, hn]
          | .arr es =>
            have hl := ihL h es
            simp only [dumpHV, hn]
            cases hd : dumpHL fl f h es with
            | mk o h2 =>
              rw [hd] at hl
              simp only at hl
              cases o <;> simpa using hl
          | .obj es =>
            have hl := ihE h es
            simp only [dumpHV, hn]
            cases hd : dumpHE fl f h es with
            | mk o h2 =>
              rw [hd] at hl
              simp only at hl
              cases o <;> simpa using hl
    · match es with
      | [] => rfl
      | [v] =>
        show (dumpHV fl f h v).2 = h
        exact ihV h v
      | v :: v2 :: vs =>
        have hv := ihV h v
        simp only [dumpHL]
        cases hd : dumpHV fl f h v with
        | mk o h2 =>
          rw [hd] at hv
          simp only at hv
          cases o with
          | none => simpa using hv
          | some cv =>
            have hl := ihL h2 (v2 :: vs)
            show (match dumpHL fl f h2 (v2 :: vs) with
              | (some cs, h3) => (some (cv ++ elemSep fl ++ cs), h3)
              | (none, h3) => (none, h3)).2 = h
            cases hd2 : dumpHL fl f h2 (v2 :: vs) with
            | mk o2 h3 =>
              rw [hd2] at hl
              simp only at hl
              cases o2 <;> simp [hv, hl]
    · match es with
      | [] => rfl
      | [(k, v)] =>
        have hv := ihV h v
        simp only [dumpHE]
        cases hd : dumpHV fl f h v with
        | mk o h2 =>
          rw [hd] at hv
          simp only at hv
          cases o <;> simpa using hv
      | (k, v) :: (k2, v2) :: es2 =>
        have hv := ihV h v
        simp only [dumpHE]
        cases hd : dumpHV fl f h v with
        | mk o h2 =>
          rw [hd] at hv
          simp only at hv
          cases o with
          | none => simpa using hv
          | some cv =>
            have hl := ihE h2 ((k2, v2) :: es2)
            show (match dumpHE fl f h2 ((k2, v2) :: es2) with
              | (some cs, h3) =>
                (some (serializeStr k ++ colonSep fl ++ cv ++ elemSep fl ++ cs), h3)
              | (none, h3) => (none, h3)).2 = h
            cases hd2 : dumpHE fl f h2 ((k2, v2) :: es2) with
            | mk o2 h3 =>
              rw [hd2] at hl
              simp only at hl
              cases o2 <;> simp [hv, hl]

/-- **C7**: `JsonDumpString` is pure on the value graph: whether the
dump succeeds or fails, the heap after the call is the heap before it,
so every reference count and every node payload — of the dumped value
and of everything else — is unchanged. -/
theorem claim_C7_serializer_purity (h : Heap) (v : Option JVal) (fl : EncFlags) :
    (JsonDumpString h v fl).2 = h ∧
    (∀ x, rcOf (JsonDumpString h v fl).2 (.addr x) = rcOf h (.addr x)) ∧
    (∀ b, nodeOf (JsonDumpString h v fl).2 b = nodeOf h b) := by
  have hmain : (JsonDumpString h v fl).2 = h := by
    match v with
    | none => rfl
    | some w =>
      simp only [JsonDumpString]
      split
      · have hd := (dumpH_preserves fl (h.nodes.length + 1)).1 h w
        cases hq : dumpHV fl (h.nodes.length + 1) h w with
        | mk o h2 =>
          rw [hq] at hd
          simp only at hd
          cases o <;> simpa using hd
      · rfl
  exact ⟨hmain, fun x => by rw [hmain], fun b => by rw [hmain]⟩

theorem push_find_self {h2 : Heap} {nd : JNode} :
    (⟨h2.next + 1, (h2.next, 1, nd) :: h2.nodes⟩ : Heap).find h2.next =
      some (1, nd) := by
  show findN h2.next ((h2.next, 1, nd) :: h2.nodes) = some (1, nd)
  simp [findN]

theorem push_find_ne {h2 : Heap} {nd : JNode} {b : Nat} (hne : b ≠ h2.next) :
    (⟨h2.next + 1, (h2.next, 1, nd) :: h2.nodes⟩ : Heap).find b = h2.find b := by
  show findN b ((h2.next, 1, nd) :: h2.nodes) = findN b h2.nodes
  have h1 : ¬ (h2.next = b) := fun hh => hne hh.symm
  simp [findN, h1]

theorem push_nodeOf_lt {h2 : Heap} {nd : JNode} {b : Nat} (hb : b < h2.next) :
    nodeOf (⟨h2.next + 1, (h2.next, 1, nd) :: h2.nodes⟩ : Heap) b = nodeOf h2 b := by
  simp [nodeOf, push_find_ne (show b ≠ h2.next by omega)]

theorem push_wf {h2 : Heap} {nd : JNode} (hwf2 : WfHeap h2) :
    WfHeap ⟨h2.next + 1, (h2.next, 1, nd) :: h2.nodes⟩ := by
  intro b hb
  have hble : h2.next + 1 ≤ b := hb
  rw [push_find_ne (show b ≠ h2.next by omega)]
  exact hwf2 b (by omega)

theorem push_closed {h2 : Heap} {nd : JNode} (hcl2 : ClosedHeap h2)
    (hnd : ∀ c ∈ children nd, ∀ y, c = .addr y → y < h2.next) :
    ClosedHeap ⟨h2.next + 1, (h2.next, 1, nd) :: h2.nodes⟩ := by
  intro a n hn c hc y hy
  show y < h2.next + 1
  by_cases hab : a = h2.next
  · subst hab
    have hnnd : n = nd := by
      rw [show nodeOf (⟨h2.next + 1, (h2.next, 1, nd) :: h2.nodes⟩ : Heap) h2.next =
        some nd from by simp [nodeOf, push_find_self]] at hn
      exact (Option.some.injEq _ _ ▸ hn).symm
    subst hnnd
    have := hnd c hc y hy
    omega
  · have hn2 : nodeOf h2 a = some n := by
      rw [show nodeOf (⟨h2.next + 1, (h2.next, 1, nd) :: h2.nodes⟩ : Heap) a =
        nodeOf h2 a from by simp [nodeOf, push_find_ne hab]] at hn
      exact hn
    have := hcl2 a n hn2 c hc y hy
    omega

theorem toTreeF_frameS (S : Nat → Prop) (H1 H2 : Heap)
    (hagree : ∀ b, S b → nodeOf H2 b = nodeOf H1 b)
    (hclosed : ∀ a n, S a → nodeOf H1 a = some n →
      ∀ c ∈ children n, ∀ y, c = .addr y → S y) :
    ∀ g : Nat,
      (∀ v, (∀ b, v = .addr b → S b) → toTreeF g H2 v = toTreeF g H1 v) ∧
      (∀ es, (∀ w ∈ es, ∀ b, w = .addr b → S b) →
        toTreeLF g H2 es = toTreeLF g H1 es) ∧
      (∀ es : List (String × JVal), (∀ p ∈ es, ∀ b, p.2 = .addr b → S b) →
        toTreeEF g H2 es = toTreeEF g H1 es) := by
  intro g
  induction g with
  | zero => exact ⟨fun v _ => rfl, fun es _ => rfl, fun es _ => rfl⟩
  | succ g ih =>
    obtain ⟨ihV, ihL, ihE⟩ := ih
    refine ⟨fun v hv => ?_, fun es hes => ?_, fun es hes => ?_⟩
    · match v with
      | .jtrue => rfl
      | .jfalse => rfl
      | .jnull => rfl
      | .addr a =>
        have hSa : S a := hv a rfl
        have hag := hagree a hSa
        simp only [toTreeF, hag]
        cases hn : nodeOf H1 a with
        | none => rfl
        | some n =>
          match n with
          | .str s => rfl
          | .int i => rfl
          | .arr es2 =>
            have hch : ∀ w ∈ es2, ∀ b, w = .addr b → S b := by
              intro w hw b hb
              exact hclosed a (.arr es2) hSa hn w hw b hb
            show Option.map JTree.jarr (toTreeLF g H2 es2) =
              Option.map JTree.jarr (toTreeLF g H1 es2)
            rw [ihL es2 hch]
          | .obj es2 =>
            have hch : ∀ p ∈ es2, ∀ b, (p : String × JVal).2 = .addr b → S b := by
              intro p hp b hb
              exact hclosed a (.obj es2) hSa hn p.2 (by
                show p.2 ∈ es2.map Prod.snd
                exact List.mem_map_of_mem Prod.snd hp) b hb
            show Option.map JTree.jobj (toTreeEF g H2 es2) =
              Option.map JTree.jobj (toTreeEF g H1 es2)
            rw [ihE es2 hch]
    · match es with
      | [] => rfl
      | w :: ws =>
        have h1 := ihV w (hes w (List.mem_cons_self w ws))
        have h2 := ihL ws (fun u hu => hes u (List.mem_cons_of_mem w hu))
        simp only [toTreeLF, h1, h2]
    · match es with
      | [] => rfl
      | (k, w) :: ws =>
        have h1 := ihV w (hes (k, w) (List.mem_cons_self (k, w) ws))
        have h2 := ihE ws (fun u hu => hes u (List.mem_cons_of_mem (k, w) hu))
        simp only [toTreeEF, h1, h2]

theorem reachF_closedS (S : Nat → Prop) (H : Heap)
    (hclosed : ∀ z n, S z → nodeOf H z = some n →
      ∀ c ∈ children n, ∀ y, c = .addr y → S y) :
    ∀ g v x, (∀ b, v = .addr b → S b) → reachF g H v x = true → S x := by
  intro g
  induction g with
  | zero =>
    intro v x hv hr
    match v with
    | .jtrue | .jfalse | .jnull => simp [reachF] at hr
    | .addr b =>
      have hbx : b = x := by simpa [reachF] using hr
      exact hbx ▸ hv b rfl
  | succ g ih =>
    intro v x hv hr
    match v with
    | .jtrue | .jfalse | .jnull => simp [reachF] at hr
    | .addr b =>
      have hSb : S b := hv b rfl
      simp only [reachF] at hr
      cases hbx : (b == x) with
      | true =>
        have hbx2 : b = x := by simpa using hbx
        exact hbx2 ▸ hSb
      | false =>
        rw [hbx] at hr
        simp only [Bool.false_or] at hr
        cases hn : nodeOf H b with
        | none =>
          rw [hn] at hr
          simp at hr
        | some n =>
          rw [hn] at hr
          simp only [List.any_eq_true] at hr
          obtain ⟨c, hcmem, hcr⟩ := hr
          exact ih c x (fun y hy => hclosed b n hSb hn c hcmem y hy) hcr

theorem nodeOf_release_of_region (H : Heap) (old : JVal) (R : Nat → Prop)
    (hroot : ∀ y, old = .addr y → R y)
    (hR : ∀ z n, R z → nodeOf H z = some n →
      ∀ c ∈ children n, ∀ y, c = .addr y → R y)
    (b : Nat) (hb : ¬ R b) :
    nodeOf (release H old) b = nodeOf H b := by
  match old with
  | .jtrue => rfl
  | .jfalse => rfl
  | .jnull => rfl
  | .addr y0 =>
    have hnr : ∀ g, reachF g H (.addr y0) b = false := by
      intro g
      cases hq : reachF g H (.addr y0) b with
      | false => rfl
      | true =>
        have := reachF_closedS R H hR g (.addr y0) b
          (fun y hy => by
            injection hy with hy2
            exact hy2 ▸ hroot y0 rfl) hq
        exact absurd this hb
    simp [nodeOf, release_frame hnr]

theorem replE_snd_mem {k : String} {w u : JVal} {es : List (String × JVal)}
    (hu : u ∈ (replE k w es).map Prod.snd) :
    u = w ∨ u ∈ es.map Prod.snd := by
  induction es with
  | nil => simp [replE] at hu
  | cons p ps ih =>
    simp only [replE] at hu
    by_cases hp : p.1 = k
    · rw [if_pos hp] at hu
      simp only [List.map_cons, List.mem_cons] at hu
      rcases hu with hu | hu
      · exact Or.inl hu
      · exact Or.inr (by simp [List.mem_cons]; right; simpa using hu)
    · rw [if_neg hp] at hu
      simp only [List.map_cons, List.mem_cons] at hu
      rcases hu with hu | hu
      · exact Or.inr (by simp [List.mem_cons, hu])
      · rcases ih hu with h | h
        · exact Or.inl h
        · exact Or.inr (by simp [List.mem_cons]; right; simpa using h)

theorem eraseIdx_mem {l : List JVal} {i : Nat} {u : JVal}
    (hu : u ∈ l.eraseIdx i) : u ∈ l := by
  induction l generalizing i with
  | nil => simp [List.eraseIdx] at hu
  | cons x xs ih =>
    match i with
    | 0 =>
      simp only [List.eraseIdx] at hu
      exact List.mem_cons_of_mem x hu
    | i + 1 =>
      simp only [List.eraseIdx] at hu
      rcases List.mem_cons.mp hu with h | h
      · exact h ▸ List.mem_cons_self x xs
      · exact List.mem_cons_of_mem x (ih h)

theorem getElem?_mem_list {l : List JVal} {i : Nat} {x : JVal}
    (h : l[i]? = some x) : x ∈ l := by
  induction l generalizing i with
  | nil => simp at h
  | cons y ys ih =>
    match i with
    | 0 =>
      simp at h
      exact h ▸ List.mem_cons_self y ys
    | i + 1 =>
      simp at h
      exact List.mem_cons_of_mem y (ih h)

theorem cloneF_spec : ∀ f : Nat,
    (∀ h v o h', cloneF f h v = (o, h') → WfHeap h → ClosedHeap h →
      ValBelow v h.next →
      (h.next ≤ h'.next ∧ WfHeap h' ∧ ClosedHeap h' ∧
       (∀ b, b < h.next → h'.find b = h.find b) ∧
       (∀ b, h.next ≤ b → b < h'.next →
         ∃ n, h'.find b = some (1, n) ∧
           ∀ c ∈ children n, ∀ y, c = .addr y → h.next ≤ y ∧ y < b) ∧
       (∀ v2, o = some v2 →
         (∀ b, v2 = .addr b → h.next ≤ b ∧ b < h'.next) ∧
         (∀ g, toTreeF g h' v2 = toTreeF g h v)))) ∧
    (∀ h vs o h', cloneListF f h vs = (o, h') → WfHeap h → ClosedHeap h →
      (∀ w ∈ vs, ValBelow w h.next) →
      (h.next ≤ h'.next ∧ WfHeap h' ∧ ClosedHeap h' ∧
       (∀ b, b < h.next → h'.find b = h.find b) ∧
       (∀ b, h.next ≤ b → b < h'.next →
         ∃ n, h'.find b = some (1, n) ∧
           ∀ c ∈ children n, ∀ y, c = .addr y → h.next ≤ y ∧ y < b) ∧
       (∀ vs2, o = some vs2 →
         (∀ w ∈ vs2, ∀ b, w = .addr b → h.next ≤ b ∧ b < h'.next) ∧
         (∀ g, toTreeLF g h' vs2 = toTreeLF g h vs)))) ∧
    (∀ h es o h', cloneEntriesF f h es = (o, h') → WfHeap h → ClosedHeap h →
      (∀ p ∈ es, ValBelow (Prod.snd p) h.next) →
      (h.next ≤ h'.next ∧ WfHeap h' ∧ ClosedHeap h' ∧
       (∀ b, b < h.next → h'.find b = h.find b) ∧
       (∀ b, h.next ≤ b → b < h'.next →
         ∃ n, h'.find b = some (1, n) ∧
           ∀ c ∈ children n, ∀ y, c = .addr y → h.next ≤ y ∧ y < b) ∧
       (∀ es2, o = some es2 →
         (∀ p ∈ es2, ∀ b, Prod.snd (α := String) p = .addr b →
           h.next ≤ b ∧ b < h'.next) ∧
         (∀ g, toTreeEF g h' es2 = toTreeEF g h es)))) := by
  intro f
  induction f with
  | zero =>
    refine ⟨?_, ?_, ?_⟩ <;>
      (intro h w o h' heq hwf hcl hv
       simp only [cloneF, cloneListF, cloneEntriesF] at heq
       injection heq with h1 h2
       subst h1
       subst h2
       exact ⟨le_rfl, hwf, hcl, fun b _ => rfl,
         fun b hb1 hb2 => absurd hb2 (by omega),
         fun v2 hv2 => by cases hv2⟩)
  | succ f ih =>
    obtain ⟨ihV, ihL, ihE⟩ := ih
    refine ⟨?_, ?_, ?_⟩
    · intro h v o h' heq hwf hcl hv
      match v with
      | .jtrue =>
        simp only [cloneF] at heq
        injection heq with h1 h2
        subst h1
        subst h2
        exact ⟨le_rfl, hwf, hcl, fun b _ => rfl,
          fun b hb1 hb2 => absurd hb2 (by omega),
          fun v2 hv2 => by
            injection hv2 with h3
            subst h3
            exact ⟨fun b hb => (nomatch hb), fun g => rfl⟩⟩
      | .jfalse =>
        simp only [cloneF] at heq
        injection heq with h1 h2
        subst h1
        subst h2
        exact ⟨le_rfl, hwf, hcl, fun b _ => rfl,
          fun b hb1 hb2 => absurd hb2 (by omega),
          fun v2 hv2 => by
            injection hv2 with h3
            subst h3
            exact ⟨fun b hb => (nomatch hb), fun g => rfl⟩⟩
      | .jnull =>
        simp only [cloneF] at heq
        injection heq with h1 h2
        subst h1
        subst h2
        exact ⟨le_rfl, hwf, hcl, fun b _ => rfl,
          fun b hb1 hb2 => absurd hb2 (by omega),
          fun v2 hv2 => by
            injection hv2 with h3
            subst h3
            exact ⟨fun b hb => (nomatch hb), fun g => rfl⟩⟩
      | .addr a =>
        simp only [cloneF] at heq
        split at heq
        · -- dangling address
          injection heq with h1 h2
          subst h1
          subst h2
          exact ⟨le_rfl, hwf, hcl, fun b _ => rfl,
            fun b hb1 hb2 => absurd hb2 (by omega),
            fun v2 hv2 => by cases hv2⟩
        · -- string node
          rename_i s hn
          injection heq with h1 h2
          subst h1
          subst h2
          refine ⟨Nat.le_succ _, push_wf hwf,
            push_closed hcl (by intro c hc y hy; simp [children] at hc),
            fun b hb => push_find_ne (show b ≠ h.next by omega),
            ?_, ?_⟩
          · intro b hb1 hb2
            have hb2' : b < h.next + 1 := hb2
            have hbq : b = h.next := by omega
            subst hbq
            exact ⟨.str s, push_find_self, by intro c hc y hy; simp [children] at hc⟩
          · intro v2 hv2
            injection hv2 with h3
            subst h3
            constructor
            · intro b hb
              injection hb with hb2
              subst hb2
              exact ⟨le_rfl, Nat.lt_succ_self _⟩
            · intro g
              cases g with
              | zero => rfl
              | succ g =>
                have hl : nodeOf (⟨h.next + 1, (h.next, 1, .str s) :: h.nodes⟩ : Heap)
                    h.next = some (.str s) := by simp [nodeOf, push_find_self]
                simp [toTreeF, hl, hn]
        · -- integer node
          rename_i i hn
          injection heq with h1 h2
          subst h1
          subst h2
          refine ⟨Nat.le_succ _, push_wf hwf,
            push_closed hcl (by intro c hc y hy; simp [children] at hc),
            fun b hb => push_find_ne (show b ≠ h.next by omega),
            ?_, ?_⟩
          · intro b hb1 hb2
            have hb2' : b < h.next + 1 := hb2
            have hbq : b = h.next := by omega
            subst hbq
            exact ⟨.int i, push_find_self, by intro c hc y hy; simp [children] at hc⟩
          · intro v2 hv2
            injection hv2 with h3
            subst h3
            constructor
            · intro b hb
              injection hb with hb2
              subst hb2
              exact ⟨le_rfl, Nat.lt_succ_self _⟩
            · intro g
              cases g with
              | zero => rfl
              | succ g =>
                have hl : nodeOf (⟨h.next + 1, (h.next, 1, .int i) :: h.nodes⟩ : Heap)
                    h.next = some (.int i) := by simp [nodeOf, push_find_self]
                simp [toTreeF, hl, hn]
        · -- array node
          rename_i es hn
          have hlv : ∀ w ∈ es, ValBelow w h.next := by
            intro w hw b hb
            exact hcl a (.arr es) hn w hw b hb
          split at heq
          · rename_i es2 h2 hceq
            injection heq with h1 h3
            subst h1
            subst h3
            obtain ⟨hA1a, hwf2, hcl2, hA2a, hA3a, hOa⟩ :=
              ihL h es (some es2) h2 hceq hwf hcl hlv
            obtain ⟨hvs2, htreeL⟩ := hOa es2 rfl
            refine ⟨by show h.next ≤ h2.next + 1; omega, push_wf hwf2,
              push_closed hcl2 (fun c hc y hy => (hvs2 c hc y hy).2),
              ?_, ?_, ?_⟩
            · intro b hb
              rw [push_find_ne (show b ≠ h2.next by omega)]
              exact hA2a b hb
            · intro b hb1 hb2
              have hb2' : b < h2.next + 1 := hb2
              by_cases hbq : b = h2.next
              · subst hbq
                exact ⟨.arr es2, push_find_self,
                  fun c hc y hy => ⟨(hvs2 c hc y hy).1, (hvs2 c hc y hy).2⟩⟩
              · have hblt : b < h2.next := by omega
                obtain ⟨n, hfind, hbound⟩ := hA3a b hb1 hblt
                exact ⟨n, by rw [push_find_ne hbq]; exact hfind, hbound⟩
            · intro v2 hv2
              injection hv2 with h3
              subst h3
              constructor
              · intro b hb
                injection hb with hb2
                subst hb2
                exact ⟨hA1a, Nat.lt_succ_self _⟩
              · intro g
                cases g with
                | zero => rfl
                | succ g =>
                  have hl : nodeOf
                      (⟨h2.next + 1, (h2.next, 1, .arr es2) :: h2.nodes⟩ : Heap)
                      h2.next = some (.arr es2) := by simp [nodeOf, push_find_self]
                  have hstep1 := (toTreeF_frameS (fun b => b < h2.next) h2
                    ⟨h2.next + 1, (h2.next, 1, .arr es2) :: h2.nodes⟩
                    (fun b hb => push_nodeOf_lt hb)
                    (fun a2 n2 _ hnn c hc y hy => hcl2 a2 n2 hnn c hc y hy) g).2.1
                    es2 (fun w hw b hb => (hvs2 w hw b hb).2)
                  simp only [toTreeF, hl, hn]
                  rw [hstep1, htreeL g]
          · rename_i h2 hceq
            injection heq with h1 h3
            subst h1
            subst h3
            obtain ⟨hA1a, hwf2, hcl2, hA2a, hA3a, _⟩ :=
              ihL h es none h2 hceq hwf hcl hlv
            exact ⟨hA1a, hwf2, hcl2, hA2a, hA3a, fun v2 hv2 => by cases hv2⟩
        · -- object node
          rename_i es hn
          have hlv : ∀ p ∈ es, ValBelow (Prod.snd p) h.next := by
            intro p hp b hb
            exact hcl a (.obj es) hn p.2 (List.mem_map_of_mem Prod.snd hp) b hb
          split at heq
          · rename_i es2 h2 hceq
            injection heq with h1 h3
            subst h1
            subst h3
            obtain ⟨hA1a, hwf2, hcl2, hA2a, hA3a, hOa⟩ :=
              ihE h es (some es2) h2 hceq hwf hcl hlv
            obtain ⟨hvs2, htreeE⟩ := hOa es2 rfl
            refine ⟨by show h.next ≤ h2.next + 1; omega, push_wf hwf2,
              push_closed hcl2 (fun c hc y hy => ?_),
              ?_, ?_, ?_⟩
            · obtain ⟨p, hp, hpc⟩ := List.mem_map.mp hc
              exact (hvs2 p hp y (hpc ▸ hy)).2
            · intro b hb
              rw [push_find_ne (show b ≠ h2.next by omega)]
              exact hA2a b hb
            · intro b hb1 hb2
              have hb2' : b < h2.next + 1 := hb2
              by_cases hbq : b = h2.next
              · subst hbq
                refine ⟨.obj es2, push_find_self, fun c hc y hy => ?_⟩
                obtain ⟨p, hp, hpc⟩ := List.mem_map.mp hc
                exact ⟨(hvs2 p hp y (hpc ▸ hy)).1, (hvs2 p hp y (hpc ▸ hy)).2⟩
              · have hblt : b < h2.next := by omega
                obtain ⟨n, hfind, hbound⟩ := hA3a b hb1 hblt
                exact ⟨n, by rw [push_find_ne hbq]; exact hfind, hbound⟩
            · intro v2 hv2
              injection hv2 with h3
              subst h3
              constructor
              · intro b hb
                injection hb with hb2
                subst hb2
                exact ⟨hA1a, Nat.lt_succ_self _⟩
              · intro g
                cases g with
                | zero => rfl
                | succ g =>
                  have hl : nodeOf
                      (⟨h2.next + 1, (h2.next, 1, .obj es2) :: h2.nodes⟩ : Heap)
                      h2.next = some (.obj es2) := by simp [nodeOf, push_find_self]
                  have hstep1 := (toTreeF_frameS (fun b => b < h2.next) h2
                    ⟨h2.next + 1, (h2.next, 1, .obj es2) :: h2.nodes⟩
                    (fun b hb => push_nodeOf_lt hb)
                    (fun a2 n2 _ hnn c hc y hy => hcl2 a2 n2 hnn c hc y hy) g).2.2
                    es2 (fun p hp b hb => (hvs2 p hp b hb).2)
                  simp only [toTreeF, hl, hn]
                  rw [hstep1, htreeE g]
          · rename_i h2 hceq
            injection heq with h1 h3
            subst h1
            subst h3
            obtain ⟨hA1a, hwf2, hcl2, hA2a, hA3a, _⟩ :=
              ihE h es none h2 hceq hwf hcl hlv
            exact ⟨hA1a, hwf2, hcl2, hA2a, hA3a, fun v2 hv2 => by cases hv2⟩
    · intro h vs o h' heq hwf hcl hvs
      match vs with
      | [] =>
        simp only [cloneListF] at heq
        injection heq with h1 h2
        subst h1
        subst h2
        exact ⟨le_rfl, hwf, hcl, fun b _ => rfl,
          fun b hb1 hb2 => absurd hb2 (by omega),
          fun vs2 hvs2 => by
            injection hvs2 with h3
            subst h3
            exact ⟨fun w hw => absurd hw (List.not_mem_nil w), fun g => rfl⟩⟩
      | v :: vs =>
        simp only [cloneListF] at heq
        split at heq
        · rename_i v2 h2 hc1
          obtain ⟨hA1a, hwf2, hcl2, hA2a, hA3a, hOa⟩ :=
            ihV h v (some v2) h2 hc1 hwf hcl (hvs v (List.mem_cons_self v vs))
          obtain ⟨hv2b, htreeV⟩ := hOa v2 rfl
          split at heq
          · rename_i vs2 h3 hc2
            injection heq with h1 h4
            subst h1
            subst h4
            obtain ⟨hA1b, hwf3, hcl3, hA2b, hA3b, hOb⟩ :=
              ihL h2 vs (some vs2) h3 hc2 hwf2 hcl2
                (fun w hw b hb =>
                  lt_of_lt_of_le (hvs w (List.mem_cons_of_mem v hw) b hb) hA1a)
            obtain ⟨hvs2b, htreeL⟩ := hOb vs2 rfl
            refine ⟨le_trans hA1a hA1b, hwf3, hcl3, ?_, ?_, ?_⟩
            · intro b hb
              rw [hA2b b (lt_of_lt_of_le hb hA1a)]
              exact hA2a b hb
            · intro b hb1 hb2
              by_cases hbq : b < h2.next
              · obtain ⟨n, hfind, hbound⟩ := hA3a b hb1 hbq
                exact ⟨n, by rw [hA2b b hbq]; exact hfind, hbound⟩
              · obtain ⟨n, hfind, hbound⟩ := hA3b b (by omega) hb2
                exact ⟨n, hfind,
                  fun c hc y hy => ⟨le_trans hA1a (hbound c hc y hy).1,
                    (hbound c hc y hy).2⟩⟩
            · intro vs2' hvs2'
              injection hvs2' with h5
              subst h5
              constructor
              · intro w hw b hb
                rcases List.mem_cons.mp hw with hw | hw
                · subst hw
                  have := hv2b b hb
                  exact ⟨this.1, lt_of_lt_of_le this.2 hA1b⟩
                · have := hvs2b w hw b hb
                  exact ⟨le_trans hA1a this.1, this.2⟩
              · intro g
                cases g with
                | zero => rfl
                | succ g =>
                  have hstepV : toTreeF g h3 v2 = toTreeF g h2 v2 :=
                    (toTreeF_frameS (fun b => b < h2.next) h2 h3
                      (fun b hb => by simp [nodeOf, hA2b b hb])
                      (fun a2 n2 _ hnn c hc y hy => hcl2 a2 n2 hnn c hc y hy) g).1
                      v2 (fun b hb => (hv2b b hb).2)
                  have hstepT : toTreeLF g h2 vs = toTreeLF g h vs :=
                    (toTreeF_frameS (fun b => b < h.next) h h2
                      (fun b hb => by simp [nodeOf, hA2a b hb])
                      (fun a2 n2 _ hnn c hc y hy => hcl a2 n2 hnn c hc y hy) g).2.1
                      vs (fun w hw b hb => hvs w (List.mem_cons_of_mem v hw) b hb)
                  simp only [toTreeLF]
                  rw [hstepV, htreeV g, htreeL g, hstepT]
          · rename_i h3 hc2
            injection heq with h1 h4
            subst h1
            subst h4
            obtain ⟨hA1b, hwf3, hcl3, hA2b, hA3b, _⟩ :=
              ihL h2 vs none h3 hc2 hwf2 hcl2
                (fun w hw b hb =>
                  lt_of_lt_of_le (hvs w (List.mem_cons_of_mem v hw) b hb) hA1a)
            refine ⟨le_trans hA1a hA1b, hwf3, hcl3, ?_, ?_,
              fun vs2 hvs2 => by cases hvs2⟩
            · intro b hb
              rw [hA2b b (lt_of_lt_of_le hb hA1a)]
              exact hA2a b hb
            · intro b hb1 hb2
              by_cases hbq : b < h2.next
              · obtain ⟨n, hfind, hbound⟩ := hA3a b hb1 hbq
                exact ⟨n, by rw [hA2b b hbq]; exact hfind, hbound⟩
              · obtain ⟨n, hfind, hbound⟩ := hA3b b (by omega) hb2
                exact ⟨n, hfind,
                  fun c hc y hy => ⟨le_trans hA1a (hbound c hc y hy).1,
                    (hbound c hc y hy).2⟩⟩
        · rename_i h2 hc1
          injection heq with h1 h4
          subst h1
          subst h4
          obtain ⟨hA1a, hwf2, hcl2, hA2a, hA3a, _⟩ :=
            ihV h v none h2 hc1 hwf hcl (hvs v (List.mem_cons_self v vs))
          exact ⟨hA1a, hwf2, hcl2, hA2a, hA3a, fun vs2 hvs2 => by cases hvs2⟩
    · intro h es o h' heq hwf hcl hes
      match es with
      | [] =>
        simp only [cloneEntriesF] at heq
        injection heq with h1 h2
        subst h1
        subst h2
        exact ⟨le_rfl, hwf, hcl, fun b _ => rfl,
          fun b hb1 hb2 => absurd hb2 (by omega),
          fun es2 hes2 => by
            injection hes2 with h3
            subst h3
            exact ⟨fun p hp => absurd hp (List.not_mem_nil p), fun g => rfl⟩⟩
      | (k, v) :: es =>
        simp only [cloneEntriesF] at heq
        split at heq
        · rename_i v2 h2 hc1
          obtain ⟨hA1a, hwf2, hcl2, hA2a, hA3a, hOa⟩ :=
            ihV h v (some v2) h2 hc1 hwf hcl
              (hes (k, v) (List.mem_cons_self (k, v) es))
          obtain ⟨hv2b, htreeV⟩ := hOa v2 rfl
          split at heq
          · rename_i es2 h3 hc2
            injection heq with h1 h4
            subst h1
            subst h4
            obtain ⟨hA1b, hwf3, hcl3, hA2b, hA3b, hOb⟩ :=
              ihE h2 es (some es2) h3 hc2 hwf2 hcl2
                (fun p hp b hb =>
                  lt_of_lt_of_le (hes p (List.mem_cons_of_mem (k, v) hp) b hb) hA1a)
            obtain ⟨hvs2b, htreeE⟩ := hOb es2 rfl
            refine ⟨le_trans hA1a hA1b, hwf3, hcl3, ?_, ?_, ?_⟩
            · intro b hb
              rw [hA2b b (lt_of_lt_of_le hb hA1a)]
              exact hA2a b hb
            · intro b hb1 hb2
              by_cases hbq : b < h2.next
              · obtain ⟨n, hfind, hbound⟩ := hA3a b hb1 hbq
                exact ⟨n, by rw [hA2b b hbq]; exact hfind, hbound⟩
              · obtain ⟨n, hfind, hbound⟩ := hA3b b (by omega) hb2
                exact ⟨n, hfind,
                  fun c hc y hy => ⟨le_trans hA1a (hbound c hc y hy).1,
                    (hbound c hc y hy).2⟩⟩
            · intro es2' hes2'
              injection hes2' with h5
              subst h5
              constructor
              · intro p hp b hb
                rcases List.mem_cons.mp hp with hp | hp
                · subst hp
                  have := hv2b b hb
                  exact ⟨this.1, lt_of_lt_of_le this.2 hA1b⟩
                · have := hvs2b p hp b hb
                  exact ⟨le_trans hA1a this.1, this.2⟩
              · intro g
                cases g with
                | zero => rfl
                | succ g =>
                  have hstepV : toTreeF g h3 v2 = toTreeF g h2 v2 :=
                    (toTreeF_frameS (fun b => b < h2.next) h2 h3
                      (fun b hb => by simp [nodeOf, hA2b b hb])
                      (fun a2 n2 _ hnn c hc y hy => hcl2 a2 n2 hnn c hc y hy) g).1
                      v2 (fun b hb => (hv2b b hb).2)
                  have hstepT : toTreeEF g h2 es = toTreeEF g h es :=
                    (toTreeF_frameS (fun b => b < h.next) h h2
                      (fun b hb => by simp [nodeOf, hA2a b hb])
                      (fun a2 n2 _ hnn c hc y hy => hcl a2 n2 hnn c hc y hy) g).2.2
                      es (fun p hp b hb =>
                        hes p (List.mem_cons_of_mem (k, v) hp) b hb)
                  simp only [toTreeEF]
                  rw [hstepV, htreeV g, htreeE g, hstepT]
          · rename_i h3 hc2
            injection heq with h1 h4
            subst h1
            subst h4
            obtain ⟨hA1b, hwf3, hcl3, hA2b, hA3b, _⟩ :=
              ihE h2 es none h3 hc2 hwf2 hcl2
                (fun p hp b hb =>
                  lt_of_lt_of_le (hes p (List.mem_cons_of_mem (k, v) hp) b hb) hA1a)
            refine ⟨le_trans hA1a hA1b, hwf3, hcl3, ?_, ?_,
              fun es2 hes2 => by cases hes2⟩
            · intro b hb
              rw [hA2b b (lt_of_lt_of_le hb hA1a)]
              exact hA2a b hb
            · intro b hb1 hb2
              by_cases hbq : b < h2.next
              · obtain ⟨n, hfind, hbound⟩ := hA3a b hb1 hbq
                exact ⟨n, by rw [hA2b b hbq]; exact hfind, hbound⟩
              · obtain ⟨n, hfind, hbound⟩ := hA3b b (by omega) hb2
                exact ⟨n, hfind,
                  fun c hc y hy => ⟨le_trans hA1a (hbound c hc y hy).1,
                    (hbound c hc y hy).2⟩⟩
        · rename_i h2 hc1
          injection heq with h1 h4
          subst h1
          subst h4
          obtain ⟨hA1a, hwf2, hcl2, hA2a, hA3a, _⟩ :=
            ihV h v none h2 hc1 hwf hcl
              (hes (k, v) (List.mem_cons_self (k, v) es))
          exact ⟨hA1a, hwf2, hcl2, hA2a, hA3a, fun es2 hes2 => by cases hes2⟩

/-- **C3**: `JsonValueClone` produces a fully fresh value graph: the
original heap region is untouched, every node reachable from the clone
is a new node with reference count 1 (no node is shared with the
original), the clone reads back as the same tree as the original, and a
single mutation through the API on the clone leaves the original's tree
unchanged while a single mutation on the original (attaching
original-world values, per the spec's no-sharing obligation) leaves the
clone's tree unchanged. -/
theorem claim_C3_clone_independence (h : Heap) (v v2 : JVal) (h2 : Heap)
    (hwf : WfHeap h) (hcl : ClosedHeap h) (hv : ValBelow v h.next)
    (hclone : JsonValueClone h (some v) = (some v2, h2)) :
    (∀ b, b < h.next → h2.find b = h.find b) ∧
    (∀ g x, reachF g h2 v2 x = true →
      h.find x = none ∧ ∃ n, h2.find x = some (1, n)) ∧
    (∀ g, toTreeF g h2 v2 = toTreeF g h v) ∧
    (∀ op, targetOf op = some v2 →
      ∀ g, toTreeF g (step h2 op) v = toTreeF g h v) ∧
    (∀ op, targetOf op = some v →
      (∀ w, attachedOf op = some w → ValBelow w h.next) →
      ∀ g, toTreeF g (step h2 op) v2 = toTreeF g h v) := by
  have hceq : cloneF (h.nodes.length + 1) h v = (some v2, h2) := hclone
  obtain ⟨hA1, hwf2, hcl2, hA2, hA3, hO⟩ :=
    (cloneF_spec (h.nodes.length + 1)).1 h v (some v2) h2 hceq hwf hcl hv
  obtain ⟨hv2b, htree⟩ := hO v2 rfl
  -- children of fresh nodes point strictly downwards inside the fresh range
  have hchild2 : ∀ z n, h.next ≤ z → z < h2.next → nodeOf h2 z = some n →
      ∀ c ∈ children n, ∀ y, c = .addr y → h.next ≤ y ∧ y < z := by
    intro z n hz1 hz2 hnn c hc y hy
    obtain ⟨nz, hfz, hbz⟩ := hA3 z hz1 hz2
    have hnz : nodeOf h2 z = some nz := by simp [nodeOf, hfz]
    rw [hnn] at hnz
    have hnzn := Option.some.inj hnz
    subst hnzn
    exact hbz c hc y hy
  -- the fresh interval is closed under children
  have hSf : ∀ z n, (h.next ≤ z ∧ z < h2.next) → nodeOf h2 z = some n →
      ∀ c ∈ children n, ∀ y, c = .addr y → h.next ≤ y ∧ y < h2.next := by
    intro z n hz hnn c hc y hy
    have := hchild2 z n hz.1 hz.2 hnn c hc y hy
    exact ⟨this.1, by omega⟩
  have hrootf : ∀ b, v2 = .addr b → h.next ≤ b ∧ b < h2.next := hv2b
  -- the original region (addresses below the old cursor) is closed in h2
  have hclsd_low : ∀ a n, nodeOf h2 a = some n → a < h.next →
      ∀ c ∈ children n, ∀ y, c = .addr y → y < h.next := by
    intro a n hnn ha c hc y hy
    have heqn : nodeOf h2 a = nodeOf h a := by simp [nodeOf, hA2 a ha]
    exact hcl a n (heqn ▸ hnn) c hc y hy
  have hbase : ∀ g, toTreeF g h2 v = toTreeF g h v := fun g =>
    (toTreeF_frameS (fun b => b < h.next) h h2
      (fun b hb => by simp [nodeOf, hA2 b hb])
      (fun a n _ hnn c hc y hy => hcl a n hnn c hc y hy) g).1 v hv
  refine ⟨hA2, ?_, htree, ?_, ?_⟩
  · -- every clone node is fresh with reference count 1
    intro g x hr
    have hSx := reachF_closedS (fun z => h.next ≤ z ∧ z < h2.next) h2 hSf g v2 x
      hrootf hr
    obtain ⟨n, hfind, _⟩ := hA3 x hSx.1 hSx.2
    exact ⟨hwf x hSx.1, n, hfind⟩
  · -- a mutation on the clone leaves the original tree unchanged
    intro op htar g
    have hfr : ∀ b, b < h.next → nodeOf (step h2 op) b = nodeOf h2 b := by
      intro b hb
      match op with
      | .retainOp t =>
        simp only [targetOf] at htar
        subst htar
        exact nodeOf_retain h2 v2 b
      | .releaseOp t =>
        simp only [targetOf] at htar
        subst htar
        show nodeOf (release h2 v2) b = nodeOf h2 b
        exact nodeOf_release_of_region h2 v2 (fun z => h.next ≤ z ∧ z < h2.next)
          hrootf
          (fun z n hz hnn c hc y hy => hSf z n hz hnn c hc y hy)
          b (by intro hS; have := hS.1; omega)
      | .setOp t k w =>
        simp only [targetOf] at htar
        subst htar
        show nodeOf (JsonObjectSetValue h2 (some v2) k w).2 b = nodeOf h2 b
        match v2, hrootf with
        | .jtrue, _ => rfl
        | .jfalse, _ => rfl
        | .jnull, _ => rfl
        | .addr a2, hrootf =>
          have ha2 := hrootf a2 rfl
          have hba2 : b ≠ a2 := by omega
          cases hf2 : h2.find a2 with
          | none => simp [JsonObjectSetValue, hf2]
          | some p =>
            match p with
            | (rc, .str s) => simp [JsonObjectSetValue, hf2]
            | (rc, .int i) => simp [JsonObjectSetValue, hf2]
            | (rc, .arr es) => simp [JsonObjectSetValue, hf2]
            | (rc, .obj es) =>
              have hnn2 : nodeOf h2 a2 = some (.obj es) := by simp [nodeOf, hf2]
              cases hfd : findE k es with
              | none =>
                simp only [JsonObjectSetValue, hf2, hfd]
                exact nodeOf_upd_retain_ne _ w hba2
              | some old =>
                simp only [JsonObjectSetValue, hf2, hfd]
                have hold : ∀ y, old = .addr y → h.next ≤ y ∧ y < a2 := by
                  intro y hy
                  exact hchild2 a2 (.obj es) ha2.1 ha2.2 hnn2 old
                    (findE_some_mem_values hfd) y hy
                have hrel := nodeOf_release_of_region
                  (retain (h2.upd a2 (rc, .obj (replE k w es))) w) old
                  (fun z => h.next ≤ z ∧ z < a2) hold
                  (by
                    intro z n hz hnn c hc y hy
                    have hza2 : z ≠ a2 := by omega
                    rw [nodeOf_upd_retain_ne _ w hza2] at hnn
                    have := hchild2 z n hz.1 (by omega) hnn c hc y hy
                    exact ⟨this.1, by omega⟩)
                  b (by intro hS; have := hS.1; omega)
                rw [hrel]
                exact nodeOf_upd_retain_ne _ w hba2
      | .appendOp t w =>
        simp only [targetOf] at htar
        subst htar
        show nodeOf (JsonArrayAppendValue h2 (some v2) w).2 b = nodeOf h2 b
        match v2, hrootf with
        | .jtrue, _ => rfl
        | .jfalse, _ => rfl
        | .jnull, _ => rfl
        | .addr a2, hrootf =>
          have ha2 := hrootf a2 rfl
          have hba2 : b ≠ a2 := by omega
          cases hf2 : h2.find a2 with
          | none => simp [JsonArrayAppendValue, hf2]
          | some p =>
            match p with
            | (rc, .str s) => simp [JsonArrayAppendValue, hf2]
            | (rc, .int i) => simp [JsonArrayAppendValue, hf2]
            | (rc, .obj es) => simp [JsonArrayAppendValue, hf2]
            | (rc, .arr es) =>
              simp only [JsonArrayAppendValue, hf2]
              exact nodeOf_upd_retain_ne _ w hba2
      | .removeOp t i =>
        simp only [targetOf] at htar
        subst htar
        show nodeOf (JsonArrayRemoveValue h2 (some v2) i).2 b = nodeOf h2 b
        match v2, hrootf with
        | .jtrue, _ => rfl
        | .jfalse, _ => rfl
        | .jnull, _ => rfl
        | .addr a2, hrootf =>
          have ha2 := hrootf a2 rfl
          have hba2 : b ≠ a2 := by omega
          cases hf2 : h2.find a2 with
          | none => simp [JsonArrayRemoveValue, hf2]
          | some p =>
            match p with
            | (rc, .str s) => simp [JsonArrayRemoveValue, hf2]
            | (rc, .int i2) => simp [JsonArrayRemoveValue, hf2]
            | (rc, .obj es) => simp [JsonArrayRemoveValue, hf2]
            | (rc, .arr es) =>
              have hnn2 : nodeOf h2 a2 = some (.arr es) := by simp [nodeOf, hf2]
              cases hgx : es[i]? with
              | none => simp [JsonArrayRemoveValue, hf2, hgx]
              | some x =>
                simp only [JsonArrayRemoveValue, hf2, hgx]
                have hxmem : x ∈ es := getElem?_mem_list hgx
                have hxb : ∀ y, x = .addr y → h.next ≤ y ∧ y < a2 := by
                  intro y hy
                  exact hchild2 a2 (.arr es) ha2.1 ha2.2 hnn2 x hxmem y hy
                have hrel := nodeOf_release_of_region
                  (h2.upd a2 (rc, .arr (es.eraseIdx i))) x
                  (fun z => h.next ≤ z ∧ z < a2) hxb
                  (by
                    intro z n hz hnn c hc y hy
                    have hza2 : z ≠ a2 := by omega
                    rw [nodeOf_upd_ne _ hza2] at hnn
                    have := hchild2 z n hz.1 (by omega) hnn c hc y hy
                    exact ⟨this.1, by omega⟩)
                  b (by intro hS; have := hS.1; omega)
                rw [hrel]
                exact nodeOf_upd_ne _ hba2
    have hfin := (toTreeF_frameS (fun b => b < h.next) h2 (step h2 op)
      (fun b hb => hfr b hb)
      (fun a n ha hnn c hc y hy => hclsd_low a n hnn ha c hc y hy) g).1 v hv
    rw [hfin]
    exact hbase g
  · -- a mutation on the original leaves the clone tree unchanged
    intro op htar hatt g
    have hfr : ∀ b, h.next ≤ b → b < h2.next → nodeOf (step h2 op) b = nodeOf h2 b := by
      intro b hb1 hb2
      match op with
      | .retainOp t =>
        simp only [targetOf] at htar
        subst htar
        exact nodeOf_retain h2 v b
      | .releaseOp t =>
        simp only [targetOf] at htar
        subst htar
        show nodeOf (release h2 v) b = nodeOf h2 b
        exact nodeOf_release_of_region h2 v (fun z => z < h.next) hv
          (fun z n hz hnn c hc y hy => hclsd_low z n hnn hz c hc y hy)
          b (by omega)
      | .setOp t k w =>
        simp only [targetOf] at htar
        subst htar
        have hattw : ValBelow w h.next := hatt w (by simp [attachedOf])
        show nodeOf (JsonObjectSetValue h2 (some v) k w).2 b = nodeOf h2 b
        match v, hv with
        | .jtrue, _ => rfl
        | .jfalse, _ => rfl
        | .jnull, _ => rfl
        | .addr a0, hv =>
          have ha0 : a0 < h.next := hv a0 rfl
          have hba0 : b ≠ a0 := by omega
          cases hf0 : h2.find a0 with
          | none => simp [JsonObjectSetValue, hf0]
          | some p =>
            match p with
            | (rc, .str s) => simp [JsonObjectSetValue, hf0]
            | (rc, .int i) => simp [JsonObjectSetValue, hf0]
            | (rc, .arr es) => simp [JsonObjectSetValue, hf0]
            | (rc, .obj es) =>
              have hnn0 : nodeOf h2 a0 = some (.obj es) := by simp [nodeOf, hf0]
              have hchild : ∀ c ∈ children (JNode.obj es), ∀ y, c = .addr y →
                  y < h.next := fun c hc y hy => hclsd_low a0 _ hnn0 ha0 c hc y hy
              cases hfd : findE k es with
              | none =>
                simp only [JsonObjectSetValue, hf0, hfd]
                exact nodeOf_upd_retain_ne _ w hba0
              | some old =>
                simp only [JsonObjectSetValue, hf0, hfd]
                have hold : ∀ y, old = .addr y → y < h.next := by
                  intro y hy
                  exact hchild old (findE_some_mem_values hfd) y hy
                have hfself : (h2.find a0).isSome := by simp [hf0]
                have hrel := nodeOf_release_of_region
                  (retain (h2.upd a0 (rc, .obj (replE k w es))) w) old
                  (fun z => z < h.next) hold
                  (by
                    intro z n hz hnn c hc y hy
                    by_cases hza0 : z = a0
                    · subst hza0
                      have hupd : nodeOf (retain (h2.upd z (rc, .obj (replE k w es))) w) z
                          = some (.obj (replE k w es)) := by
                        rw [nodeOf_retain]
                        simp [nodeOf, find_upd_self hfself]
                      rw [hupd] at hnn
                      have hnn' := Option.some.inj hnn
                      subst hnn'
                      rcases replE_snd_mem hc with hcw | hces
                      · exact hattw y (hcw ▸ hy)
                      · exact hchild c hces y hy
                    · rw [nodeOf_upd_retain_ne _ w hza0] at hnn
                      exact hclsd_low z n hnn hz c hc y hy)
                  b (by omega)
                rw [hrel]
                exact nodeOf_upd_retain_ne _ w hba0
      | .appendOp t w =>
        simp only [targetOf] at htar
        subst htar
        show nodeOf (JsonArrayAppendValue h2 (some v) w).2 b = nodeOf h2 b
        match v, hv with
        | .jtrue, _ => rfl
        | .jfalse, _ => rfl
        | .jnull, _ => rfl
        | .addr a0, hv =>
          have ha0 : a0 < h.next := hv a0 rfl
          have hba0 : b ≠ a0 := by omega
          cases hf0 : h2.find a0 with
          | none => simp [JsonArrayAppendValue, hf0]
          | some p =>
            match p with
            | (rc, .str s) => simp [JsonArrayAppendValue, hf0]
            | (rc, .int i) => simp [JsonArrayAppendValue, hf0]
            | (rc, .obj es) => simp [JsonArrayAppendValue, hf0]
            | (rc, .arr es) =>
              simp only [JsonArrayAppendValue, hf0]
              exact nodeOf_upd_retain_ne _ w hba0
      | .removeOp t i =>
        simp only [targetOf] at htar
        subst htar
        show nodeOf (JsonArrayRemoveValue h2 (some v) i).2 b = nodeOf h2 b
        match v, hv with
        | .jtrue, _ => rfl
        | .jfalse, _ => rfl
        | .jnull, _ => rfl
        | .addr a0, hv =>
          have ha0 : a0 < h.next := hv a0 rfl
          have hba0 : b ≠ a0 := by omega
          cases hf0 : h2.find a0 with
          | none => simp [JsonArrayRemoveValue, hf0]
          | some p =>
            match p with
            | (rc, .str s) => simp [JsonArrayRemoveValue, hf0]
            | (rc, .int i2) => simp [JsonArrayRemoveValue, hf0]
            | (rc, .obj es) => simp [JsonArrayRemoveValue, hf0]
            | (rc, .arr es) =>
              have hnn0 : nodeOf h2 a0 = some (.arr es) := by simp [nodeOf, hf0]
              have hchild : ∀ c ∈ children (JNode.arr es), ∀ y, c = .addr y →
                  y < h.next := fun c hc y hy => hclsd_low a0 _ hnn0 ha0 c hc y hy
              cases hgx : es[i]? with
              | none => simp [JsonArrayRemoveValue, hf0, hgx]
              | some x =>
                simp only [JsonArrayRemoveValue, hf0, hgx]
                have hxb : ∀ y, x = .addr y → y < h.next := by
                  intro y hy
                  exact hchild x (getElem?_mem_list hgx) y hy
                have hrel := nodeOf_release_of_region
                  (h2.upd a0 (rc, .arr (es.eraseIdx i))) x
                  (fun z => z < h.next) hxb
                  (by
                    intro z n hz hnn c hc y hy
                    by_cases hza0 : z = a0
                    · subst hza0
                      have hfself : (h2.find z).isSome := by simp [hf0]
                      have hupd : nodeOf (h2.upd z (rc, .arr (es.eraseIdx i))) z
                          = some (.arr (es.eraseIdx i)) := by
                        simp [nodeOf, find_upd_self hfself]
                      rw [hupd] at hnn
                      have hnn' := Option.some.inj hnn
                      subst hnn'
                      exact hchild c (eraseIdx_mem hc) y hy
                    · rw [nodeOf_upd_ne _ hza0] at hnn
                      exact hclsd_low z n hnn hz c hc y hy)
                  b (by omega)
                rw [hrel]
                exact nodeOf_upd_ne _ hba0
    have hfin := (toTreeF_frameS (fun b => h.next ≤ b ∧ b < h2.next) h2 (step h2 op)
      (fun b hb => hfr b hb.1 hb.2)
      (fun a n ha hnn c hc y hy => hSf a n ha hnn c hc y hy) g).1 v2 hrootf
    rw [hfin]
    exact htree g

/-- Closed witness for C3: cloning a one-node heap holding the integer 5. -/
theorem claim_C3_clone_independence_witness :
    (⟨2, [(1, 1, .int 5), (0, 1, .int 5)]⟩ : Heap).find 0 =
      (⟨1, [(0, 1, .int 5)]⟩ : Heap).find 0 ∧
    ((⟨1, [(0, 1, .int 5)]⟩ : Heap).find 1 = none ∧
      ∃ n, (⟨2, [(1, 1, .int 5), (0, 1, .int 5)]⟩ : Heap).find 1 = some (1, n)) ∧
    toTreeF 1 (⟨2, [(1, 1, .int 5), (0, 1, .int 5)]⟩ : Heap) (.addr 1) =
      toTreeF 1 (⟨1, [(0, 1, .int 5)]⟩ : Heap) (.addr 0) ∧
    toTreeF 1 (step (⟨2, [(1, 1, .int 5), (0, 1, .int 5)]⟩ : Heap)
        (.releaseOp (some (.addr 1)))) (.addr 0) =
      toTreeF 1 (⟨1, [(0, 1, .int 5)]⟩ : Heap) (.addr 0) ∧
    toTreeF 1 (step (⟨2, [(1, 1, .int 5), (0, 1, .int 5)]⟩ : Heap)
        (.releaseOp (some (.addr 0)))) (.addr 1) =
      toTreeF 1 (⟨1, [(0, 1, .int 5)]⟩ : Heap) (.addr 0) := by
  have hwf : WfHeap ⟨1, [(0, 1, .int 5)]⟩ := by
    intro b hb
    have hb' : 1 ≤ b := hb
    show findN b [(0, 1, JNode.int 5)] = none
    have h0 : ¬ ((0 : Nat) = b) := by omega
    simp [findN, h0]
  have hcl : ClosedHeap ⟨1, [(0, 1, .int 5)]⟩ := by
    intro a n hn c hc y hy
    by_cases ha : a = 0
    · subst ha
      have hn5 : n = .int 5 := by
        simp [nodeOf, Heap.find, findN] at hn
        exact hn.symm
      subst hn5
      simp [children] at hc
    · have h0 : ¬ ((0 : Nat) = a) := fun hh => ha hh.symm
      simp [nodeOf, Heap.find, findN, h0] at hn
  have hv : ValBelow (.addr 0) (⟨1, [(0, 1, .int 5)]⟩ : Heap).next := by
    intro b hb
    injection hb with h1
    subst h1
    decide
  have hmain := claim_C3_clone_independence ⟨1, [(0, 1, .int 5)]⟩ (.addr 0)
    (.addr 1) ⟨2, [(1, 1, .int 5), (0, 1, .int 5)]⟩ hwf hcl hv rfl
  exact ⟨hmain.1 0 (by decide),
    hmain.2.1 0 1 (by decide),
    hmain.2.2.1 1,
    hmain.2.2.2.1 (.releaseOp (some (.addr 1))) rfl 1,
    hmain.2.2.2.2 (.releaseOp (some (.addr 0))) rfl (fun w hw => (nomatch hw)) 1⟩

end JsonLib
